import Mathlib

/-!
AEGIS-256 (crypto/aegis256.c): a shallow embedding and its properties

Bytes are natural numbers, a byte buffer is a `List Nat`, and a buffer is read
through `List.getD _ _ 0`.  A `union aegis_block` is the 16 bytes at the start of
such a buffer.  Pointers into flat memory are modelled as the list of bytes found
from the pointer on (advancing a pointer is `List.drop`); where the C code inspects
the address itself (`AEGIS_ALIGNED`), the address is carried next to the bytes.
-/

namespace Aegis256

set_option linter.unusedVariables false

/-! ## Constants of aegis256.c and of the headers it includes -/

def AEGIS_BLOCK_SIZE : Nat := 16
def AEGIS256_NONCE_SIZE : Nat := 32
def AEGIS256_STATE_BLOCKS : Nat := 6
def AEGIS256_KEY_SIZE : Nat := 32
def AEGIS256_MIN_AUTH_SIZE : Nat := 8
def AEGIS256_MAX_AUTH_SIZE : Nat := 16

/-- Linux errno `EINVAL` (errno-base.h, not part of the sources at hand). -/
def EINVAL : Int := 22
/-- Linux errno `EBADMSG` (errno.h, not part of the sources at hand). -/
def EBADMSG : Int := 74
/-- Flag of linux/crypto.h reported by `setkey` for a bad key length. -/
def CRYPTO_TFM_RES_BAD_KEY_LEN : Nat := 0x00200000

/-- A `union aegis_block`: 16 bytes, `bytes[i]` being `b.getD i 0`. -/
abbrev aegis_block := List Nat

/-! ## Memory helpers -/

/-- The `n` bytes found at `p` (bytes past the end of the list read as 0). -/
def bytes_of (p : List Nat) (n : Nat) : List Nat :=
  (List.range n).map (fun i => p.getD i 0)

/-- C `memcpy(dst, src, n)`: the memory at `dst` afterwards. -/
def memcpy (dst src : List Nat) (n : Nat) : List Nat :=
  bytes_of src n ++ dst.drop n

/-- C `memcpy(dst + off, src, n)`: the memory at `dst` afterwards. -/
def memcpy_at (dst : List Nat) (off : Nat) (src : List Nat) (n : Nat) : List Nat :=
  bytes_of dst off ++ memcpy (dst.drop off) src n

/-- C `memset(dst + off, 0, n)`: the memory at `dst` afterwards. -/
def memset_zero_at (dst : List Nat) (off n : Nat) : List Nat :=
  bytes_of dst off ++ (List.replicate n 0 ++ dst.drop (off + n))

/-- The zero-initialised block of `union aegis_block x = {}`. -/
def aegis_block_zero : aegis_block := List.replicate AEGIS_BLOCK_SIZE 0

/-! ## BlockOps (aegis.h) -/

/-- Modelled from the spec: `crypto_aegis_block_xor` of aegis.h, which is not among the
sources; spec 4.1 `xor(a, b) -> c`: bytewise XOR of two 16-byte blocks. -/
def crypto_aegis_block_xor (dst src : aegis_block) : aegis_block :=
  (List.range AEGIS_BLOCK_SIZE).map (fun i => dst.getD i 0 ^^^ src.getD i 0)

/-- Modelled from the spec: `crypto_aegis_block_and` of aegis.h, which is not among the
sources; spec 4.1 `and(a, b) -> c`: bytewise AND of two 16-byte blocks. -/
def crypto_aegis_block_and (dst src : aegis_block) : aegis_block :=
  (List.range AEGIS_BLOCK_SIZE).map (fun i => dst.getD i 0 &&& src.getD i 0)

/-- Modelled from the spec: `crypto_xor(dst, src, size)` of crypto/algapi.h, which is not
among the sources: XOR the first `size` bytes of `src` into `dst`. -/
def crypto_xor (dst src : List Nat) (size : Nat) : List Nat :=
  (List.range size).map (fun i => dst.getD i 0 ^^^ src.getD i 0) ++ dst.drop size

/-- The AES S-box (FIPS 197, figure 7). -/
def aes_sbox : List Nat :=
  [
   0x63, 0x7c, 0x77, 0x7b, 0xf2, 0x6b, 0x6f, 0xc5, 0x30, 0x01, 0x67, 0x2b, 0xfe, 0xd7, 0xab, 0x76,
   0xca, 0x82, 0xc9, 0x7d, 0xfa, 0x59, 0x47, 0xf0, 0xad, 0xd4, 0xa2, 0xaf, 0x9c, 0xa4, 0x72, 0xc0,
   0xb7, 0xfd, 0x93, 0x26, 0x36, 0x3f, 0xf7, 0xcc, 0x34, 0xa5, 0xe5, 0xf1, 0x71, 0xd8, 0x31, 0x15,
   0x04, 0xc7, 0x23, 0xc3, 0x18, 0x96, 0x05, 0x9a, 0x07, 0x12, 0x80, 0xe2, 0xeb, 0x27, 0xb2, 0x75,
   0x09, 0x83, 0x2c, 0x1a, 0x1b, 0x6e, 0x5a, 0xa0, 0x52, 0x3b, 0xd6, 0xb3, 0x29, 0xe3, 0x2f, 0x84,
   0x53, 0xd1, 0x00, 0xed, 0x20, 0xfc, 0xb1, 0x5b, 0x6a, 0xcb, 0xbe, 0x39, 0x4a, 0x4c, 0x58, 0xcf,
   0xd0, 0xef, 0xaa, 0xfb, 0x43, 0x4d, 0x33, 0x85, 0x45, 0xf9, 0x02, 0x7f, 0x50, 0x3c, 0x9f, 0xa8,
   0x51, 0xa3, 0x40, 0x8f, 0x92, 0x9d, 0x38, 0xf5, 0xbc, 0xb6, 0xda, 0x21, 0x10, 0xff, 0xf3, 0xd2,
   0xcd, 0x0c, 0x13, 0xec, 0x5f, 0x97, 0x44, 0x17, 0xc4, 0xa7, 0x7e, 0x3d, 0x64, 0x5d, 0x19, 0x73,
   0x60, 0x81, 0x4f, 0xdc, 0x22, 0x2a, 0x90, 0x88, 0x46, 0xee, 0xb8, 0x14, 0xde, 0x5e, 0x0b, 0xdb,
   0xe0, 0x32, 0x3a, 0x0a, 0x49, 0x06, 0x24, 0x5c, 0xc2, 0xd3, 0xac, 0x62, 0x91, 0x95, 0xe4, 0x79,
   0xe7, 0xc8, 0x37, 0x6d, 0x8d, 0xd5, 0x4e, 0xa9, 0x6c, 0x56, 0xf4, 0xea, 0x65, 0x7a, 0xae, 0x08,
   0xba, 0x78, 0x25, 0x2e, 0x1c, 0xa6, 0xb4, 0xc6, 0xe8, 0xdd, 0x74, 0x1f, 0x4b, 0xbd, 0x8b, 0x8a,
   0x70, 0x3e, 0xb5, 0x66, 0x48, 0x03, 0xf6, 0x0e, 0x61, 0x35, 0x57, 0xb9, 0x86, 0xc1, 0x1d, 0x9e,
   0xe1, 0xf8, 0x98, 0x11, 0x69, 0xd9, 0x8e, 0x94, 0x9b, 0x1e, 0x87, 0xe9, 0xce, 0x55, 0x28, 0xdf,
   0x8c, 0xa1, 0x89, 0x0d, 0xbf, 0xe6, 0x42, 0x68, 0x41, 0x99, 0x2d, 0x0f, 0xb0, 0x54, 0xbb, 0x16
  ]

/-- Multiplication by x in GF(2^8) modulo x^8 + x^4 + x^3 + x + 1. -/
def aes_xtime (x : Nat) : Nat :=
  if x < 128 then 2 * x else ((2 * x) % 256) ^^^ 0x1b

/-- SubBytes followed by ShiftRows: the byte in row `r` of column `c` afterwards. -/
def aes_sub_shift (s : aegis_block) (c r : Nat) : Nat :=
  aes_sbox.getD (s.getD ((4 * c + 5 * r) % 16) 0) 0

/-- MixColumns on one column `a0 a1 a2 a3`. -/
def aes_mix_column (a0 a1 a2 a3 : Nat) : List Nat :=
  [ aes_xtime a0 ^^^ (aes_xtime a1 ^^^ a1) ^^^ a2 ^^^ a3,
    a0 ^^^ aes_xtime a1 ^^^ (aes_xtime a2 ^^^ a2) ^^^ a3,
    a0 ^^^ a1 ^^^ aes_xtime a2 ^^^ (aes_xtime a3 ^^^ a3),
    (aes_xtime a0 ^^^ a0) ^^^ a1 ^^^ a2 ^^^ aes_xtime a3 ]

/-- One column of the AES round applied to `s`. -/
def aes_round_column (s : aegis_block) (c : Nat) : List Nat :=
  aes_mix_column (aes_sub_shift s c 0) (aes_sub_shift s c 1)
    (aes_sub_shift s c 2) (aes_sub_shift s c 3)

/-- The AES round without key addition: SubBytes, ShiftRows, MixColumns. -/
def aes_round (s : aegis_block) : aegis_block :=
  aes_round_column s 0 ++ aes_round_column s 1 ++ aes_round_column s 2 ++ aes_round_column s 3

/-- Modelled from the spec: `crypto_aegis_aesenc(dst, src, key)` of aegis.h, which is not
among the sources; spec 4.1 `aesRound(a, b) -> c`: the single-round AES transformation
(byte substitution, row rotation, column mixing, no key addition) of `src`, XORed with
`key`.  The value returned is what the call leaves in `*dst`. -/
def crypto_aegis_aesenc (src key : aegis_block) : aegis_block :=
  crypto_aegis_block_xor (aes_round src) key

/-- Modelled from the spec: `crypto_aegis_const[0]` of aegis.h, which is not among the
sources; spec 3: the first published AEGIS constant. -/
def crypto_aegis_const_0 : aegis_block :=
  [0x00, 0x01, 0x01, 0x02, 0x03, 0x05, 0x08, 0x0d, 0x15, 0x22, 0x37, 0x59, 0x90, 0xe9, 0x79, 0x62]

/-- Modelled from the spec: `crypto_aegis_const[1]` of aegis.h, which is not among the
sources; spec 3: the second published AEGIS constant. -/
def crypto_aegis_const_1 : aegis_block :=
  [0xdb, 0x3d, 0x18, 0x55, 0x6d, 0xc2, 0x2f, 0xf1, 0x20, 0x11, 0x31, 0x42, 0x73, 0xb5, 0x28, 0xdd]

/-! ## StateEngine -/

/-- The `struct aegis_state`: `blocks[0]` .. `blocks[5]`. -/
structure aegis_state where
  b0 : aegis_block
  b1 : aegis_block
  b2 : aegis_block
  b3 : aegis_block
  b4 : aegis_block
  b5 : aegis_block
deriving DecidableEq, Repr

/-- Read of `state->blocks[i]`. -/
def aegis_state.get (s : aegis_state) : Nat → aegis_block
  | 0 => s.b0
  | 1 => s.b1
  | 2 => s.b2
  | 3 => s.b3
  | 4 => s.b4
  | _ => s.b5

/-- Write of `state->blocks[i]`. -/
def aegis_state.set (s : aegis_state) (i : Nat) (v : aegis_block) : aegis_state :=
  match i with
  | 0 => { s with b0 := v }
  | 1 => { s with b1 := v }
  | 2 => { s with b2 := v }
  | 3 => { s with b3 := v }
  | 4 => { s with b4 := v }
  | _ => { s with b5 := v }

/-- The loop `for (i = 5; i > 0; i--) aesenc(&blocks[i], &blocks[i - 1], &blocks[i])`
of `crypto_aegis256_update`, entered with the given `i`. -/
def crypto_aegis256_update_loop : Nat → aegis_state → aegis_state
  | 0, state => state
  | i + 1, state =>
    crypto_aegis256_update_loop i
      (state.set (i + 1) (crypto_aegis_aesenc (state.get i) (state.get (i + 1))))

/-- Embedding of `crypto_aegis256_update` (aegis256.c:43). -/
def crypto_aegis256_update (state : aegis_state) : aegis_state :=
  let tmp := state.get (AEGIS256_STATE_BLOCKS - 1)
  let state := crypto_aegis256_update_loop (AEGIS256_STATE_BLOCKS - 1) state
  state.set 0 (crypto_aegis_aesenc tmp (state.get 0))

/-- Embedding of `crypto_aegis256_update_a` (aegis256.c:55). -/
def crypto_aegis256_update_a (state : aegis_state) (msg : aegis_block) : aegis_state :=
  let state := crypto_aegis256_update state
  state.set 0 (crypto_aegis_block_xor (state.get 0) msg)

/-- Embedding of `crypto_aegis256_update_u` (aegis256.c:62). -/
def crypto_aegis256_update_u (state : aegis_state) (msg : List Nat) : aegis_state :=
  let state := crypto_aegis256_update state
  state.set 0 (crypto_xor (state.get 0) msg AEGIS_BLOCK_SIZE)

/-- The loop `for (i = 0; i < 4; i++)` of `crypto_aegis256_init`, with `n` rounds left. -/
def crypto_aegis256_init_loop (key0 key1 key_iv0 key_iv1 : aegis_block) :
    Nat → aegis_state → aegis_state
  | 0, state => state
  | n + 1, state =>
    let state := crypto_aegis256_update_a state key0
    let state := crypto_aegis256_update_a state key1
    let state := crypto_aegis256_update_a state key_iv0
    let state := crypto_aegis256_update_a state key_iv1
    crypto_aegis256_init_loop key0 key1 key_iv0 key_iv1 n state

/-- Embedding of `crypto_aegis256_init` (aegis256.c:68); `state` is what the caller's
(uninitialised) state held before, `key0`, `key1` are `key[0]`, `key[1]`. -/
def crypto_aegis256_init (state : aegis_state) (key0 key1 : aegis_block) (iv : List Nat) :
    aegis_state :=
  let key_iv0 := key0
  let key_iv1 := key1
  let key_iv0 := crypto_xor key_iv0 (iv.drop (0 * AEGIS_BLOCK_SIZE)) AEGIS_BLOCK_SIZE
  let key_iv1 := crypto_xor key_iv1 (iv.drop (1 * AEGIS_BLOCK_SIZE)) AEGIS_BLOCK_SIZE
  let state := state.set 0 key_iv0
  let state := state.set 1 key_iv1
  let state := state.set 2 crypto_aegis_const_1
  let state := state.set 3 crypto_aegis_const_0
  let state := state.set 4 key0
  let state := state.set 5 key1
  let state := state.set 4 (crypto_aegis_block_xor (state.get 4) crypto_aegis_const_0)
  let state := state.set 5 (crypto_aegis_block_xor (state.get 5) crypto_aegis_const_1)
  crypto_aegis256_init_loop key0 key1 key_iv0 key_iv1 4 state

/-! ## Absorption and CryptCore -/

/-- A `u8 *`: the address (inspected by `AEGIS_ALIGNED` only) and the bytes found from
that address on. -/
structure u8_ptr where
  addr : Nat
  bytes : List Nat

/-- Pointer arithmetic `p + n`. -/
def u8_ptr.add (p : u8_ptr) (n : Nat) : u8_ptr :=
  ⟨p.addr + n, p.bytes.drop n⟩

/-- The keystream block computed by the five statements
`tmp = blocks[2]; and(&tmp, &blocks[3]); xor(&tmp, &blocks[5]); xor(&tmp, &blocks[4]);
xor(&tmp, &blocks[1])` that open every branch of the chunk functions. -/
def crypto_aegis256_keystream (state : aegis_state) : aegis_block :=
  let tmp := state.get 2
  let tmp := crypto_aegis_block_and tmp (state.get 3)
  let tmp := crypto_aegis_block_xor tmp (state.get 5)
  let tmp := crypto_aegis_block_xor tmp (state.get 4)
  let tmp := crypto_aegis_block_xor tmp (state.get 1)
  tmp

/-- The aligned loop of `crypto_aegis256_ad` (aegis256.c:107); `fuel` bounds the number
of iterations. -/
def crypto_aegis256_ad_loop_a : Nat → aegis_state → List Nat → Nat → aegis_state
  | 0, state, _, _ => state
  | fuel + 1, state, src, size =>
    if size ≥ AEGIS_BLOCK_SIZE then
      let state := crypto_aegis256_update_a state src
      crypto_aegis256_ad_loop_a fuel state (src.drop AEGIS_BLOCK_SIZE) (size - AEGIS_BLOCK_SIZE)
    else state

/-- The unaligned loop of `crypto_aegis256_ad` (aegis256.c:114). -/
def crypto_aegis256_ad_loop_u : Nat → aegis_state → List Nat → Nat → aegis_state
  | 0, state, _, _ => state
  | fuel + 1, state, src, size =>
    if size ≥ AEGIS_BLOCK_SIZE then
      let state := crypto_aegis256_update_u state src
      crypto_aegis256_ad_loop_u fuel state (src.drop AEGIS_BLOCK_SIZE) (size - AEGIS_BLOCK_SIZE)
    else state

/-- Embedding of `crypto_aegis256_ad` (aegis256.c:100).  `AEGIS_ALIGNED` is the macro of
aegis.h, a predicate on addresses. -/
def crypto_aegis256_ad (AEGIS_ALIGNED : Nat → Bool) (state : aegis_state) (src : u8_ptr)
    (size : Nat) : aegis_state :=
  if AEGIS_ALIGNED src.addr then
    crypto_aegis256_ad_loop_a size state src.bytes size
  else
    crypto_aegis256_ad_loop_u size state src.bytes size

/-- The block `if (size > 0) { ... }` that ends `crypto_aegis256_encrypt_chunk`
(aegis256.c:169).  The result is the state and the memory at `dst`. -/
def crypto_aegis256_encrypt_tail (state : aegis_state) (dst src : List Nat) (size : Nat) :
    aegis_state × List Nat :=
  if size > 0 then
    let msg := aegis_block_zero
    let msg := memcpy msg src size
    let tmp := crypto_aegis256_keystream state
    let state := crypto_aegis256_update_a state msg
    let msg := crypto_aegis_block_xor msg tmp
    (state, memcpy dst msg size)
  else (state, dst)

/-- The aligned loop of `crypto_aegis256_encrypt_chunk` (aegis256.c:129), followed by
the tail block.  The second component is the memory at `dst`: the block written by this
iteration, then what the remaining iterations leave at `dst + 16`. -/
def crypto_aegis256_encrypt_loop_a :
    Nat → aegis_state → List Nat → List Nat → Nat → aegis_state × List Nat
  | 0, state, dst, src, size => crypto_aegis256_encrypt_tail state dst src size
  | fuel + 1, state, dst, src, size =>
    if size ≥ AEGIS_BLOCK_SIZE then
      let tmp := crypto_aegis256_keystream state
      let tmp := crypto_aegis_block_xor tmp src
      let state := crypto_aegis256_update_a state src
      let dst := memcpy dst tmp AEGIS_BLOCK_SIZE
      let r := crypto_aegis256_encrypt_loop_a fuel state (dst.drop AEGIS_BLOCK_SIZE)
        (src.drop AEGIS_BLOCK_SIZE) (size - AEGIS_BLOCK_SIZE)
      (r.1, dst.take AEGIS_BLOCK_SIZE ++ r.2)
    else crypto_aegis256_encrypt_tail state dst src size

/-- The unaligned loop of `crypto_aegis256_encrypt_chunk` (aegis256.c:151), followed by
the tail block. -/
def crypto_aegis256_encrypt_loop_u :
    Nat → aegis_state → List Nat → List Nat → Nat → aegis_state × List Nat
  | 0, state, dst, src, size => crypto_aegis256_encrypt_tail state dst src size
  | fuel + 1, state, dst, src, size =>
    if size ≥ AEGIS_BLOCK_SIZE then
      let tmp := crypto_aegis256_keystream state
      let tmp := crypto_xor tmp src AEGIS_BLOCK_SIZE
      let state := crypto_aegis256_update_u state src
      let dst := memcpy dst tmp AEGIS_BLOCK_SIZE
      let r := crypto_aegis256_encrypt_loop_u fuel state (dst.drop AEGIS_BLOCK_SIZE)
        (src.drop AEGIS_BLOCK_SIZE) (size - AEGIS_BLOCK_SIZE)
      (r.1, dst.take AEGIS_BLOCK_SIZE ++ r.2)
    else crypto_aegis256_encrypt_tail state dst src size

/-- Embedding of `crypto_aegis256_encrypt_chunk` (aegis256.c:123): the state and the
memory at `dst` after the call. -/
def crypto_aegis256_encrypt_chunk (AEGIS_ALIGNED : Nat → Bool) (state : aegis_state)
    (dst src : u8_ptr) (size : Nat) : aegis_state × List Nat :=
  if AEGIS_ALIGNED src.addr && AEGIS_ALIGNED dst.addr then
    crypto_aegis256_encrypt_loop_a size state dst.bytes src.bytes size
  else
    crypto_aegis256_encrypt_loop_u size state dst.bytes src.bytes size

/-- The block `if (size > 0) { ... }` that ends `crypto_aegis256_decrypt_chunk`
(aegis256.c:233). -/
def crypto_aegis256_decrypt_tail (state : aegis_state) (dst src : List Nat) (size : Nat) :
    aegis_state × List Nat :=
  if size > 0 then
    let msg := aegis_block_zero
    let msg := memcpy msg src size
    let tmp := crypto_aegis256_keystream state
    let msg := crypto_aegis_block_xor msg tmp
    let msg := memset_zero_at msg size (AEGIS_BLOCK_SIZE - size)
    let state := crypto_aegis256_update_a state msg
    (state, memcpy dst msg size)
  else (state, dst)

/-- The aligned loop of `crypto_aegis256_decrypt_chunk` (aegis256.c:193), followed by
the tail block. -/
def crypto_aegis256_decrypt_loop_a :
    Nat → aegis_state → List Nat → List Nat → Nat → aegis_state × List Nat
  | 0, state, dst, src, size => crypto_aegis256_decrypt_tail state dst src size
  | fuel + 1, state, dst, src, size =>
    if size ≥ AEGIS_BLOCK_SIZE then
      let tmp := crypto_aegis256_keystream state
      let tmp := crypto_aegis_block_xor tmp src
      let state := crypto_aegis256_update_a state tmp
      let dst := memcpy dst tmp AEGIS_BLOCK_SIZE
      let r := crypto_aegis256_decrypt_loop_a fuel state (dst.drop AEGIS_BLOCK_SIZE)
        (src.drop AEGIS_BLOCK_SIZE) (size - AEGIS_BLOCK_SIZE)
      (r.1, dst.take AEGIS_BLOCK_SIZE ++ r.2)
    else crypto_aegis256_decrypt_tail state dst src size

/-- The unaligned loop of `crypto_aegis256_decrypt_chunk` (aegis256.c:215), followed by
the tail block. -/
def crypto_aegis256_decrypt_loop_u :
    Nat → aegis_state → List Nat → List Nat → Nat → aegis_state × List Nat
  | 0, state, dst, src, size => crypto_aegis256_decrypt_tail state dst src size
  | fuel + 1, state, dst, src, size =>
    if size ≥ AEGIS_BLOCK_SIZE then
      let tmp := crypto_aegis256_keystream state
      let tmp := crypto_xor tmp src AEGIS_BLOCK_SIZE
      let state := crypto_aegis256_update_a state tmp
      let dst := memcpy dst tmp AEGIS_BLOCK_SIZE
      let r := crypto_aegis256_decrypt_loop_u fuel state (dst.drop AEGIS_BLOCK_SIZE)
        (src.drop AEGIS_BLOCK_SIZE) (size - AEGIS_BLOCK_SIZE)
      (r.1, dst.take AEGIS_BLOCK_SIZE ++ r.2)
    else crypto_aegis256_decrypt_tail state dst src size

/-- Embedding of `crypto_aegis256_decrypt_chunk` (aegis256.c:187): the state and the
memory at `dst` after the call. -/
def crypto_aegis256_decrypt_chunk (AEGIS_ALIGNED : Nat → Bool) (state : aegis_state)
    (dst src : u8_ptr) (size : Nat) : aegis_state × List Nat :=
  if AEGIS_ALIGNED src.addr && AEGIS_ALIGNED dst.addr then
    crypto_aegis256_decrypt_loop_a size state dst.bytes src.bytes size
  else
    crypto_aegis256_decrypt_loop_u size state dst.bytes src.bytes size

/-- One step of the `scatter_walk` over the associated data: the address
`scatterwalk_map` returns and the number of contiguous bytes available there (the bound
that `scatterwalk_clamp` applies). -/
structure sg_range where
  addr : Nat
  len : Nat

/-- The local variables of `crypto_aegis256_process_ad` that the loop body changes. -/
structure process_ad_vars where
  state : aegis_state
  buf : aegis_block
  pos : Nat
  left : Nat
  src : u8_ptr

/-- The statement `if (pos + size >= AEGIS_BLOCK_SIZE) { ... }` of
`crypto_aegis256_process_ad` (aegis256.c:267).  `pos + size` is a 32-bit sum;
`left & ~(AEGIS_BLOCK_SIZE - 1)` is written `left - left % 16` and
`left & (AEGIS_BLOCK_SIZE - 1)` is written `left % 16`. -/
def crypto_aegis256_process_ad_blocks (AEGIS_ALIGNED : Nat → Bool) (size : Nat)
    (v : process_ad_vars) : process_ad_vars :=
  if (v.pos + size) % 2 ^ 32 ≥ AEGIS_BLOCK_SIZE then
    let v :=
      if v.pos > 0 then
        let fill := AEGIS_BLOCK_SIZE - v.pos
        let buf := memcpy_at v.buf v.pos v.src.bytes fill
        let state := crypto_aegis256_update_a v.state buf
        { state := state, buf := buf, pos := 0, left := v.left - fill, src := v.src.add fill }
      else v
    let state := crypto_aegis256_ad AEGIS_ALIGNED v.state v.src v.left
    { v with state := state, src := v.src.add (v.left - v.left % AEGIS_BLOCK_SIZE),
             left := v.left % AEGIS_BLOCK_SIZE }
  else v

/-- The loop `while (assoclen != 0)` of `crypto_aegis256_process_ad` (aegis256.c:261):
`walk` lists the ranges the scatter walk yields, `sg` holds the bytes from the current
walk position on. -/
def crypto_aegis256_process_ad_loop (AEGIS_ALIGNED : Nat → Bool) :
    List sg_range → aegis_state → List Nat → Nat → aegis_block → Nat →
      aegis_state × aegis_block × Nat
  | [], state, _, _, buf, pos => (state, buf, pos)
  | r :: walk, state, sg, assoclen, buf, pos =>
    if assoclen ≠ 0 then
      let size := min r.len assoclen
      let v : process_ad_vars :=
        { state := state, buf := buf, pos := pos, left := size, src := ⟨r.addr, sg⟩ }
      let v := crypto_aegis256_process_ad_blocks AEGIS_ALIGNED size v
      let buf := memcpy_at v.buf v.pos v.src.bytes v.left
      let pos := v.pos + v.left
      let assoclen := assoclen - size
      crypto_aegis256_process_ad_loop AEGIS_ALIGNED walk v.state (sg.drop size) assoclen buf pos
    else (state, buf, pos)

/-- Embedding of `crypto_aegis256_process_ad` (aegis256.c:252).  `sg_src` holds the bytes
of the source scatterlist, `walk` the ranges its scatter walk yields, `buf` the
(uninitialised) content of the local block `buf`. -/
def crypto_aegis256_process_ad (AEGIS_ALIGNED : Nat → Bool) (walk : List sg_range)
    (buf : aegis_block) (state : aegis_state) (sg_src : List Nat) (assoclen : Nat) :
    aegis_state :=
  let pos := 0
  let r := crypto_aegis256_process_ad_loop AEGIS_ALIGNED walk state sg_src assoclen buf pos
  let state := r.1
  let buf := r.2.1
  let pos := r.2.2
  if pos > 0 then
    let buf := memset_zero_at buf pos (AEGIS_BLOCK_SIZE - pos)
    crypto_aegis256_update_a state buf
  else state

/-- One step of a `struct skcipher_walk`: `walk.src.virt.addr`, `walk.dst.virt.addr`
(addresses only; the bytes are those of the request at the walk position) and
`walk.nbytes`. -/
structure skcipher_walk_step where
  src_addr : Nat
  dst_addr : Nat
  nbytes : Nat

/-- The `struct aegis256_ops`: the chunk function; the walk that `skcipher_walk_init`
sets up is passed to `crypto_aegis256_process_crypt` as a list of steps. -/
structure aegis256_ops where
  crypt_chunk : aegis_state → u8_ptr → u8_ptr → Nat → aegis_state × List Nat

/-- Embedding of `crypto_aegis256_process_crypt` (aegis256.c:297).  `src` and `dst` are
the bytes of the request's source and destination from the walk position on; the result
is the state and the memory of the destination from that position on. -/
def crypto_aegis256_process_crypt (ops : aegis256_ops) :
    List skcipher_walk_step → aegis_state → List Nat → List Nat → aegis_state × List Nat
  | [], state, dst, _ => (state, dst)
  | w :: walk, state, dst, src =>
    if w.nbytes ≠ 0 then
      let chunksize := w.nbytes
      let r := ops.crypt_chunk state ⟨w.dst_addr, dst⟩ ⟨w.src_addr, src⟩ chunksize
      let r2 := crypto_aegis256_process_crypt ops walk r.1 (r.2.drop chunksize)
        (src.drop chunksize)
      (r2.1, r.2.take chunksize ++ r2.2)
    else (state, dst)

/-! ## Finalizer, TagVerifier and the AEAD entry points -/

/-- The eight bytes of `cpu_to_le64(x)`, least significant first. -/
def cpu_to_le64 (x : Nat) : List Nat :=
  (List.range 8).map (fun i => (x / 256 ^ i) % 256)

/-- The loop `for (i = 0; i < 7; i++) crypto_aegis256_update_a(state, &tmp)` of
`crypto_aegis256_final`, with `n` iterations left. -/
def crypto_aegis256_final_loop (tmp : aegis_block) : Nat → aegis_state → aegis_state
  | 0, state => state
  | n + 1, state => crypto_aegis256_final_loop tmp n (crypto_aegis256_update_a state tmp)

/-- The loop `for (i = 0; i < AEGIS256_STATE_BLOCKS; i++) xor(tag_xor, &blocks[i])` of
`crypto_aegis256_final`, with `n` iterations left and the given `i`. -/
def crypto_aegis256_final_xor_loop (state : aegis_state) : Nat → Nat → aegis_block → aegis_block
  | 0, _, tag_xor => tag_xor
  | n + 1, i, tag_xor =>
    crypto_aegis256_final_xor_loop state n (i + 1) (crypto_aegis_block_xor tag_xor (state.get i))

/-- Embedding of `crypto_aegis256_final` (aegis256.c:318): the state and `*tag_xor`
after the call.  `assoclen` and `cryptlen` are `u64`. -/
def crypto_aegis256_final (state : aegis_state) (tag_xor : aegis_block)
    (assoclen cryptlen : Nat) : aegis_state × aegis_block :=
  let assocbits := (assoclen * 8) % 2 ^ 64
  let cryptbits := (cryptlen * 8) % 2 ^ 64
  let tmp := cpu_to_le64 assocbits ++ cpu_to_le64 cryptbits
  let tmp := crypto_aegis_block_xor tmp (state.get 3)
  let state := crypto_aegis256_final_loop tmp 7 state
  let tag_xor := crypto_aegis256_final_xor_loop state AEGIS256_STATE_BLOCKS 0 tag_xor
  (state, tag_xor)

/-- The `struct aegis_ctx`: `key[0]` and `key[1]`. -/
structure aegis_ctx where
  key0 : aegis_block
  key1 : aegis_block
deriving DecidableEq, Repr

/-- The parts of a `struct crypto_aead` the code reads or writes: its context
(`crypto_aead_ctx`), its tag length (`crypto_aead_authsize`) and its flags. -/
structure crypto_aead where
  ctx : aegis_ctx
  authsize : Nat
  crt_flags : Nat
deriving DecidableEq, Repr

/-- Kernel helper `crypto_aead_set_flags`: OR the flags into the transform's flags. -/
def crypto_aead_set_flags (aead : crypto_aead) (flags : Nat) : crypto_aead :=
  { aead with crt_flags := aead.crt_flags ||| flags }

/-- Embedding of `crypto_aegis256_setkey` (aegis256.c:340): the return value and the
transform afterwards. -/
def crypto_aegis256_setkey (aead : crypto_aead) (key : List Nat) (keylen : Nat) :
    Int × crypto_aead :=
  let ctx := aead.ctx
  if keylen ≠ AEGIS256_KEY_SIZE then
    (-EINVAL, crypto_aead_set_flags aead CRYPTO_TFM_RES_BAD_KEY_LEN)
  else
    let ctx := { ctx with key0 := memcpy ctx.key0 key AEGIS_BLOCK_SIZE }
    let ctx := { ctx with key1 := memcpy ctx.key1 (key.drop AEGIS_BLOCK_SIZE) AEGIS_BLOCK_SIZE }
    (0, { aead with ctx := ctx })

/-- Embedding of `crypto_aegis256_setauthsize` (aegis256.c:356). -/
def crypto_aegis256_setauthsize (_tfm : crypto_aead) (authsize : Nat) : Int :=
  if authsize > AEGIS256_MAX_AUTH_SIZE then -EINVAL
  else if authsize < AEGIS256_MIN_AUTH_SIZE then -EINVAL
  else 0

/-- The fields of a `struct aead_request` the code uses; `src` and `dst` hold the bytes
of the two scatterlists, `assoclen` and `cryptlen` are `unsigned int`. -/
structure aead_request where
  assoclen : Nat
  cryptlen : Nat
  iv : List Nat
  src : List Nat
  dst : List Nat
deriving DecidableEq, Repr

/-- What the C code receives besides its arguments: the address predicate
`AEGIS_ALIGNED`, the ranges the scatter walk over the associated data yields, the steps
the skcipher walk over the payload yields, and the indeterminate initial contents of the
uninitialised locals `state` (of `crypto_aegis256_crypt`), `buf` (of
`crypto_aegis256_process_ad`) and `tag` (of `crypto_aegis256_decrypt`). -/
structure environment where
  AEGIS_ALIGNED : Nat → Bool
  ad_walk : List sg_range
  walk : List skcipher_walk_step
  state : aegis_state
  buf : aegis_block
  tag : aegis_block

/-- Embedding of `crypto_aegis256_crypt` (aegis256.c:366): `*tag_xor` and the bytes of
`req->dst` after the call.  The skcipher walk starts `req->assoclen` bytes into the
source and the destination. -/
def crypto_aegis256_crypt (env : environment) (tfm : crypto_aead) (req : aead_request)
    (tag_xor : aegis_block) (cryptlen : Nat) (ops : aegis256_ops) : aegis_block × List Nat :=
  let ctx := tfm.ctx
  let state := crypto_aegis256_init env.state ctx.key0 ctx.key1 req.iv
  let state := crypto_aegis256_process_ad env.AEGIS_ALIGNED env.ad_walk env.buf state
    req.src req.assoclen
  let r := crypto_aegis256_process_crypt ops env.walk state (req.dst.drop req.assoclen)
    (req.src.drop req.assoclen)
  let f := crypto_aegis256_final r.1 tag_xor req.assoclen cryptlen
  (f.2, bytes_of req.dst req.assoclen ++ r.2)

/-- Modelled from the spec: `crypto_memneq(a, b, size)` of crypto/algapi.h, which is not
among the sources; spec 4.6: accumulate a bitwise OR of all byte-wise differences across
the full comparison length with no early exit.  The result is nonzero exactly when the
buffers differ. -/
def crypto_memneq (a b : List Nat) (size : Nat) : Nat :=
  (List.range size).foldl (fun neq i => neq ||| (a.getD i 0 ^^^ b.getD i 0)) 0

/-- Embedding of `crypto_aegis256_encrypt` (aegis256.c:381): the return value and the
bytes of `req->dst` after the call. -/
def crypto_aegis256_encrypt (env : environment) (tfm : crypto_aead) (req : aead_request) :
    Int × List Nat :=
  let ops : aegis256_ops := { crypt_chunk := crypto_aegis256_encrypt_chunk env.AEGIS_ALIGNED }
  let tag := aegis_block_zero
  let authsize := tfm.authsize
  let cryptlen := req.cryptlen
  let r := crypto_aegis256_crypt env tfm req tag cryptlen ops
  let tag := r.1
  let dst := memcpy_at r.2 ((req.assoclen + cryptlen) % 2 ^ 32) tag authsize
  (0, dst)

/-- Embedding of `crypto_aegis256_decrypt` (aegis256.c:400): the return value and the
bytes of `req->dst` after the call.  `req->cryptlen - authsize` is a 32-bit
difference. -/
def crypto_aegis256_decrypt (env : environment) (tfm : crypto_aead) (req : aead_request) :
    Int × List Nat :=
  let ops : aegis256_ops := { crypt_chunk := crypto_aegis256_decrypt_chunk env.AEGIS_ALIGNED }
  let zeros := List.replicate AEGIS256_MAX_AUTH_SIZE 0
  let tag := env.tag
  let authsize := tfm.authsize
  let cryptlen := (req.cryptlen + 2 ^ 32 - authsize % 2 ^ 32) % 2 ^ 32
  let tag := memcpy tag (req.src.drop ((req.assoclen + cryptlen) % 2 ^ 32)) authsize
  let r := crypto_aegis256_crypt env tfm req tag cryptlen ops
  let tag := r.1
  (if crypto_memneq tag zeros authsize ≠ 0 then -EBADMSG else 0, r.2)

/-! ## Reference functions, contracts and sample inputs used by the theorems -/

/-- The block of `s` bytes of `src` followed by `16 - s` zero bytes. -/
def pad_block (src : List Nat) (s : Nat) : aegis_block :=
  bytes_of src s ++ List.replicate (AEGIS_BLOCK_SIZE - s) 0

/-- Absorb `n` consecutive 16-byte blocks of `src` with `crypto_aegis256_update_a`. -/
def absorb_blocks : Nat → aegis_state → List Nat → aegis_state
  | 0, state, _ => state
  | n + 1, state, src =>
    absorb_blocks n (crypto_aegis256_update_a state src) (src.drop AEGIS_BLOCK_SIZE)

/-- Absorb the `n` bytes of `src`: the full blocks, then the zero-padded rest if any. -/
def absorb_bytes (state : aegis_state) (src : List Nat) (n : Nat) : aegis_state :=
  let state := absorb_blocks (n / 16) state src
  if n % 16 > 0 then
    crypto_aegis256_update_a state (pad_block (src.drop (n - n % 16)) (n % 16))
  else state

/-- Transform `n` consecutive 16-byte blocks of `src`: each output block is the
keystream XOR the input block; the plaintext block is absorbed (the input when
encrypting, the output when `dec`).  Returns the state and the `16 * n` output bytes. -/
def crypt_blocks (dec : Bool) : Nat → aegis_state → List Nat → aegis_state × List Nat
  | 0, state, _ => (state, [])
  | n + 1, state, src =>
    let out := crypto_aegis_block_xor (crypto_aegis256_keystream state) src
    let state := crypto_aegis256_update_a state (if dec then out else src)
    let r := crypt_blocks dec n state (src.drop AEGIS_BLOCK_SIZE)
    (r.1, out ++ r.2)

/-- Transform a final block of `s < 16` bytes. -/
def crypt_rest (dec : Bool) (state : aegis_state) (src : List Nat) (s : Nat) :
    aegis_state × List Nat :=
  if s > 0 then
    let p := pad_block src s
    let out := bytes_of (crypto_aegis_block_xor p (crypto_aegis256_keystream state)) s
    (crypto_aegis256_update_a state (if dec then pad_block out s else p), out)
  else (state, [])

/-- Transform the `n` bytes of `src`: the full blocks, then the rest. -/
def crypt_bytes (dec : Bool) (state : aegis_state) (src : List Nat) (n : Nat) :
    aegis_state × List Nat :=
  let r := crypt_blocks dec (n / 16) state src
  let t := crypt_rest dec r.1 (src.drop (n - n % 16)) (n % 16)
  (t.1, r.2 ++ t.2)

/-- The chunk function selected by `dec`. -/
def crypt_chunk_of (A : Nat → Bool) (dec : Bool) :
    aegis_state → u8_ptr → u8_ptr → Nat → aegis_state × List Nat :=
  if dec then crypto_aegis256_decrypt_chunk A else crypto_aegis256_encrypt_chunk A

/-- A side condition on the steps of a skcipher walk over a payload of `total` bytes:
non-empty steps that cover the payload, each of them but the last a multiple of
`chunksize` bytes long.  `crypto_aegis256_process_crypt` neither checks nor enforces it
(aegis256.c:307-315 pass `walk.nbytes` on as it is), and a walk may violate it; the
theorems that need it state it as a hypothesis. -/
def skcipher_walk_ok (chunksize : Nat) : Nat → List skcipher_walk_step → Prop
  | total, [] => total = 0
  | total, w :: walk =>
    w.nbytes ≠ 0 ∧ w.nbytes ≤ total ∧ (w.nbytes % chunksize = 0 ∨ w.nbytes = total) ∧
      skcipher_walk_ok chunksize (total - w.nbytes) walk

/-- The statement `if (pos > 0) { memset(...); crypto_aegis256_update_a(state, &buf); }`
that ends `crypto_aegis256_process_ad`, applied to what the loop leaves. -/
def process_ad_finish (r : aegis_state × aegis_block × Nat) : aegis_state :=
  if r.2.2 > 0 then
    crypto_aegis256_update_a r.1 (memset_zero_at r.2.1 r.2.2 (AEGIS_BLOCK_SIZE - r.2.2))
  else r.1

/-- The state `crypto_aegis256_crypt` holds when it calls `crypto_aegis256_final`, for a
payload of `n` bytes transformed in the direction `dec`. -/
def crypt_state (dec : Bool) (tfm : crypto_aead) (req : aead_request) (n : Nat) : aegis_state :=
  (crypt_bytes dec
    (absorb_bytes
      (crypto_aegis256_init ⟨[], [], [], [], [], []⟩ tfm.ctx.key0 tfm.ctx.key1 req.iv)
      req.src req.assoclen)
    (req.src.drop req.assoclen) n).1

/-- The bytes `crypto_aegis256_crypt` writes for a payload of `n` bytes transformed in
the direction `dec`. -/
def crypt_output (dec : Bool) (tfm : crypto_aead) (req : aead_request) (n : Nat) : List Nat :=
  (crypt_bytes dec
    (absorb_bytes
      (crypto_aegis256_init ⟨[], [], [], [], [], []⟩ tfm.ctx.key0 tfm.ctx.key1 req.iv)
      req.src req.assoclen)
    (req.src.drop req.assoclen) n).2

/-- The request `crypto_aegis256_encrypt` receives for associated data `ad` and
plaintext `m`: the source holds `ad` followed by `m`. -/
def encrypt_request (iv ad m dst : List Nat) : aead_request :=
  { assoclen := ad.length, cryptlen := m.length, iv := iv, src := ad ++ m, dst := dst }

/-- The request `crypto_aegis256_decrypt` receives for associated data `ad`, ciphertext
`c` and tag `tag`: the source holds `ad`, `c` and `tag` in this order, and `cryptlen`
counts the ciphertext and the tag. -/
def decrypt_request (iv ad c tag dst : List Nat) : aead_request :=
  { assoclen := ad.length, cryptlen := c.length + tag.length, iv := iv,
    src := ad ++ (c ++ tag), dst := dst }

/-- The 16-byte value finalisation produces from a zero accumulator when `m` is
encrypted under the context of `tfm` with nonce `iv` and associated data `ad`. -/
def encrypt_tag (tfm : crypto_aead) (iv ad m : List Nat) : aegis_block :=
  (crypto_aegis256_final (crypt_state false tfm (encrypt_request iv ad m []) m.length)
    aegis_block_zero ad.length m.length).2

/-- The ciphertext bytes of `m`. -/
def encrypt_ciphertext (tfm : crypto_aead) (iv ad m : List Nat) : List Nat :=
  crypt_output false tfm (encrypt_request iv ad m []) m.length

/-- Bytes `assoclen .. assoclen + len - 1` of an AEAD buffer: its payload. -/
def payload_of (buf : List Nat) (assoclen len : Nat) : List Nat :=
  (buf.drop assoclen).take len

/-- Bytes `assoclen + cryptlen .. assoclen + cryptlen + authsize - 1` of an AEAD buffer:
the tag that follows the payload. -/
def tag_of (buf : List Nat) (assoclen cryptlen authsize : Nat) : List Nat :=
  (buf.drop (assoclen + cryptlen)).take authsize

instance skcipher_walk_ok_decidable (c : Nat) :
    ∀ (n : Nat) (w : List skcipher_walk_step), Decidable (skcipher_walk_ok c n w)
  | n, [] => inferInstanceAs (Decidable (n = 0))
  | n, w :: ws =>
    have := skcipher_walk_ok_decidable c (n - w.nbytes) ws
    inferInstanceAs (Decidable (w.nbytes ≠ 0 ∧ w.nbytes ≤ n ∧
      (w.nbytes % c = 0 ∨ w.nbytes = n) ∧ skcipher_walk_ok c (n - w.nbytes) ws))

/-- A state whose blocks are zero but for `blocks[1]`, which holds 0, 1, .., 15. -/
def sample_state : aegis_state :=
  ⟨aegis_block_zero, List.range 16, aegis_block_zero, aegis_block_zero, aegis_block_zero,
    aegis_block_zero⟩

/-- An environment for a 3-byte associated data in two ranges and a 20-byte payload in
steps of 16 and 4 bytes; addresses that are multiples of 8 count as aligned. -/
def sample_env_e : environment :=
  { AEGIS_ALIGNED := fun a => a % 8 == 0, ad_walk := [⟨0, 2⟩, ⟨3, 100⟩],
    walk := [⟨0, 0, 16⟩, ⟨16, 1, 4⟩], state := sample_state, buf := [], tag := [] }

/-- An environment for a 3-byte associated data in one range and a 20-byte payload in one
step; no address counts as aligned. -/
def sample_env_d : environment :=
  { AEGIS_ALIGNED := fun _ => false, ad_walk := [⟨1, 3⟩], walk := [⟨5, 8, 20⟩],
    state := ⟨[], [], [], [], [], []⟩, buf := List.range 16, tag := List.range 16 }

/-- A transform with tag length 12 and no key yet. -/
def sample_aead : crypto_aead := ⟨⟨[], []⟩, 12, 0⟩

/-- The all-zero 32-byte key and 16-byte tags of the published AEGIS-256 test vector. -/
def zero_key_tfm (authsize : Nat) : crypto_aead :=
  { (crypto_aegis256_setkey ⟨⟨[], []⟩, authsize, 0⟩ (List.replicate 32 0) 32).2 with
    authsize := authsize }

/-- An environment whose skcipher walk yields the 2^32 - 8 bytes that a request with
`cryptlen = 0` and tag length 8 makes `crypto_aegis256_decrypt` ask for. -/
def wrapped_env : environment :=
  { AEGIS_ALIGNED := fun _ => true, ad_walk := [], walk := [⟨0, 0, 4294967288⟩],
    state := ⟨[], [], [], [], [], []⟩, buf := [], tag := [] }

/-- The first 8 bytes of the value finalisation produces for 2^32 - 8 zero bytes of
payload under the all-zero key and nonce. -/
def wrapped_tag : List Nat :=
  bytes_of (crypto_aegis256_crypt wrapped_env (zero_key_tfm 8)
    ⟨0, 0, List.replicate 32 0, List.replicate 4294967288 0, []⟩ aegis_block_zero 4294967288
    ⟨crypto_aegis256_decrypt_chunk wrapped_env.AEGIS_ALIGNED⟩).1 8

/-- A request with `cryptlen = 0`, less than the tag length 8, over a source that holds
2^32 - 8 zero bytes followed by `wrapped_tag`. -/
def wrapped_request : aead_request :=
  ⟨0, 0, List.replicate 32 0, List.replicate 4294967288 0 ++ wrapped_tag, []⟩

/-- The XOR of the six blocks of a state. -/
def state_xor (s : aegis_state) : aegis_block :=
  crypto_aegis_block_xor (crypto_aegis_block_xor (crypto_aegis_block_xor
    (crypto_aegis_block_xor (crypto_aegis_block_xor s.b0 s.b1) s.b2) s.b3) s.b4) s.b5

/-- The state `crypto_aegis256_crypt` (aegis256.c:366) holds when it returns, that is
after `crypto_aegis256_final`; the body is that of `crypto_aegis256_crypt`. -/
def crypt_final_state (env : environment) (tfm : crypto_aead) (req : aead_request)
    (tag_xor : aegis_block) (cryptlen : Nat) (ops : aegis256_ops) : aegis_state :=
  let ctx := tfm.ctx
  let state := crypto_aegis256_init env.state ctx.key0 ctx.key1 req.iv
  let state := crypto_aegis256_process_ad env.AEGIS_ALIGNED env.ad_walk env.buf state
    req.src req.assoclen
  let r := crypto_aegis256_process_crypt ops env.walk state (req.dst.drop req.assoclen)
    (req.src.drop req.assoclen)
  let f := crypto_aegis256_final r.1 tag_xor req.assoclen cryptlen
  f.1

/-- The block `tag` of `crypto_aegis256_decrypt` after `scatterwalk_map_and_copy`
(aegis256.c:409-414): the accumulator handed to `crypto_aegis256_crypt`. -/
def decrypt_accumulator (env : environment) (tfm : crypto_aead) (req : aead_request) :
    aegis_block :=
  let tag := env.tag
  let authsize := tfm.authsize
  let cryptlen := (req.cryptlen + 2 ^ 32 - authsize % 2 ^ 32) % 2 ^ 32
  memcpy tag (req.src.drop ((req.assoclen + cryptlen) % 2 ^ 32)) authsize

/-- The blocks of the associated data in the words of the spec (4.3): the
`ceil(n / 16)` consecutive 16-byte blocks of `ad`, in order, the last one zero-padded to
16 bytes when `n` is not a multiple of 16. -/
def spec_ad_blocks (ad : List Nat) : List aegis_block :=
  (List.range ((ad.length + 15) / 16)).map
    (fun k => pad_block (ad.drop (16 * k)) (min 16 (ad.length - 16 * k)))

/-- The absorption of the associated data in the words of the spec (4.3): `absorbBlock`
applied to the blocks of `spec_ad_blocks` one after the other. -/
def spec_process_ad (state : aegis_state) (ad : List Nat) : aegis_state :=
  (spec_ad_blocks ad).foldl crypto_aegis256_update_a state

/-- Two states agree when their blocks have the same first 16 bytes. -/
def state_agrees (s t : aegis_state) : Prop :=
  (∀ i, i < 16 → s.b0.getD i 0 = t.b0.getD i 0) ∧ (∀ i, i < 16 → s.b1.getD i 0 = t.b1.getD i 0) ∧
  (∀ i, i < 16 → s.b2.getD i 0 = t.b2.getD i 0) ∧ (∀ i, i < 16 → s.b3.getD i 0 = t.b3.getD i 0) ∧
  (∀ i, i < 16 → s.b4.getD i 0 = t.b4.getD i 0) ∧ (∀ i, i < 16 → s.b5.getD i 0 = t.b5.getD i 0)

/-- An environment for no associated data and no payload: both walks yield nothing. -/
def empty_env : environment :=
  { AEGIS_ALIGNED := fun a => a % 8 == 0, ad_walk := [], walk := [],
    state := sample_state, buf := List.range 16, tag := List.range 16 }

/-- An environment whose uninitialised local `tag` holds 16 bytes 0xaa. -/
def garbage_env : environment :=
  { AEGIS_ALIGNED := fun _ => true, ad_walk := [], walk := [],
    state := ⟨[], [], [], [], [], []⟩, buf := [], tag := List.replicate 16 0xaa }

/-- The initialisation in the words of the spec (4.2): from the state
`[kn0, kn1, CONST1, CONST0, key[0] xor CONST0, key[1] xor CONST1]`, with
`kn0 = key[0] xor nonce[0..16)` and `kn1 = key[1] xor nonce[16..32)`, apply `absorbBlock`
with the messages `key[0], key[1], kn0, kn1` repeated four times. -/
def spec_initialize (key0 key1 : aegis_block) (nonce : List Nat) : aegis_state :=
  let kn0 := crypto_aegis_block_xor key0 nonce
  let kn1 := crypto_aegis_block_xor key1 (nonce.drop 16)
  let state : aegis_state :=
    ⟨kn0, kn1, crypto_aegis_const_1, crypto_aegis_const_0,
      crypto_aegis_block_xor key0 crypto_aegis_const_0,
      crypto_aegis_block_xor key1 crypto_aegis_const_1⟩
  ((List.replicate 4 [key0, key1, kn0, kn1]).flatten).foldl crypto_aegis256_update_a state

/-- The length block in the words of the spec (4.5): the two 64-bit little-endian
bit lengths, associated data first. -/
def spec_length_block (alen clen : Nat) : aegis_block :=
  cpu_to_le64 ((8 * alen) % 2 ^ 64) ++ cpu_to_le64 ((8 * clen) % 2 ^ 64)

/-- The finalisation in the words of the spec (4.5): XOR the length block with
`state[3]`, apply `absorbBlock` with that block seven times, and XOR the six blocks of the
resulting state into the accumulator. -/
def spec_finalize (state : aegis_state) (acc : aegis_block) (alen clen : Nat) :
    aegis_state × aegis_block :=
  let l := crypto_aegis_block_xor (spec_length_block alen clen) (state.get 3)
  let state := (List.replicate 7 l).foldl crypto_aegis256_update_a state
  (state, crypto_aegis_block_xor acc (state_xor state))

/-- What one iteration of the loop of `crypto_aegis256_process_ad` does to the local
buffer: `pos` on entry, the copy `memcpy(buf.bytes + pos, src, fill)` that completes a
block (offset and length, when it is executed), the copy
`memcpy(buf.bytes + pos, src, left)` that ends the iteration, and `pos` on exit. -/
structure process_ad_event where
  pos_start : Nat
  fill_copy : Option (Nat × Nat)
  tail_copy : Nat × Nat
  pos_end : Nat
deriving DecidableEq, Repr

/-- The loop of `crypto_aegis256_process_ad` (aegis256.c:261) instrumented: the same
iterations as `crypto_aegis256_process_ad_loop`, recording one event each. -/
def crypto_aegis256_process_ad_trace (AEGIS_ALIGNED : Nat → Bool) :
    List sg_range → aegis_state → List Nat → Nat → aegis_block → Nat → List process_ad_event
  | [], _, _, _, _, _ => []
  | r :: walk, state, sg, assoclen, buf, pos =>
    if assoclen ≠ 0 then
      let size := min r.len assoclen
      let v0 : process_ad_vars :=
        { state := state, buf := buf, pos := pos, left := size, src := ⟨r.addr, sg⟩ }
      let v := crypto_aegis256_process_ad_blocks AEGIS_ALIGNED size v0
      let e : process_ad_event :=
        { pos_start := pos,
          fill_copy := if (pos + size) % 2 ^ 32 ≥ AEGIS_BLOCK_SIZE ∧ pos > 0 then
            some (pos, AEGIS_BLOCK_SIZE - pos) else none,
          tail_copy := (v.pos, v.left),
          pos_end := v.pos + v.left }
      let buf := memcpy_at v.buf v.pos v.src.bytes v.left
      let pos := v.pos + v.left
      let assoclen := assoclen - size
      e :: crypto_aegis256_process_ad_trace AEGIS_ALIGNED walk v.state (sg.drop size) assoclen
        buf pos
    else []

/-- The number a byte string stands for when read little-endian. -/
def le_value (l : List Nat) : Nat :=
  l.foldr (fun b acc => b + 256 * acc) 0

/-- The local `cryptlen` of `crypto_aegis256_decrypt` (aegis256.c:411): the 32-bit
difference `req->cryptlen - authsize`. -/
def decrypt_cryptlen (tfm : crypto_aead) (req : aead_request) : Nat :=
  (req.cryptlen + 2 ^ 32 - tfm.authsize % 2 ^ 32) % 2 ^ 32

/-- An environment for no associated data and a 32-byte payload that the skcipher walk
yields in steps of 17 and 15 bytes, as it does when the first scatterlist entry ends 17
bytes into the payload. -/
def split_walk_env : environment :=
  { AEGIS_ALIGNED := fun _ => true, ad_walk := [], walk := [⟨0, 0, 17⟩, ⟨17, 17, 15⟩],
    state := ⟨[], [], [], [], [], []⟩, buf := [], tag := [] }

/-- An environment for no associated data and a 32-byte payload in one step. -/
def whole_walk_env : environment :=
  { AEGIS_ALIGNED := fun _ => true, ad_walk := [], walk := [⟨0, 0, 32⟩],
    state := ⟨[], [], [], [], [], []⟩, buf := [], tag := [] }

/-! ## Reading buffers -/

theorem getD_map_range (f : Nat → Nat) (n i : Nat) :
    ((List.range n).map f).getD i 0 = if i < n then f i else 0 := by
  rw [List.getD_eq_getElem?_getD, List.getElem?_map]
  by_cases h : i < n
  · simp [List.getElem?_range h, h]
  · have : (List.range n)[i]? = none := by
      apply List.getElem?_eq_none
      simp; omega
    simp [this, h]

theorem getD_bytes_of (p : List Nat) (n i : Nat) :
    (bytes_of p n).getD i 0 = if i < n then p.getD i 0 else 0 := by
  unfold bytes_of
  exact getD_map_range _ n i

@[simp]
theorem length_bytes_of (p : List Nat) (n : Nat) : (bytes_of p n).length = n := by
  simp [bytes_of]

theorem getD_drop (l : List Nat) (k i : Nat) : (l.drop k).getD i 0 = l.getD (k + i) 0 := by
  simp [List.getD_eq_getElem?_getD, List.getElem?_drop]

theorem getD_append_eq (a b : List Nat) (i : Nat) :
    (a ++ b).getD i 0 = if i < a.length then a.getD i 0 else b.getD (i - a.length) 0 := by
  by_cases h : i < a.length
  · rw [if_pos h, List.getD_append _ _ _ _ h]
  · rw [if_neg h, List.getD_append_right _ _ _ _ (Nat.le_of_not_lt h)]

theorem getD_replicate_zero (n i : Nat) : (List.replicate n 0).getD i 0 = 0 := by
  rw [List.getD_eq_getElem?_getD, List.getElem?_replicate]
  by_cases h : i < n <;> simp [h]

theorem eq_of_getD (l l' : List Nat) (hlen : l.length = l'.length)
    (h : ∀ i, i < l.length → l.getD i 0 = l'.getD i 0) : l = l' := by
  apply List.ext_get hlen
  intro n h1 h2
  have := h n h1
  rw [List.getD_eq_getElem _ _ h1, List.getD_eq_getElem _ _ h2] at this
  simpa using this

theorem bytes_of_eq_self (l : List Nat) : bytes_of l l.length = l := by
  apply eq_of_getD
  · simp
  · intro i hi
    rw [getD_bytes_of]
    simp at hi
    simp [hi]

theorem bytes_of_congr (p q : List Nat) (n : Nat)
    (h : ∀ i, i < n → p.getD i 0 = q.getD i 0) : bytes_of p n = bytes_of q n := by
  unfold bytes_of
  apply List.map_congr_left
  intro i hi
  exact h i (by simpa using hi)

theorem bytes_of_append_left (a b : List Nat) (n : Nat) (h : n ≤ a.length) :
    bytes_of (a ++ b) n = bytes_of a n := by
  apply bytes_of_congr
  intro i hi
  rw [getD_append_eq]
  simp [show i < a.length by omega]

theorem bytes_of_add (p : List Nat) (m n : Nat) :
    bytes_of p (m + n) = bytes_of p m ++ bytes_of (p.drop m) n := by
  apply eq_of_getD
  · simp
  · intro i hi
    simp only [length_bytes_of] at hi
    rw [getD_bytes_of, getD_append_eq, getD_bytes_of, getD_bytes_of, getD_drop, length_bytes_of]
    by_cases h : i < m
    · simp [h, hi]
    · simp [h, hi, show i - m < n by omega, show m + (i - m) = i by omega]

/-! ## Block operations -/

@[simp]
theorem length_block_xor (a b : aegis_block) :
    (crypto_aegis_block_xor a b).length = 16 := by
  simp [crypto_aegis_block_xor, AEGIS_BLOCK_SIZE]

@[simp]
theorem length_block_and (a b : aegis_block) :
    (crypto_aegis_block_and a b).length = 16 := by
  simp [crypto_aegis_block_and, AEGIS_BLOCK_SIZE]

theorem getD_block_xor (a b : aegis_block) (i : Nat) :
    (crypto_aegis_block_xor a b).getD i 0 = if i < 16 then a.getD i 0 ^^^ b.getD i 0 else 0 := by
  unfold crypto_aegis_block_xor
  exact getD_map_range _ _ i

theorem getD_block_and (a b : aegis_block) (i : Nat) :
    (crypto_aegis_block_and a b).getD i 0 = if i < 16 then a.getD i 0 &&& b.getD i 0 else 0 := by
  unfold crypto_aegis_block_and
  exact getD_map_range _ _ i

theorem block_xor_congr (a a' b b' : aegis_block)
    (ha : ∀ i, i < 16 → a.getD i 0 = a'.getD i 0) (hb : ∀ i, i < 16 → b.getD i 0 = b'.getD i 0) :
    crypto_aegis_block_xor a b = crypto_aegis_block_xor a' b' := by
  unfold crypto_aegis_block_xor
  apply List.map_congr_left
  intro i hi
  have : i < 16 := by simpa [AEGIS_BLOCK_SIZE] using hi
  rw [ha i this, hb i this]

theorem block_eq_of_getD (a b : aegis_block) (ha : a.length = 16) (hb : b.length = 16)
    (h : ∀ i, i < 16 → a.getD i 0 = b.getD i 0) : a = b :=
  eq_of_getD a b (by rw [ha, hb]) (fun i hi => h i (by omega))

theorem crypto_xor_eq_block_xor (a b : List Nat) (ha : a.length = 16) :
    crypto_xor a b AEGIS_BLOCK_SIZE = crypto_aegis_block_xor a b := by
  unfold crypto_xor crypto_aegis_block_xor
  rw [List.drop_of_length_le (by rw [ha]; simp [AEGIS_BLOCK_SIZE])]
  simp

/-! ## Reference functions on byte strings -/

/-! ## State engine -/

theorem update_eq (s : aegis_state) :
    crypto_aegis256_update s =
      ⟨crypto_aegis_aesenc s.b5 s.b0, crypto_aegis_aesenc s.b0 s.b1,
       crypto_aegis_aesenc s.b1 s.b2, crypto_aegis_aesenc s.b2 s.b3,
       crypto_aegis_aesenc s.b3 s.b4, crypto_aegis_aesenc s.b4 s.b5⟩ := rfl

theorem update_a_eq (s : aegis_state) (m : aegis_block) :
    crypto_aegis256_update_a s m =
      ⟨crypto_aegis_block_xor (crypto_aegis_aesenc s.b5 s.b0) m, crypto_aegis_aesenc s.b0 s.b1,
       crypto_aegis_aesenc s.b1 s.b2, crypto_aegis_aesenc s.b2 s.b3,
       crypto_aegis_aesenc s.b3 s.b4, crypto_aegis_aesenc s.b4 s.b5⟩ := rfl

@[simp]
theorem length_aesenc (a b : aegis_block) : (crypto_aegis_aesenc a b).length = 16 := by
  simp [crypto_aegis_aesenc]

theorem update_u_eq_update_a (s : aegis_state) (m : List Nat) :
    crypto_aegis256_update_u s m = crypto_aegis256_update_a s m := by
  unfold crypto_aegis256_update_u crypto_aegis256_update_a
  simp only [update_eq, aegis_state.get, aegis_state.set]
  rw [crypto_xor_eq_block_xor _ _ (length_aesenc _ _)]

theorem update_a_congr (s : aegis_state) (m m' : aegis_block)
    (h : ∀ i, i < 16 → m.getD i 0 = m'.getD i 0) :
    crypto_aegis256_update_a s m = crypto_aegis256_update_a s m' := by
  rw [update_a_eq, update_a_eq, block_xor_congr _ _ m m' (fun _ _ => rfl) h]

@[simp]
theorem length_keystream (s : aegis_state) : (crypto_aegis256_keystream s).length = 16 := by
  simp [crypto_aegis256_keystream]

/-! ## The two code paths agree -/

theorem ad_loop_u_eq_a (fuel : Nat) (s : aegis_state) (src : List Nat) (size : Nat) :
    crypto_aegis256_ad_loop_u fuel s src size = crypto_aegis256_ad_loop_a fuel s src size := by
  induction fuel generalizing s src size with
  | zero => rfl
  | succ n ih =>
    simp only [crypto_aegis256_ad_loop_u, crypto_aegis256_ad_loop_a, update_u_eq_update_a, ih]

theorem encrypt_loop_u_eq_a (fuel : Nat) (s : aegis_state) (dst src : List Nat) (size : Nat) :
    crypto_aegis256_encrypt_loop_u fuel s dst src size =
      crypto_aegis256_encrypt_loop_a fuel s dst src size := by
  induction fuel generalizing s dst src size with
  | zero => rfl
  | succ n ih =>
    simp only [crypto_aegis256_encrypt_loop_u, crypto_aegis256_encrypt_loop_a,
      update_u_eq_update_a, ih, crypto_xor_eq_block_xor _ _ (length_keystream _)]

theorem decrypt_loop_u_eq_a (fuel : Nat) (s : aegis_state) (dst src : List Nat) (size : Nat) :
    crypto_aegis256_decrypt_loop_u fuel s dst src size =
      crypto_aegis256_decrypt_loop_a fuel s dst src size := by
  induction fuel generalizing s dst src size with
  | zero => rfl
  | succ n ih =>
    simp only [crypto_aegis256_decrypt_loop_u, crypto_aegis256_decrypt_loop_a,
      ih, crypto_xor_eq_block_xor _ _ (length_keystream _)]

theorem ad_eq_loop_a (A : Nat → Bool) (s : aegis_state) (src : u8_ptr) (size : Nat) :
    crypto_aegis256_ad A s src size = crypto_aegis256_ad_loop_a size s src.bytes size := by
  unfold crypto_aegis256_ad
  split
  · rfl
  · exact ad_loop_u_eq_a _ _ _ _

theorem encrypt_chunk_eq_loop_a (A : Nat → Bool) (s : aegis_state) (dst src : u8_ptr)
    (size : Nat) :
    crypto_aegis256_encrypt_chunk A s dst src size =
      crypto_aegis256_encrypt_loop_a size s dst.bytes src.bytes size := by
  unfold crypto_aegis256_encrypt_chunk
  split
  · rfl
  · exact encrypt_loop_u_eq_a _ _ _ _ _

theorem decrypt_chunk_eq_loop_a (A : Nat → Bool) (s : aegis_state) (dst src : u8_ptr)
    (size : Nat) :
    crypto_aegis256_decrypt_chunk A s dst src size =
      crypto_aegis256_decrypt_loop_a size s dst.bytes src.bytes size := by
  unfold crypto_aegis256_decrypt_chunk
  split
  · rfl
  · exact decrypt_loop_u_eq_a _ _ _ _ _

/-! ## The chunk functions in terms of the reference functions -/

theorem memcpy_zero_eq_pad (src : List Nat) (s : Nat) :
    memcpy aegis_block_zero src s = pad_block src s := by
  simp [memcpy, aegis_block_zero, pad_block, List.drop_replicate]

theorem bytes_of_bytes_of (p : List Nat) (n m : Nat) (h : m ≤ n) :
    bytes_of (bytes_of p n) m = bytes_of p m := by
  apply bytes_of_congr
  intro i hi
  rw [getD_bytes_of, if_pos (by omega)]

theorem bytes_of_pad_block (p : List Nat) (s : Nat) : bytes_of (pad_block p s) s = bytes_of p s := by
  unfold pad_block
  rw [bytes_of_append_left _ _ _ (by simp)]
  exact bytes_of_bytes_of _ _ _ (Nat.le_refl _)

theorem bytes_of_of_length (l : List Nat) (n : Nat) (h : l.length = n) : bytes_of l n = l := by
  subst h
  exact bytes_of_eq_self l

theorem encrypt_tail_eq (st : aegis_state) (dst src : List Nat) (s : Nat) :
    crypto_aegis256_encrypt_tail st dst src s =
      ((crypt_rest false st src s).1, (crypt_rest false st src s).2 ++ dst.drop s) := by
  unfold crypto_aegis256_encrypt_tail crypt_rest
  by_cases h : s > 0
  · simp only [h, if_true, memcpy_zero_eq_pad]
    simp [memcpy]
  · have : s = 0 := by omega
    subst this
    simp

theorem decrypt_tail_eq (st : aegis_state) (dst src : List Nat) (s : Nat) (hs : s ≤ 16) :
    crypto_aegis256_decrypt_tail st dst src s =
      ((crypt_rest true st src s).1, (crypt_rest true st src s).2 ++ dst.drop s) := by
  unfold crypto_aegis256_decrypt_tail crypt_rest
  by_cases h : s > 0
  · simp only [h, if_true, memcpy_zero_eq_pad]
    have hz : memset_zero_at (crypto_aegis_block_xor (pad_block src s) (crypto_aegis256_keystream st))
        s (AEGIS_BLOCK_SIZE - s) =
        pad_block (bytes_of (crypto_aegis_block_xor (pad_block src s)
          (crypto_aegis256_keystream st)) s) s := by
      unfold memset_zero_at pad_block
      rw [bytes_of_bytes_of _ _ _ (Nat.le_refl _)]
      rw [List.drop_of_length_le (by simp [AEGIS_BLOCK_SIZE]; omega)]
      simp
    rw [hz]
    simp [memcpy, bytes_of_pad_block, bytes_of_bytes_of]
  · have : s = 0 := by omega
    subst this
    simp

theorem crypt_bytes_lt (dec : Bool) (st : aegis_state) (src : List Nat) (n : Nat) (h : n < 16) :
    crypt_bytes dec st src n = crypt_rest dec st src n := by
  unfold crypt_bytes
  have h1 : n / 16 = 0 := by omega
  have h2 : n % 16 = n := by omega
  simp [h1, h2, crypt_blocks]

theorem crypt_bytes_ge (dec : Bool) (st : aegis_state) (src : List Nat) (n : Nat) (h : 16 ≤ n) :
    crypt_bytes dec st src n =
      ((crypt_bytes dec (crypto_aegis256_update_a st
          (if dec then crypto_aegis_block_xor (crypto_aegis256_keystream st) src else src))
          (src.drop 16) (n - 16)).1,
        crypto_aegis_block_xor (crypto_aegis256_keystream st) src ++
        (crypt_bytes dec (crypto_aegis256_update_a st
          (if dec then crypto_aegis_block_xor (crypto_aegis256_keystream st) src else src))
          (src.drop 16) (n - 16)).2) := by
  unfold crypt_bytes
  have h1 : n / 16 = (n - 16) / 16 + 1 := by omega
  have h2 : n % 16 = (n - 16) % 16 := by omega
  have h3 : n - (n - 16) % 16 = 16 + (n - 16 - (n - 16) % 16) := by omega
  rw [h1, h2, h3]
  simp only [crypt_blocks, AEGIS_BLOCK_SIZE, List.drop_drop, List.append_assoc]

theorem encrypt_loop_a_eq (fuel : Nat) (st : aegis_state) (dst src : List Nat) (size : Nat)
    (h : size / 16 ≤ fuel) :
    crypto_aegis256_encrypt_loop_a fuel st dst src size =
      ((crypt_bytes false st src size).1, (crypt_bytes false st src size).2 ++ dst.drop size) := by
  induction fuel generalizing st dst src size with
  | zero =>
    have hlt : size < 16 := by omega
    rw [crypto_aegis256_encrypt_loop_a, encrypt_tail_eq, crypt_bytes_lt _ _ _ _ hlt]
  | succ n ih =>
    rw [crypto_aegis256_encrypt_loop_a]
    by_cases hge : size ≥ AEGIS_BLOCK_SIZE
    · have h16 : 16 ≤ size := hge
      rw [if_pos hge]
      simp only []
      rw [ih _ _ _ _ (by simp only [AEGIS_BLOCK_SIZE]; omega), crypt_bytes_ge _ _ _ _ h16]
      simp only [AEGIS_BLOCK_SIZE, memcpy, Bool.false_eq_true, if_false]
      rw [bytes_of_of_length _ 16 (length_block_xor _ _)]
      rw [List.take_left' (length_block_xor _ _), List.drop_left' (length_block_xor _ _)]
      simp only [List.drop_drop, List.append_assoc]
      rw [show 16 + (size - 16) = size by omega]
    · rw [if_neg hge]
      have hlt : size < 16 := by simp only [AEGIS_BLOCK_SIZE] at hge; omega
      rw [encrypt_tail_eq, crypt_bytes_lt _ _ _ _ hlt]

theorem decrypt_loop_a_eq (fuel : Nat) (st : aegis_state) (dst src : List Nat) (size : Nat)
    (h : size / 16 ≤ fuel) :
    crypto_aegis256_decrypt_loop_a fuel st dst src size =
      ((crypt_bytes true st src size).1, (crypt_bytes true st src size).2 ++ dst.drop size) := by
  induction fuel generalizing st dst src size with
  | zero =>
    have hlt : size < 16 := by omega
    rw [crypto_aegis256_decrypt_loop_a, decrypt_tail_eq _ _ _ _ (by omega),
      crypt_bytes_lt _ _ _ _ hlt]
  | succ n ih =>
    rw [crypto_aegis256_decrypt_loop_a]
    by_cases hge : size ≥ AEGIS_BLOCK_SIZE
    · have h16 : 16 ≤ size := hge
      rw [if_pos hge]
      simp only []
      rw [ih _ _ _ _ (by simp only [AEGIS_BLOCK_SIZE]; omega), crypt_bytes_ge _ _ _ _ h16]
      simp only [AEGIS_BLOCK_SIZE, memcpy, if_true]
      rw [bytes_of_of_length _ 16 (length_block_xor _ _)]
      rw [List.take_left' (length_block_xor _ _), List.drop_left' (length_block_xor _ _)]
      simp only [List.drop_drop, List.append_assoc]
      rw [show 16 + (size - 16) = size by omega]
    · rw [if_neg hge]
      have hlt : size < 16 := by simp only [AEGIS_BLOCK_SIZE] at hge; omega
      rw [decrypt_tail_eq _ _ _ _ (by omega), crypt_bytes_lt _ _ _ _ hlt]

theorem crypt_chunk_eq (A : Nat → Bool) (dec : Bool) (st : aegis_state) (dst src : u8_ptr)
    (size : Nat) :
    crypt_chunk_of A dec st dst src size =
      ((crypt_bytes dec st src.bytes size).1,
       (crypt_bytes dec st src.bytes size).2 ++ dst.bytes.drop size) := by
  unfold crypt_chunk_of
  cases dec
  · simp only [Bool.false_eq_true, if_false]
    rw [encrypt_chunk_eq_loop_a, encrypt_loop_a_eq _ _ _ _ _ (Nat.div_le_self _ _)]
  · simp only [if_true]
    rw [decrypt_chunk_eq_loop_a, decrypt_loop_a_eq _ _ _ _ _ (Nat.div_le_self _ _)]

/-! ## Properties of the reference transformation -/

theorem length_crypt_rest (dec : Bool) (st : aegis_state) (src : List Nat) (s : Nat) :
    (crypt_rest dec st src s).2.length = s := by
  unfold crypt_rest
  by_cases h : s > 0
  · simp [h]
  · have : s = 0 := by omega
    simp [this]

theorem length_crypt_bytes (dec : Bool) (st : aegis_state) (src : List Nat) (n : Nat) :
    (crypt_bytes dec st src n).2.length = n := by
  induction n using Nat.strong_induction_on generalizing st src with
  | _ n ih =>
    by_cases h : n < 16
    · rw [crypt_bytes_lt _ _ _ _ h, length_crypt_rest]
    · have hge : 16 ≤ n := by omega
      rw [crypt_bytes_ge dec st src n hge]
      simp only [List.length_append, length_block_xor]
      rw [ih (n - 16) (by omega)]
      omega

theorem pad_block_congr (p q : List Nat) (s : Nat)
    (h : ∀ i, i < s → p.getD i 0 = q.getD i 0) : pad_block p s = pad_block q s := by
  unfold pad_block
  rw [bytes_of_congr p q s h]

theorem crypt_rest_congr (dec : Bool) (st : aegis_state) (src src' : List Nat) (s : Nat)
    (h : ∀ i, i < s → src.getD i 0 = src'.getD i 0) :
    crypt_rest dec st src s = crypt_rest dec st src' s := by
  unfold crypt_rest
  rw [pad_block_congr src src' s h]

theorem crypt_bytes_congr (dec : Bool) (st : aegis_state) (src src' : List Nat) (n : Nat)
    (h : ∀ i, i < n → src.getD i 0 = src'.getD i 0) :
    crypt_bytes dec st src n = crypt_bytes dec st src' n := by
  induction n using Nat.strong_induction_on generalizing st src src' with
  | _ n ih =>
    by_cases hn : n < 16
    · rw [crypt_bytes_lt _ _ _ _ hn, crypt_bytes_lt _ _ _ _ hn, crypt_rest_congr _ _ _ _ _ h]
    · have hge : 16 ≤ n := by omega
      rw [crypt_bytes_ge dec st src n hge, crypt_bytes_ge dec st src' n hge]
      have h16 : ∀ i, i < 16 → src.getD i 0 = src'.getD i 0 := fun i hi => h i (by omega)
      have hx : crypto_aegis_block_xor (crypto_aegis256_keystream st) src =
          crypto_aegis_block_xor (crypto_aegis256_keystream st) src' :=
        block_xor_congr _ _ _ _ (fun _ _ => rfl) h16
      have hu : crypto_aegis256_update_a st src = crypto_aegis256_update_a st src' :=
        update_a_congr _ _ _ h16
      have hd : ∀ i, i < n - 16 → (src.drop 16).getD i 0 = (src'.drop 16).getD i 0 := by
        intro i hi
        rw [getD_drop, getD_drop]
        exact h _ (by omega)
      rw [hx]
      cases dec
      · simp only [Bool.false_eq_true, if_false]
        rw [hu, ih (n - 16) (by omega) _ _ _ hd]
      · simp only [if_true]
        rw [ih (n - 16) (by omega) _ _ _ hd]

theorem crypt_bytes_zero (dec : Bool) (st : aegis_state) (src : List Nat) :
    crypt_bytes dec st src 0 = (st, []) := by
  rw [crypt_bytes_lt _ _ _ _ (by omega)]
  simp [crypt_rest]

theorem crypt_bytes_add (dec : Bool) (k : Nat) (st : aegis_state) (src : List Nat) (n : Nat) :
    crypt_bytes dec st src (16 * k + n) =
      ((crypt_bytes dec (crypt_bytes dec st src (16 * k)).1 (src.drop (16 * k)) n).1,
       (crypt_bytes dec st src (16 * k)).2 ++
         (crypt_bytes dec (crypt_bytes dec st src (16 * k)).1 (src.drop (16 * k)) n).2) := by
  induction k generalizing st src with
  | zero => simp [crypt_bytes_zero]
  | succ k ih =>
    rw [crypt_bytes_ge _ _ _ (16 * (k + 1) + n) (by omega),
      crypt_bytes_ge _ _ _ (16 * (k + 1)) (by omega)]
    rw [show 16 * (k + 1) + n - 16 = 16 * k + n by omega, show 16 * (k + 1) - 16 = 16 * k by omega]
    rw [ih]
    simp only [List.drop_drop, List.append_assoc]
    rw [show 16 + 16 * k = 16 * (k + 1) by omega]

/-- Decrypting what encryption produced, from the same state, gives back the input bytes
and the same state. -/
theorem crypt_bytes_inverse (st : aegis_state) (src rest : List Nat) (n : Nat) :
    crypt_bytes true st ((crypt_bytes false st src n).2 ++ rest) n =
      ((crypt_bytes false st src n).1, bytes_of src n) := by
  induction n using Nat.strong_induction_on generalizing st src rest with
  | _ n ih =>
    by_cases hn : n < 16
    · rw [crypt_bytes_lt _ _ _ _ hn, crypt_bytes_lt _ _ _ _ hn]
      unfold crypt_rest
      by_cases h0 : n > 0
      · simp only [h0, if_true, Bool.false_eq_true, if_false]
        have hp : pad_block (bytes_of (crypto_aegis_block_xor (pad_block src n)
            (crypto_aegis256_keystream st)) n ++ rest) n =
            pad_block (crypto_aegis_block_xor (pad_block src n) (crypto_aegis256_keystream st)) n := by
          apply pad_block_congr
          intro i hi
          rw [getD_append_eq, length_bytes_of, if_pos hi, getD_bytes_of, if_pos hi]
        have ho : bytes_of (crypto_aegis_block_xor (pad_block (crypto_aegis_block_xor
            (pad_block src n) (crypto_aegis256_keystream st)) n) (crypto_aegis256_keystream st)) n =
            bytes_of src n := by
          apply bytes_of_congr
          intro i hi
          rw [getD_block_xor, if_pos (by omega)]
          unfold pad_block
          rw [getD_append_eq, length_bytes_of, if_pos hi, getD_bytes_of, if_pos hi,
            getD_block_xor, if_pos (by omega), getD_append_eq, length_bytes_of, if_pos hi,
            getD_bytes_of, if_pos hi, Nat.xor_cancel_right]
        rw [hp, ho]
        have hq : pad_block (bytes_of src n) n = pad_block src n := by
          apply pad_block_congr
          intro i hi
          rw [getD_bytes_of, if_pos hi]
        rw [hq]
      · have : n = 0 := by omega
        subst this
        simp [bytes_of]
    · have hge : 16 ≤ n := by omega
      rw [crypt_bytes_ge false st src n hge, crypt_bytes_ge true st _ n hge]
      simp only [if_true, Bool.false_eq_true, if_false, List.append_assoc]
      have hx : crypto_aegis_block_xor (crypto_aegis256_keystream st)
          (crypto_aegis_block_xor (crypto_aegis256_keystream st) src ++
            ((crypt_bytes false (crypto_aegis256_update_a st src) (src.drop 16) (n - 16)).2 ++ rest)) =
          bytes_of src 16 := by
        apply block_eq_of_getD _ _ (length_block_xor _ _) (length_bytes_of _ _)
        intro i hi
        rw [getD_block_xor, if_pos hi, getD_append_eq, length_block_xor, if_pos hi,
          getD_block_xor, if_pos hi, getD_bytes_of, if_pos hi, Nat.xor_cancel_left]
      rw [hx]
      have hu : crypto_aegis256_update_a st (bytes_of src 16) = crypto_aegis256_update_a st src := by
        apply update_a_congr
        intro i hi
        rw [getD_bytes_of, if_pos hi]
      rw [hu, List.drop_left' (length_block_xor _ _), ih (n - 16) (by omega)]
      rw [← bytes_of_add, show 16 + (n - 16) = n by omega]

/-! ## The walk over the payload -/

theorem process_crypt_eq (A : Nat → Bool) (dec : Bool) (walk : List skcipher_walk_step)
    (st : aegis_state) (dst src : List Nat) (N : Nat) (h : skcipher_walk_ok 16 N walk) :
    crypto_aegis256_process_crypt ⟨crypt_chunk_of A dec⟩ walk st dst src =
      ((crypt_bytes dec st src N).1, (crypt_bytes dec st src N).2 ++ dst.drop N) := by
  induction walk generalizing st dst src N with
  | nil =>
    simp only [skcipher_walk_ok] at h
    subst h
    simp [crypto_aegis256_process_crypt, crypt_bytes_zero]
  | cons w walk ih =>
    obtain ⟨h0, hle, hmul, hrest⟩ := h
    rw [crypto_aegis256_process_crypt, if_pos h0]
    simp only [crypt_chunk_eq]
    have hlen := length_crypt_bytes dec st src w.nbytes
    rw [List.take_left' hlen, List.drop_left' hlen, ih _ _ _ _ hrest]
    simp only [List.drop_drop, List.append_assoc]
    rw [show w.nbytes + (N - w.nbytes) = N by omega]
    rcases hmul with hm | hm
    · have hk : w.nbytes = 16 * (w.nbytes / 16) := by omega
      have hN : N = 16 * (w.nbytes / 16) + (N - w.nbytes) := by omega
      have hE := crypt_bytes_add dec (w.nbytes / 16) st src (N - w.nbytes)
      rw [← hN, ← hk] at hE
      rw [hE]
      simp only [List.append_assoc]
    · rw [hm]
      simp [crypt_bytes_zero]

/-! ## Absorption -/

theorem getD_memcpy_at (dst : List Nat) (off : Nat) (src : List Nat) (n i : Nat) :
    (memcpy_at dst off src n).getD i 0 =
      if i < off then dst.getD i 0 else if i < off + n then src.getD (i - off) 0
      else dst.getD i 0 := by
  unfold memcpy_at memcpy
  rw [getD_append_eq, length_bytes_of, getD_bytes_of]
  by_cases h1 : i < off
  · simp [h1]
  · rw [if_neg h1, if_neg h1, getD_append_eq, length_bytes_of, getD_bytes_of]
    by_cases h2 : i < off + n
    · rw [if_pos (by omega), if_pos (by omega), if_pos h2]
    · rw [if_neg (by omega), if_neg h2, getD_drop, getD_drop]
      congr 1
      omega

theorem ad_loop_a_eq (fuel : Nat) (st : aegis_state) (src : List Nat) (size : Nat)
    (h : size / 16 ≤ fuel) :
    crypto_aegis256_ad_loop_a fuel st src size = absorb_blocks (size / 16) st src := by
  induction fuel generalizing st src size with
  | zero =>
    have : size / 16 = 0 := by omega
    rw [this]
    rfl
  | succ n ih =>
    rw [crypto_aegis256_ad_loop_a]
    by_cases hge : size ≥ AEGIS_BLOCK_SIZE
    · have h16 : 16 ≤ size := hge
      rw [if_pos hge]
      simp only []
      rw [ih _ _ _ (by simp only [AEGIS_BLOCK_SIZE]; omega)]
      have : size / 16 = (size - 16) / 16 + 1 := by omega
      rw [this]
      rfl
    · rw [if_neg hge]
      have : size / 16 = 0 := by simp only [AEGIS_BLOCK_SIZE] at hge; omega
      rw [this]
      rfl

theorem ad_eq (A : Nat → Bool) (st : aegis_state) (src : u8_ptr) (size : Nat) :
    crypto_aegis256_ad A st src size = absorb_blocks (size / 16) st src.bytes := by
  rw [ad_eq_loop_a, ad_loop_a_eq _ _ _ _ (Nat.div_le_self _ _)]

theorem absorb_bytes_lt (st : aegis_state) (src : List Nat) (n : Nat) (h : n < 16) :
    absorb_bytes st src n =
      if n > 0 then crypto_aegis256_update_a st (pad_block src n) else st := by
  unfold absorb_bytes
  have h1 : n / 16 = 0 := by omega
  have h2 : n % 16 = n := by omega
  simp [h1, h2, absorb_blocks]

theorem absorb_bytes_ge (st : aegis_state) (src : List Nat) (n : Nat) (h : 16 ≤ n) :
    absorb_bytes st src n =
      absorb_bytes (crypto_aegis256_update_a st src) (src.drop 16) (n - 16) := by
  unfold absorb_bytes
  have h1 : n / 16 = (n - 16) / 16 + 1 := by omega
  have h2 : n % 16 = (n - 16) % 16 := by omega
  have h3 : n - (n - 16) % 16 = 16 + (n - 16 - (n - 16) % 16) := by omega
  rw [h1, h2, h3]
  simp only [absorb_blocks, AEGIS_BLOCK_SIZE, List.drop_drop]

theorem absorb_bytes_congr (st : aegis_state) (src src' : List Nat) (n : Nat)
    (h : ∀ i, i < n → src.getD i 0 = src'.getD i 0) :
    absorb_bytes st src n = absorb_bytes st src' n := by
  induction n using Nat.strong_induction_on generalizing st src src' with
  | _ n ih =>
    by_cases hn : n < 16
    · rw [absorb_bytes_lt _ _ _ hn, absorb_bytes_lt _ _ _ hn, pad_block_congr src src' n h]
    · have hge : 16 ≤ n := by omega
      rw [absorb_bytes_ge st src n hge, absorb_bytes_ge st src' n hge]
      rw [update_a_congr st src src' (fun i hi => h i (by omega))]
      apply ih (n - 16) (by omega)
      intro i hi
      rw [getD_drop, getD_drop]
      exact h _ (by omega)

theorem absorb_blocks_eq (k : Nat) (st : aegis_state) (src : List Nat) :
    absorb_blocks k st src = absorb_bytes st src (16 * k) := by
  induction k generalizing st src with
  | zero => rw [absorb_bytes_lt _ _ _ (by omega)]; rfl
  | succ k ih =>
    rw [absorb_bytes_ge _ _ _ (by omega), show 16 * (k + 1) - 16 = 16 * k by omega, ← ih]
    rfl

theorem absorb_bytes_add (k : Nat) (st : aegis_state) (src : List Nat) (n : Nat) :
    absorb_bytes st src (16 * k + n) =
      absorb_bytes (absorb_blocks k st src) (src.drop (16 * k)) n := by
  induction k generalizing st src with
  | zero => simp [absorb_blocks]
  | succ k ih =>
    rw [absorb_bytes_ge _ _ _ (by omega), show 16 * (k + 1) + n - 16 = 16 * k + n by omega, ih]
    simp only [absorb_blocks, AEGIS_BLOCK_SIZE, List.drop_drop]
    rw [show 16 + 16 * k = 16 * (k + 1) by omega]

theorem absorb_tail_buffer (st1 : aegis_state) (src1 : List Nat) (left1 m : Nat) (b : List Nat) :
    absorb_bytes st1 src1 (left1 + m) =
      absorb_bytes (absorb_blocks (left1 / 16) st1 src1)
        (bytes_of (memcpy_at b 0 (src1.drop (left1 - left1 % 16)) (left1 % 16)) (left1 % 16) ++
          src1.drop left1) (left1 % 16 + m) := by
  have hsplit : left1 + m = 16 * (left1 / 16) + (left1 % 16 + m) := by omega
  rw [hsplit, absorb_bytes_add]
  apply absorb_bytes_congr
  intro i _
  rw [getD_drop, getD_append_eq, length_bytes_of]
  by_cases h : i < left1 % 16
  · rw [if_pos h, getD_bytes_of, if_pos h, getD_memcpy_at, if_neg (by omega), if_pos (by omega),
      getD_drop]
    congr 1
    omega
  · rw [if_neg h, getD_drop]
    congr 1
    omega

theorem process_ad_step (A : Nat → Bool) (st : aegis_state) (buf : aegis_block) (pos : Nat)
    (sg : List Nat) (a size n : Nat) (hpos : pos < 16) (h32 : pos + size < 2 ^ 32)
    (hn : size ≤ n) :
    (crypto_aegis256_process_ad_blocks A size
        { state := st, buf := buf, pos := pos, left := size, src := ⟨a, sg⟩ }).pos +
      (crypto_aegis256_process_ad_blocks A size
        { state := st, buf := buf, pos := pos, left := size, src := ⟨a, sg⟩ }).left <
        min 16 (pos + size + 1) ∧
    absorb_bytes st (bytes_of buf pos ++ sg) (pos + n) =
      absorb_bytes
        (crypto_aegis256_process_ad_blocks A size
          { state := st, buf := buf, pos := pos, left := size, src := ⟨a, sg⟩ }).state
        (bytes_of
          (memcpy_at
            (crypto_aegis256_process_ad_blocks A size
              { state := st, buf := buf, pos := pos, left := size, src := ⟨a, sg⟩ }).buf
            (crypto_aegis256_process_ad_blocks A size
              { state := st, buf := buf, pos := pos, left := size, src := ⟨a, sg⟩ }).pos
            (crypto_aegis256_process_ad_blocks A size
              { state := st, buf := buf, pos := pos, left := size, src := ⟨a, sg⟩ }).src.bytes
            (crypto_aegis256_process_ad_blocks A size
              { state := st, buf := buf, pos := pos, left := size, src := ⟨a, sg⟩ }).left)
          ((crypto_aegis256_process_ad_blocks A size
              { state := st, buf := buf, pos := pos, left := size, src := ⟨a, sg⟩ }).pos +
            (crypto_aegis256_process_ad_blocks A size
              { state := st, buf := buf, pos := pos, left := size, src := ⟨a, sg⟩ }).left) ++
          sg.drop size)
        ((crypto_aegis256_process_ad_blocks A size
              { state := st, buf := buf, pos := pos, left := size, src := ⟨a, sg⟩ }).pos +
            (crypto_aegis256_process_ad_blocks A size
              { state := st, buf := buf, pos := pos, left := size, src := ⟨a, sg⟩ }).left +
          (n - size)) := by
  have hmod : (pos + size) % 2 ^ 32 = pos + size := Nat.mod_eq_of_lt h32
  unfold crypto_aegis256_process_ad_blocks
  simp only [hmod, AEGIS_BLOCK_SIZE]
  by_cases hge : pos + size ≥ 16
  · rw [if_pos hge]
    by_cases hp : pos > 0
    · simp only [hp, if_true, ad_eq, u8_ptr.add]
      refine ⟨by omega, ?_⟩
      rw [absorb_bytes_ge _ _ _ (by omega)]
      have hu : crypto_aegis256_update_a st (bytes_of buf pos ++ sg) =
          crypto_aegis256_update_a st (memcpy_at buf pos sg (16 - pos)) := by
        apply update_a_congr
        intro i hi
        rw [getD_append_eq, length_bytes_of, getD_bytes_of, getD_memcpy_at]
        by_cases h1 : i < pos
        · simp [h1]
        · rw [if_neg h1, if_neg h1, if_pos (by omega)]
      rw [hu]
      have hd : absorb_bytes (crypto_aegis256_update_a st (memcpy_at buf pos sg (16 - pos)))
          ((bytes_of buf pos ++ sg).drop 16) (pos + n - 16) =
          absorb_bytes (crypto_aegis256_update_a st (memcpy_at buf pos sg (16 - pos)))
          (sg.drop (16 - pos)) (size - (16 - pos) + (n - size)) := by
        rw [show pos + n - 16 = size - (16 - pos) + (n - size) by omega]
        apply absorb_bytes_congr
        intro i _
        rw [getD_drop, getD_drop, getD_append_eq, length_bytes_of, if_neg (by omega)]
        congr 1
        omega
      rw [hd, absorb_tail_buffer _ _ _ _ (memcpy_at buf pos sg (16 - pos))]
      simp only [List.drop_drop, Nat.zero_add]
      rw [show 16 - pos + (size - (16 - pos)) = size by omega]
    · have hp0 : pos = 0 := by omega
      subst hp0
      simp only [Nat.lt_irrefl, if_false, ad_eq, u8_ptr.add]
      refine ⟨by omega, ?_⟩
      have h0 : bytes_of buf 0 ++ sg = sg := by simp [bytes_of]
      rw [h0, Nat.zero_add, show n = size + (n - size) by omega,
        absorb_tail_buffer _ _ _ _ buf]
      simp only [Nat.zero_add, Nat.add_sub_cancel_left]
  · rw [if_neg hge]
    simp only []
    refine ⟨by omega, ?_⟩
    rw [show pos + size + (n - size) = pos + n by omega]
    apply absorb_bytes_congr
    intro i _
    rw [getD_append_eq, length_bytes_of, getD_append_eq, length_bytes_of, getD_bytes_of,
      getD_bytes_of, getD_memcpy_at, getD_drop]
    by_cases h1 : i < pos
    · simp [h1, show i < pos + size by omega]
    · rw [if_neg h1, if_neg h1]
      by_cases h2 : i < pos + size
      · rw [if_pos h2, if_pos h2, if_pos h2]
      · rw [if_neg h2]
        congr 1
        omega

theorem process_ad_loop_eq (A : Nat → Bool) (walk : List sg_range) (st : aegis_state)
    (sg : List Nat) (assoclen : Nat) (buf : aegis_block) (pos : Nat) (hpos : pos < 16)
    (h32 : pos + assoclen < 2 ^ 32) (hcov : assoclen ≤ (walk.map sg_range.len).sum) :
    process_ad_finish (crypto_aegis256_process_ad_loop A walk st sg assoclen buf pos) =
      absorb_bytes st (bytes_of buf pos ++ sg) (pos + assoclen) := by
  have hdone : ∀ (st : aegis_state) (sg : List Nat) (buf : aegis_block) (pos : Nat), pos < 16 →
      process_ad_finish (st, buf, pos) = absorb_bytes st (bytes_of buf pos ++ sg) (pos + 0) := by
    intro st sg buf pos hpos
    rw [Nat.add_zero, absorb_bytes_lt _ _ _ hpos]
    unfold process_ad_finish
    by_cases hp : pos > 0
    · simp only [hp, if_true]
      apply update_a_congr
      intro i hi
      unfold memset_zero_at pad_block
      by_cases h1 : i < pos
      · simp only [getD_append_eq, length_bytes_of, getD_bytes_of, h1, if_true]
      · have h2 : i - pos < AEGIS_BLOCK_SIZE - pos := by simp only [AEGIS_BLOCK_SIZE]; omega
        simp only [getD_append_eq, length_bytes_of, h1, if_false, List.length_replicate,
          getD_replicate_zero, h2, if_true]
    · simp only [hp, if_false]
  induction walk generalizing st sg assoclen buf pos with
  | nil =>
    have h0 : assoclen = 0 := by simpa using hcov
    subst h0
    rw [crypto_aegis256_process_ad_loop]
    exact hdone st sg buf pos hpos
  | cons r walk ih =>
    rw [crypto_aegis256_process_ad_loop]
    by_cases h0 : assoclen ≠ 0
    · rw [if_pos h0]
      simp only []
      have hsz : min r.len assoclen ≤ assoclen := Nat.min_le_right _ _
      obtain ⟨hlt, heq⟩ := process_ad_step A st buf pos sg r.addr (min r.len assoclen) assoclen
        hpos (by omega) hsz
      rw [heq]
      apply ih
      · omega
      · omega
      · simp only [List.map_cons, List.sum_cons] at hcov
        omega
    · have h0' : assoclen = 0 := by omega
      subst h0'
      rw [if_neg h0]
      exact hdone st sg buf pos hpos

/-- `crypto_aegis256_process_ad` absorbs the associated data block by block whatever the
ranges of the scatter walk are and whatever the local buffer held. -/
theorem process_ad_eq (A : Nat → Bool) (walk : List sg_range) (buf : aegis_block)
    (st : aegis_state) (sg : List Nat) (assoclen : Nat) (h32 : assoclen < 2 ^ 32)
    (hcov : assoclen ≤ (walk.map sg_range.len).sum) :
    crypto_aegis256_process_ad A walk buf st sg assoclen = absorb_bytes st sg assoclen := by
  have h := process_ad_loop_eq A walk st sg assoclen buf 0 (by omega) (by omega) hcov
  have h0 : bytes_of buf 0 ++ sg = sg := by simp [bytes_of]
  rw [h0, Nat.zero_add] at h
  rw [← h]
  rfl

/-! ## Finalisation and verification -/

theorem lor_eq_zero (a b : Nat) : a ||| b = 0 ↔ a = 0 ∧ b = 0 := by
  constructor
  · intro h
    have ht : ∀ i, (a.testBit i || b.testBit i) = false := by
      intro i
      rw [← Nat.testBit_or, h, Nat.zero_testBit]
    constructor
    · apply Nat.eq_of_testBit_eq
      intro i
      have := ht i
      rw [Nat.zero_testBit]
      cases hA : a.testBit i <;> simp_all
    · apply Nat.eq_of_testBit_eq
      intro i
      have := ht i
      rw [Nat.zero_testBit]
      cases hB : b.testBit i <;> simp_all
  · rintro ⟨rfl, rfl⟩
    rfl

theorem memneq_eq_zero_iff (a b : List Nat) (n : Nat) :
    crypto_memneq a b n = 0 ↔ ∀ i, i < n → a.getD i 0 = b.getD i 0 := by
  unfold crypto_memneq
  induction n with
  | zero => simp
  | succ n ih =>
    rw [List.range_succ, List.foldl_append, List.foldl_cons, List.foldl_nil, lor_eq_zero, ih,
      Nat.xor_eq_zero]
    constructor
    · rintro ⟨h1, h2⟩ i hi
      by_cases h : i < n
      · exact h1 i h
      · have : i = n := by omega
        rw [this]
        exact h2
    · intro h
      exact ⟨fun i hi => h i (by omega), h n (by omega)⟩

theorem getD_final (st : aegis_state) (tag : aegis_block) (a c i : Nat) :
    (crypto_aegis256_final st tag a c).2.getD i 0 =
      if i < 16 then tag.getD i 0 ^^^ (crypto_aegis256_final st aegis_block_zero a c).2.getD i 0
      else 0 := by
  unfold crypto_aegis256_final
  simp only [AEGIS256_STATE_BLOCKS, crypto_aegis256_final_xor_loop, getD_block_xor,
    aegis_block_zero, getD_replicate_zero]
  by_cases h : i < 16
  · simp only [h, if_true, Nat.zero_xor, Nat.xor_assoc]
  · simp only [h, if_false]

theorem length_final (st : aegis_state) (tag : aegis_block) (a c : Nat) :
    (crypto_aegis256_final st tag a c).2.length = 16 := by
  unfold crypto_aegis256_final
  simp only [AEGIS256_STATE_BLOCKS, crypto_aegis256_final_xor_loop, length_block_xor]

theorem init_indep (s s' : aegis_state) (k0 k1 : aegis_block) (iv : List Nat) :
    crypto_aegis256_init s k0 k1 iv = crypto_aegis256_init s' k0 k1 iv := rfl

/-! ## The AEAD pipeline -/

theorem crypt_eq (env : environment) (tfm : crypto_aead) (req : aead_request)
    (tag : aegis_block) (c : Nat) (dec : Bool) (n : Nat) (h32 : req.assoclen < 2 ^ 32)
    (hcov : req.assoclen ≤ (env.ad_walk.map sg_range.len).sum)
    (hwalk : skcipher_walk_ok 16 n env.walk) :
    crypto_aegis256_crypt env tfm req tag c ⟨crypt_chunk_of env.AEGIS_ALIGNED dec⟩ =
      ((crypto_aegis256_final (crypt_state dec tfm req n) tag req.assoclen c).2,
       bytes_of req.dst req.assoclen ++
         (crypt_output dec tfm req n ++ (req.dst.drop req.assoclen).drop n)) := by
  unfold crypto_aegis256_crypt crypt_state crypt_output
  simp only []
  rw [process_ad_eq _ _ _ _ _ _ h32 hcov, process_crypt_eq _ _ _ _ _ _ n hwalk]
  rw [init_indep env.state ⟨[], [], [], [], [], []⟩]

theorem getD_crypt_tag (env : environment) (tfm : crypto_aead) (req : aead_request)
    (tag : aegis_block) (c : Nat) (ops : aegis256_ops) (i : Nat) :
    (crypto_aegis256_crypt env tfm req tag c ops).1.getD i 0 =
      if i < 16 then
        tag.getD i 0 ^^^ (crypto_aegis256_crypt env tfm req aegis_block_zero c ops).1.getD i 0
      else 0 := by
  unfold crypto_aegis256_crypt
  simp only []
  exact getD_final _ _ _ _ _

theorem crypt_dst_indep (env : environment) (tfm : crypto_aead) (req : aead_request)
    (tag tag' : aegis_block) (c c' : Nat) (ops : aegis256_ops) :
    (crypto_aegis256_crypt env tfm req tag c ops).2 =
      (crypto_aegis256_crypt env tfm req tag' c' ops).2 := rfl

/-- The verdict of `crypto_aegis256_decrypt`: 0 exactly when the supplied tag bytes equal
the first `authsize` bytes of the value finalisation adds to a zero accumulator. -/
theorem decrypt_ret_eq_zero_iff (env : environment) (tfm : crypto_aead) (req : aead_request)
    (ht : tfm.authsize ≤ 16) :
    (crypto_aegis256_decrypt env tfm req).1 = 0 ↔
      bytes_of (req.src.drop ((req.assoclen +
          (req.cryptlen + 2 ^ 32 - tfm.authsize % 2 ^ 32) % 2 ^ 32) % 2 ^ 32)) tfm.authsize =
        bytes_of (crypto_aegis256_crypt env tfm req aegis_block_zero
          ((req.cryptlen + 2 ^ 32 - tfm.authsize % 2 ^ 32) % 2 ^ 32)
          ⟨crypto_aegis256_decrypt_chunk env.AEGIS_ALIGNED⟩).1 tfm.authsize := by
  unfold crypto_aegis256_decrypt
  simp only []
  have hE : (-EBADMSG : Int) ≠ 0 := by decide
  constructor
  · intro h
    by_cases hm : crypto_memneq (crypto_aegis256_crypt env tfm req
        (memcpy env.tag (req.src.drop ((req.assoclen +
          (req.cryptlen + 2 ^ 32 - tfm.authsize % 2 ^ 32) % 2 ^ 32) % 2 ^ 32)) tfm.authsize)
        ((req.cryptlen + 2 ^ 32 - tfm.authsize % 2 ^ 32) % 2 ^ 32)
        ⟨crypto_aegis256_decrypt_chunk env.AEGIS_ALIGNED⟩).1
        (List.replicate AEGIS256_MAX_AUTH_SIZE 0) tfm.authsize = 0
    · rw [memneq_eq_zero_iff] at hm
      apply bytes_of_congr
      intro i hi
      have := hm i hi
      rw [getD_crypt_tag, if_pos (by omega), getD_replicate_zero, Nat.xor_eq_zero] at this
      rw [← this]
      unfold memcpy
      rw [getD_append_eq, length_bytes_of, if_pos hi, getD_bytes_of, if_pos hi]
    · rw [if_pos hm] at h
      exact absurd h hE
  · intro h
    have hm : crypto_memneq (crypto_aegis256_crypt env tfm req
        (memcpy env.tag (req.src.drop ((req.assoclen +
          (req.cryptlen + 2 ^ 32 - tfm.authsize % 2 ^ 32) % 2 ^ 32) % 2 ^ 32)) tfm.authsize)
        ((req.cryptlen + 2 ^ 32 - tfm.authsize % 2 ^ 32) % 2 ^ 32)
        ⟨crypto_aegis256_decrypt_chunk env.AEGIS_ALIGNED⟩).1
        (List.replicate AEGIS256_MAX_AUTH_SIZE 0) tfm.authsize = 0 := by
      rw [memneq_eq_zero_iff]
      intro i hi
      rw [getD_crypt_tag, if_pos (by omega), getD_replicate_zero, Nat.xor_eq_zero]
      have h1 := congrArg (fun l => l.getD i 0) h
      simp only [getD_bytes_of, if_pos hi] at h1
      rw [← h1]
      unfold memcpy
      rw [getD_append_eq, length_bytes_of, if_pos hi, getD_bytes_of, if_pos hi]
    rw [if_neg (by rw [hm]; simp)]

theorem decrypt_ret_cases (env : environment) (tfm : crypto_aead) (req : aead_request) :
    (crypto_aegis256_decrypt env tfm req).1 = 0 ∨
      (crypto_aegis256_decrypt env tfm req).1 = -EBADMSG := by
  unfold crypto_aegis256_decrypt
  simp only []
  split
  · right; rfl
  · left; rfl

theorem length_encrypt_ciphertext (tfm : crypto_aead) (iv ad m : List Nat) :
    (encrypt_ciphertext tfm iv ad m).length = m.length := by
  unfold encrypt_ciphertext crypt_output
  exact length_crypt_bytes _ _ _ _

theorem length_encrypt_tag (tfm : crypto_aead) (iv ad m : List Nat) :
    (encrypt_tag tfm iv ad m).length = 16 := by
  unfold encrypt_tag
  exact length_final _ _ _ _

theorem drop_append_length (a b : List Nat) : (a ++ b).drop a.length = b := by
  simp

/-- The layout of what `crypto_aegis256_encrypt` leaves in the destination. -/
theorem encrypt_eq (env : environment) (tfm : crypto_aead) (iv ad m dst : List Nat)
    (h32 : ad.length + m.length < 2 ^ 32)
    (hcov : ad.length ≤ (env.ad_walk.map sg_range.len).sum)
    (hwalk : skcipher_walk_ok 16 m.length env.walk) :
    crypto_aegis256_encrypt env tfm (encrypt_request iv ad m dst) =
      (0, bytes_of dst ad.length ++ (encrypt_ciphertext tfm iv ad m ++
        (bytes_of (encrypt_tag tfm iv ad m) tfm.authsize ++
          ((dst.drop ad.length).drop m.length).drop tfm.authsize))) := by
  unfold crypto_aegis256_encrypt
  simp only []
  have hops : (⟨crypto_aegis256_encrypt_chunk env.AEGIS_ALIGNED⟩ : aegis256_ops) =
      ⟨crypt_chunk_of env.AEGIS_ALIGNED false⟩ := rfl
  rw [hops]
  have hreq : (encrypt_request iv ad m dst).assoclen = ad.length := rfl
  have hreq2 : (encrypt_request iv ad m dst).cryptlen = m.length := rfl
  rw [crypt_eq env tfm (encrypt_request iv ad m dst) aegis_block_zero _ false m.length
    (by rw [hreq]; omega) (by rw [hreq]; exact hcov) hwalk]
  simp only [hreq, hreq2, Nat.mod_eq_of_lt h32]
  have hs : crypt_state false tfm (encrypt_request iv ad m dst) m.length =
      crypt_state false tfm (encrypt_request iv ad m []) m.length := rfl
  have ho : crypt_output false tfm (encrypt_request iv ad m dst) m.length =
      encrypt_ciphertext tfm iv ad m := rfl
  have hd : (encrypt_request iv ad m dst).dst = dst := rfl
  rw [hs, ho, hd]
  unfold memcpy_at memcpy
  have hl : (bytes_of dst ad.length ++ encrypt_ciphertext tfm iv ad m).length =
      ad.length + m.length := by
    simp [length_encrypt_ciphertext]
  have hX : bytes_of dst ad.length ++
      (encrypt_ciphertext tfm iv ad m ++ (dst.drop ad.length).drop m.length) =
      (bytes_of dst ad.length ++ encrypt_ciphertext tfm iv ad m) ++
        (dst.drop ad.length).drop m.length := (List.append_assoc _ _ _).symm
  rw [hX, bytes_of_append_left _ _ _ (Nat.le_of_eq hl.symm), bytes_of_of_length _ _ hl,
    List.drop_left' hl]
  simp only [List.append_assoc]
  rfl

/-- What `crypto_aegis256_decrypt` does with a ciphertext that encryption produced,
whatever tag `x` comes with it. -/
theorem decrypt_of_encrypt (env : environment) (tfm tfm_e : crypto_aead)
    (iv ad m x dst : List Nat) (hctx : tfm.ctx = tfm_e.ctx) (hx : x.length = tfm.authsize)
    (ht : tfm.authsize ≤ 16) (h32 : ad.length + m.length + tfm.authsize < 2 ^ 32)
    (hcov : ad.length ≤ (env.ad_walk.map sg_range.len).sum)
    (hwalk : skcipher_walk_ok 16 m.length env.walk) :
    ((crypto_aegis256_decrypt env tfm
        (decrypt_request iv ad (encrypt_ciphertext tfm_e iv ad m) x dst)).1 = 0 ↔
      x = bytes_of (encrypt_tag tfm_e iv ad m) tfm.authsize) ∧
    (crypto_aegis256_decrypt env tfm
        (decrypt_request iv ad (encrypt_ciphertext tfm_e iv ad m) x dst)).2 =
      bytes_of dst ad.length ++ (m ++ (dst.drop ad.length).drop m.length) := by
  have hlc := length_encrypt_ciphertext tfm_e iv ad m
  have hreq : (decrypt_request iv ad (encrypt_ciphertext tfm_e iv ad m) x dst).assoclen =
      ad.length := rfl
  have hreq2 : (decrypt_request iv ad (encrypt_ciphertext tfm_e iv ad m) x dst).cryptlen =
      m.length + tfm.authsize := by
    simp [decrypt_request, hlc, hx]
  have hc : (m.length + tfm.authsize + 2 ^ 32 - tfm.authsize % 2 ^ 32) % 2 ^ 32 = m.length := by
    rw [Nat.mod_eq_of_lt (show tfm.authsize < 2 ^ 32 by omega)]
    rw [show m.length + tfm.authsize + 2 ^ 32 - tfm.authsize = m.length + 2 ^ 32 by omega]
    rw [Nat.add_mod_right]
    exact Nat.mod_eq_of_lt (by omega)
  have hops : (⟨crypto_aegis256_decrypt_chunk env.AEGIS_ALIGNED⟩ : aegis256_ops) =
      ⟨crypt_chunk_of env.AEGIS_ALIGNED true⟩ := rfl
  -- the state and the output of the decryption pipeline
  have hcore : crypt_bytes true
      (absorb_bytes (crypto_aegis256_init ⟨[], [], [], [], [], []⟩ tfm.ctx.key0 tfm.ctx.key1 iv)
        (ad ++ (encrypt_ciphertext tfm_e iv ad m ++ x)) ad.length)
      ((ad ++ (encrypt_ciphertext tfm_e iv ad m ++ x)).drop ad.length) m.length =
      (crypt_state false tfm_e (encrypt_request iv ad m []) m.length, m) := by
    rw [drop_append_length, hctx]
    have ha : absorb_bytes
        (crypto_aegis256_init ⟨[], [], [], [], [], []⟩ tfm_e.ctx.key0 tfm_e.ctx.key1 iv)
        (ad ++ (encrypt_ciphertext tfm_e iv ad m ++ x)) ad.length =
        absorb_bytes
        (crypto_aegis256_init ⟨[], [], [], [], [], []⟩ tfm_e.ctx.key0 tfm_e.ctx.key1 iv)
        (ad ++ m) ad.length := by
      apply absorb_bytes_congr
      intro i hi
      rw [getD_append_eq, if_pos hi, getD_append_eq, if_pos hi]
    rw [ha]
    unfold encrypt_ciphertext crypt_output crypt_state
    simp only [encrypt_request, drop_append_length]
    rw [crypt_bytes_inverse, bytes_of_eq_self]
  have hstate : crypt_state true tfm
      (decrypt_request iv ad (encrypt_ciphertext tfm_e iv ad m) x dst) m.length =
      crypt_state false tfm_e (encrypt_request iv ad m []) m.length := by
    have h := congrArg Prod.fst hcore
    exact h
  have hout : crypt_output true tfm
      (decrypt_request iv ad (encrypt_ciphertext tfm_e iv ad m) x dst) m.length = m := by
    have h := congrArg Prod.snd hcore
    exact h
  constructor
  · rw [decrypt_ret_eq_zero_iff env tfm _ ht, hreq, hreq2, hc, hops,
      crypt_eq env tfm _ aegis_block_zero _ true m.length (by rw [hreq]; omega)
        (by rw [hreq]; exact hcov) hwalk, hstate, hreq]
    simp only []
    have hsrc : (decrypt_request iv ad (encrypt_ciphertext tfm_e iv ad m) x dst).src =
        ad ++ (encrypt_ciphertext tfm_e iv ad m ++ x) := rfl
    rw [hsrc, Nat.mod_eq_of_lt (show ad.length + m.length < 2 ^ 32 by omega),
      ← List.append_assoc]
    have hl : (ad ++ encrypt_ciphertext tfm_e iv ad m).length = ad.length + m.length := by
      simp [hlc]
    rw [← hl, List.drop_left, bytes_of_of_length _ _ hx]
    rfl
  · unfold crypto_aegis256_decrypt
    simp only []
    rw [hops, crypt_eq env tfm _ _ _ true m.length (by rw [hreq]; omega)
        (by rw [hreq]; exact hcov) hwalk, hout, hreq]
    rfl

theorem take_bytes_of (p : List Nat) (n m : Nat) (h : m ≤ n) :
    (bytes_of p n).take m = bytes_of p m := by
  have : n = m + (n - m) := by omega
  rw [this, bytes_of_add, List.take_left' (length_bytes_of _ _)]

theorem output_of_encrypt (env : environment) (tfm : crypto_aead) (iv ad m dst : List Nat)
    (h32 : ad.length + m.length < 2 ^ 32)
    (hcov : ad.length ≤ (env.ad_walk.map sg_range.len).sum)
    (hwalk : skcipher_walk_ok 16 m.length env.walk) :
    payload_of (crypto_aegis256_encrypt env tfm (encrypt_request iv ad m dst)).2
        ad.length m.length = encrypt_ciphertext tfm iv ad m ∧
    tag_of (crypto_aegis256_encrypt env tfm (encrypt_request iv ad m dst)).2
        ad.length m.length tfm.authsize = bytes_of (encrypt_tag tfm iv ad m) tfm.authsize := by
  rw [encrypt_eq env tfm iv ad m dst h32 hcov hwalk]
  simp only []
  have hlc := length_encrypt_ciphertext tfm iv ad m
  constructor
  · unfold payload_of
    rw [List.drop_left' (length_bytes_of _ _), List.take_left' hlc]
  · unfold tag_of
    rw [← List.append_assoc, List.drop_left' (by simp [hlc]),
      List.take_left' (length_bytes_of _ _)]

theorem payload_of_decrypt (dst m : List Nat) (a : Nat) (rest : List Nat) :
    payload_of (bytes_of dst a ++ (m ++ rest)) a m.length = m := by
  unfold payload_of
  rw [List.drop_left' (length_bytes_of _ _), List.take_left' rfl]

theorem setkey_authsize (aead : crypto_aead) (key : List Nat) (keylen : Nat) :
    (crypto_aegis256_setkey aead key keylen).2.authsize = aead.authsize := by
  unfold crypto_aegis256_setkey
  split <;> rfl

/-- Round trip when both skcipher walks go in steps that are multiples of 16 bytes, but
for the last: for a 32-byte key, a 32-byte nonce, any associated data `ad`, any plaintext
`m` and any tag length from 8 to 16, `crypto_aegis256_decrypt` applied to the ciphertext
and tag that `crypto_aegis256_encrypt` wrote returns 0 and writes exactly `m`.  The two
calls may see different scatter walks, buffer addresses and stack contents.  Walks with
another step length are not covered, and the round trip fails on some of them. -/
theorem round_trip_on_block_walks (env_e env_d : environment) (aead : crypto_aead)
    (key iv ad m dst_e dst_d : List Nat)
    (hkey : key.length = 32) (hiv : iv.length = 32)
    (h8 : 8 ≤ aead.authsize) (h16 : aead.authsize ≤ 16)
    (h32 : ad.length + m.length + aead.authsize < 2 ^ 32)
    (hcov_e : ad.length ≤ (env_e.ad_walk.map sg_range.len).sum)
    (hwalk_e : skcipher_walk_ok 16 m.length env_e.walk)
    (hcov_d : ad.length ≤ (env_d.ad_walk.map sg_range.len).sum)
    (hwalk_d : skcipher_walk_ok 16 m.length env_d.walk) :
    (crypto_aegis256_decrypt env_d (crypto_aegis256_setkey aead key key.length).2
      (decrypt_request iv ad
        (payload_of (crypto_aegis256_encrypt env_e (crypto_aegis256_setkey aead key key.length).2
          (encrypt_request iv ad m dst_e)).2 ad.length m.length)
        (tag_of (crypto_aegis256_encrypt env_e (crypto_aegis256_setkey aead key key.length).2
          (encrypt_request iv ad m dst_e)).2 ad.length m.length aead.authsize)
        dst_d)).1 = 0 ∧
    payload_of (crypto_aegis256_decrypt env_d (crypto_aegis256_setkey aead key key.length).2
      (decrypt_request iv ad
        (payload_of (crypto_aegis256_encrypt env_e (crypto_aegis256_setkey aead key key.length).2
          (encrypt_request iv ad m dst_e)).2 ad.length m.length)
        (tag_of (crypto_aegis256_encrypt env_e (crypto_aegis256_setkey aead key key.length).2
          (encrypt_request iv ad m dst_e)).2 ad.length m.length aead.authsize)
        dst_d)).2 ad.length m.length = m := by
  have ha := setkey_authsize aead key key.length
  obtain ⟨hp, htag⟩ := output_of_encrypt env_e (crypto_aegis256_setkey aead key key.length).2
    iv ad m dst_e (by omega) hcov_e hwalk_e
  rw [ha] at htag
  rw [hp, htag]
  obtain ⟨hret, hout⟩ := decrypt_of_encrypt env_d (crypto_aegis256_setkey aead key key.length).2
    (crypto_aegis256_setkey aead key key.length).2 iv ad m
    (bytes_of (encrypt_tag (crypto_aegis256_setkey aead key key.length).2 iv ad m) aead.authsize)
    dst_d rfl (by rw [ha, length_bytes_of]) (by rw [ha]; exact h16) (by rw [ha]; exact h32)
    hcov_d hwalk_d
  constructor
  · rw [hret, ha]
  · rw [hout]
    exact payload_of_decrypt _ _ _ _

/-- C3 (the associated data is chunk-boundary independent): for every state, every byte
string `ad` shorter than 2^32 and every split of `ad` into consecutive non-empty ranges,
`crypto_aegis256_process_ad` walking those ranges leaves the state it leaves when `ad` is
presented as one range, whatever the addresses and the initial buffer contents are. -/
theorem process_ad_chunking_independent (A A1 : Nat → Bool) (walk : List sg_range)
    (buf buf1 : aegis_block) (st : aegis_state) (ad : List Nat) (addr : Nat)
    (hne : ∀ r ∈ walk, 0 < r.len) (hsum : (walk.map sg_range.len).sum = ad.length)
    (h32 : ad.length < 2 ^ 32) :
    crypto_aegis256_process_ad A walk buf st ad ad.length =
      crypto_aegis256_process_ad A1 [⟨addr, ad.length⟩] buf1 st ad ad.length := by
  rw [process_ad_eq A walk buf st ad ad.length h32 (by omega),
    process_ad_eq A1 [⟨addr, ad.length⟩] buf1 st ad ad.length h32 (by simp)]

/-- C4 (verification decides exactly tag equality): for a tag length `t` from 8 to 16 and
a supplied tag of `t` bytes, `crypto_aegis256_decrypt` returns 0 if and only if the tag
equals the first `t` bytes of the value finalisation adds to an all-zero accumulator for
the same key, nonce, associated data and ciphertext; it returns 0 or -EBADMSG and no
other value. -/
theorem decrypt_verdict (env : environment) (tfm : crypto_aead) (iv ad c tag dst : List Nat)
    (h8 : 8 ≤ tfm.authsize) (h16 : tfm.authsize ≤ 16) (htag : tag.length = tfm.authsize)
    (h32 : ad.length + c.length + tfm.authsize < 2 ^ 32) :
    ((crypto_aegis256_decrypt env tfm (decrypt_request iv ad c tag dst)).1 = 0 ↔
      tag = bytes_of (crypto_aegis256_crypt env tfm (decrypt_request iv ad c tag dst)
        aegis_block_zero c.length ⟨crypto_aegis256_decrypt_chunk env.AEGIS_ALIGNED⟩).1
        tfm.authsize) ∧
    ((crypto_aegis256_decrypt env tfm (decrypt_request iv ad c tag dst)).1 = 0 ∨
      (crypto_aegis256_decrypt env tfm (decrypt_request iv ad c tag dst)).1 = -EBADMSG) := by
  refine ⟨?_, decrypt_ret_cases _ _ _⟩
  rw [decrypt_ret_eq_zero_iff env tfm _ h16]
  have hreq : (decrypt_request iv ad c tag dst).assoclen = ad.length := rfl
  have hreq2 : (decrypt_request iv ad c tag dst).cryptlen = c.length + tfm.authsize := by
    simp [decrypt_request, htag]
  have hsrc : (decrypt_request iv ad c tag dst).src = (ad ++ c) ++ tag := by
    simp [decrypt_request]
  have hc : (c.length + tfm.authsize + 2 ^ 32 - tfm.authsize % 2 ^ 32) % 2 ^ 32 = c.length := by
    rw [Nat.mod_eq_of_lt (show tfm.authsize < 2 ^ 32 by omega)]
    rw [show c.length + tfm.authsize + 2 ^ 32 - tfm.authsize = c.length + 2 ^ 32 by omega]
    rw [Nat.add_mod_right]
    exact Nat.mod_eq_of_lt (by omega)
  rw [hreq, hreq2, hc, hsrc, Nat.mod_eq_of_lt (show ad.length + c.length < 2 ^ 32 by omega),
    List.drop_left' (by simp), bytes_of_of_length _ _ htag]

/-- C8 (`crypto_aegis256_setkey`): the call returns -EINVAL exactly when `keylen` is not
32, and then leaves the key context as it was; for `keylen` 32 it returns 0 and the
context holds bytes 0..15 of the key in `key[0]` and bytes 16..31 in `key[1]`. -/
theorem setkey_result (aead : crypto_aead) (key : List Nat) (keylen : Nat) :
    ((crypto_aegis256_setkey aead key keylen).1 = -EINVAL ↔ keylen ≠ 32) ∧
    (keylen ≠ 32 → (crypto_aegis256_setkey aead key keylen).2.ctx = aead.ctx) ∧
    (keylen = 32 →
      (crypto_aegis256_setkey aead key keylen).1 = 0 ∧
      bytes_of (crypto_aegis256_setkey aead key keylen).2.ctx.key0 16 = bytes_of key 16 ∧
      bytes_of (crypto_aegis256_setkey aead key keylen).2.ctx.key1 16 =
        bytes_of (key.drop 16) 16) := by
  unfold crypto_aegis256_setkey
  simp only [AEGIS256_KEY_SIZE, AEGIS_BLOCK_SIZE]
  have hE : (0 : Int) ≠ -EINVAL := by decide
  split_ifs with h
  · refine ⟨⟨fun _ => h, fun _ => rfl⟩, fun _ => rfl, fun h' => absurd h' h⟩
  · have h' : keylen = 32 := by omega
    refine ⟨⟨fun h0 => absurd h0 hE, fun h0 => absurd h' h0⟩, fun h0 => absurd h' h0,
      fun _ => ⟨rfl, ?_, ?_⟩⟩
    · show bytes_of (memcpy aead.ctx.key0 key 16) 16 = bytes_of key 16
      unfold memcpy
      rw [bytes_of_append_left _ _ _ (by simp), bytes_of_bytes_of _ _ _ (Nat.le_refl _)]
    · show bytes_of (memcpy aead.ctx.key1 (key.drop 16) 16) 16 = bytes_of (key.drop 16) 16
      unfold memcpy
      rw [bytes_of_append_left _ _ _ (by simp), bytes_of_bytes_of _ _ _ (Nat.le_refl _)]

/-- C9 (`crypto_aegis256_setauthsize`): the call returns 0 exactly when
`8 <= authsize <= 16` and -EINVAL for every other value. -/
theorem setauthsize_result (tfm : crypto_aead) (authsize : Nat) :
    (crypto_aegis256_setauthsize tfm authsize = 0 ↔ 8 ≤ authsize ∧ authsize ≤ 16) ∧
    (crypto_aegis256_setauthsize tfm authsize = -EINVAL ↔ authsize < 8 ∨ 16 < authsize) := by
  unfold crypto_aegis256_setauthsize
  simp only [AEGIS256_MAX_AUTH_SIZE, AEGIS256_MIN_AUTH_SIZE]
  have hE : (-EINVAL : Int) ≠ 0 := by decide
  have hE' : (0 : Int) ≠ -EINVAL := by decide
  split_ifs with h1 h2
  · exact ⟨⟨fun h => absurd h hE, fun h => by omega⟩, ⟨fun _ => Or.inr h1, fun _ => rfl⟩⟩
  · exact ⟨⟨fun h => absurd h hE, fun h => by omega⟩, ⟨fun _ => Or.inl h2, fun _ => rfl⟩⟩
  · exact ⟨⟨fun _ => by omega, fun _ => rfl⟩, ⟨fun h => absurd h hE', fun h => by omega⟩⟩

/-! ## Concrete inputs -/

/-! ## C10 -/

theorem decrypt_cryptlen_wrap (env : environment) (tfm : crypto_aead) (req : aead_request)
    (h16 : tfm.authsize ≤ 16) (hlt : req.cryptlen < tfm.authsize) :
    (req.cryptlen + 2 ^ 32 - tfm.authsize % 2 ^ 32) % 2 ^ 32 =
      req.cryptlen + 2 ^ 32 - tfm.authsize := by
  rw [Nat.mod_eq_of_lt (show tfm.authsize < 2 ^ 32 by omega)]
  exact Nat.mod_eq_of_lt (by omega)

/-- C10 as amended (no length check in `crypto_aegis256_decrypt`): for a request with
`req->cryptlen < authsize` the function takes the 32-bit difference
`req->cryptlen + 2^32 - authsize` as the payload length, processes the request with it
and returns 0 or -EBADMSG by the tag comparison alone: 0 exactly when the `authsize`
bytes at offset `assoclen` plus that length equal the finalisation value. -/
theorem decrypt_short_request (env : environment) (tfm : crypto_aead) (req : aead_request)
    (h16 : tfm.authsize ≤ 16) (hlt : req.cryptlen < tfm.authsize) :
    ((crypto_aegis256_decrypt env tfm req).1 = 0 ↔
      bytes_of (req.src.drop ((req.assoclen + (req.cryptlen + 2 ^ 32 - tfm.authsize)) % 2 ^ 32))
          tfm.authsize =
        bytes_of (crypto_aegis256_crypt env tfm req aegis_block_zero
          (req.cryptlen + 2 ^ 32 - tfm.authsize)
          ⟨crypto_aegis256_decrypt_chunk env.AEGIS_ALIGNED⟩).1 tfm.authsize) ∧
    ((crypto_aegis256_decrypt env tfm req).1 = 0 ∨
      (crypto_aegis256_decrypt env tfm req).1 = -EBADMSG) := by
  refine ⟨?_, decrypt_ret_cases _ _ _⟩
  rw [decrypt_ret_eq_zero_iff env tfm req h16, decrypt_cryptlen_wrap env tfm req h16 hlt]

/-- With `cryptlen = 0`, tag length `t` and a source of `2^32 - t` payload bytes followed
by the matching tag, `crypto_aegis256_decrypt` returns 0. -/
theorem decrypt_accepts_wrapped (A : Nat → Bool) (st0 : aegis_state) (buf0 tag0 : aegis_block)
    (tfm : crypto_aead) (iv dst p : List Nat) (n : Nat) (hp : p.length = n)
    (ht0 : 0 < tfm.authsize) (ht : tfm.authsize ≤ 16) (hn : n = 2 ^ 32 - tfm.authsize) :
    (crypto_aegis256_decrypt ⟨A, [], [⟨0, 0, n⟩], st0, buf0, tag0⟩ tfm
      ⟨0, 0, iv, p ++ bytes_of (crypto_aegis256_crypt ⟨A, [], [⟨0, 0, n⟩], st0, buf0, tag0⟩ tfm
          ⟨0, 0, iv, p, dst⟩ aegis_block_zero n ⟨crypto_aegis256_decrypt_chunk A⟩).1
          tfm.authsize, dst⟩).1 = 0 := by
  have hwalk : skcipher_walk_ok 16 n [⟨0, 0, n⟩] := by
    refine ⟨by show n ≠ 0; omega, Nat.le_refl _, Or.inr rfl, ?_⟩
    show n - n = 0
    omega
  have hops : (⟨crypto_aegis256_decrypt_chunk A⟩ : aegis256_ops) = ⟨crypt_chunk_of A true⟩ := rfl
  rw [decrypt_ret_eq_zero_iff _ tfm _ ht]
  simp only []
  have hc : (0 + 2 ^ 32 - tfm.authsize % 2 ^ 32) % 2 ^ 32 = n := by
    rw [Nat.mod_eq_of_lt (show tfm.authsize < 2 ^ 32 by omega)]
    rw [Nat.mod_eq_of_lt (by omega)]
    omega
  rw [hc, Nat.zero_add, Nat.mod_eq_of_lt (show n < 2 ^ 32 by omega), List.drop_left' hp,
    bytes_of_bytes_of _ _ _ (Nat.le_refl _), hops]
  rw [crypt_eq ⟨A, [], [⟨0, 0, n⟩], st0, buf0, tag0⟩ tfm _ aegis_block_zero n true n
      (by show 0 < 2 ^ 32; omega) (by show 0 ≤ _; omega) hwalk,
    crypt_eq ⟨A, [], [⟨0, 0, n⟩], st0, buf0, tag0⟩ tfm _ aegis_block_zero n true n
      (by show 0 < 2 ^ 32; omega) (by show 0 ≤ _; omega) hwalk]
  simp only []
  have hst : crypt_state true tfm ⟨0, 0, iv, p ++ bytes_of (crypto_aegis256_final
      (crypt_state true tfm ⟨0, 0, iv, p, dst⟩ n) aegis_block_zero 0 n).2 tfm.authsize, dst⟩ n =
      crypt_state true tfm ⟨0, 0, iv, p, dst⟩ n := by
    unfold crypt_state
    simp only [List.drop_zero]
    have ha : ∀ (s : aegis_state) (l : List Nat), absorb_bytes s l 0 = s := by
      intro s l
      rw [absorb_bytes_lt _ _ _ (by omega)]
      simp
    rw [ha, ha]
    congr 1
    apply crypt_bytes_congr
    intro i hi
    rw [getD_append_eq, if_pos (by omega)]
  rw [hst]

/-- C10, counterexample: the request `wrapped_request` has `cryptlen = 0`, less than the
tag length 8, and `crypto_aegis256_decrypt` returns 0 on it, not an error value: it takes
`0 - 8 = 4294967288` as the payload length and finds a matching tag behind the payload. -/
theorem decrypt_short_request_accepted :
    wrapped_request.cryptlen < (zero_key_tfm 8).authsize ∧
    (crypto_aegis256_decrypt wrapped_env (zero_key_tfm 8) wrapped_request).1 = 0 :=
  ⟨by decide,
   decrypt_accepts_wrapped (fun _ => true) ⟨[], [], [], [], [], []⟩ [] [] (zero_key_tfm 8)
     (List.replicate 32 0) [] (List.replicate 4294967288 0) 4294967288
     (List.length_replicate _ _) (by decide) (by decide) (by decide)⟩

/-- Round trip on block walks at a 32-byte key, a 32-byte nonce, 3 bytes of associated
data, 20 bytes of plaintext and a 12-byte tag, encrypted in steps of 16 and 4 bytes,
decrypted in one. -/
theorem round_trip_on_block_walks_witness :
    (crypto_aegis256_decrypt sample_env_d
      (crypto_aegis256_setkey sample_aead (List.range 32) (List.range 32).length).2
      (decrypt_request (List.replicate 32 7) [1, 2, 3]
        (payload_of (crypto_aegis256_encrypt sample_env_e
          (crypto_aegis256_setkey sample_aead (List.range 32) (List.range 32).length).2
          (encrypt_request (List.replicate 32 7) [1, 2, 3] (List.range 20) [])).2
          [1, 2, 3].length (List.range 20).length)
        (tag_of (crypto_aegis256_encrypt sample_env_e
          (crypto_aegis256_setkey sample_aead (List.range 32) (List.range 32).length).2
          (encrypt_request (List.replicate 32 7) [1, 2, 3] (List.range 20) [])).2
          [1, 2, 3].length (List.range 20).length sample_aead.authsize)
        [])).1 = 0 ∧
    payload_of (crypto_aegis256_decrypt sample_env_d
      (crypto_aegis256_setkey sample_aead (List.range 32) (List.range 32).length).2
      (decrypt_request (List.replicate 32 7) [1, 2, 3]
        (payload_of (crypto_aegis256_encrypt sample_env_e
          (crypto_aegis256_setkey sample_aead (List.range 32) (List.range 32).length).2
          (encrypt_request (List.replicate 32 7) [1, 2, 3] (List.range 20) [])).2
          [1, 2, 3].length (List.range 20).length)
        (tag_of (crypto_aegis256_encrypt sample_env_e
          (crypto_aegis256_setkey sample_aead (List.range 32) (List.range 32).length).2
          (encrypt_request (List.replicate 32 7) [1, 2, 3] (List.range 20) [])).2
          [1, 2, 3].length (List.range 20).length sample_aead.authsize)
        [])).2 [1, 2, 3].length (List.range 20).length = List.range 20 :=
  round_trip_on_block_walks sample_env_e sample_env_d sample_aead (List.range 32) (List.replicate 32 7)
    [1, 2, 3] (List.range 20) [] [] (by decide) (by decide) (by decide) (by decide)
    (by decide) (by decide) (by decide) (by decide) (by decide)

/-- C3, witness: 21 bytes in ranges of 1, 3, 13 and 4 bytes. -/
theorem process_ad_chunking_independent_witness :
    crypto_aegis256_process_ad (fun a => a % 8 == 0) [⟨0, 1⟩, ⟨5, 3⟩, ⟨0, 13⟩, ⟨1, 4⟩] []
      sample_state (List.range 21) (List.range 21).length =
    crypto_aegis256_process_ad (fun _ => false) [⟨0, (List.range 21).length⟩] (List.range 16)
      sample_state (List.range 21) (List.range 21).length :=
  process_ad_chunking_independent (fun a => a % 8 == 0) (fun _ => false)
    [⟨0, 1⟩, ⟨5, 3⟩, ⟨0, 13⟩, ⟨1, 4⟩] [] (List.range 16) sample_state (List.range 21) 0
    (by decide) (by decide) (by decide)

/-- C4, witness: a 12-byte tag after 20 bytes of ciphertext and 3 bytes of associated
data. -/
theorem decrypt_verdict_witness :
    ((crypto_aegis256_decrypt sample_env_d sample_aead
        (decrypt_request (List.replicate 32 7) [1, 2, 3] (List.range 20) (List.range 12) [])).1
        = 0 ↔
      List.range 12 = bytes_of (crypto_aegis256_crypt sample_env_d sample_aead
        (decrypt_request (List.replicate 32 7) [1, 2, 3] (List.range 20) (List.range 12) [])
        aegis_block_zero (List.range 20).length
        ⟨crypto_aegis256_decrypt_chunk sample_env_d.AEGIS_ALIGNED⟩).1 sample_aead.authsize) ∧
    ((crypto_aegis256_decrypt sample_env_d sample_aead
        (decrypt_request (List.replicate 32 7) [1, 2, 3] (List.range 20) (List.range 12) [])).1
        = 0 ∨
      (crypto_aegis256_decrypt sample_env_d sample_aead
        (decrypt_request (List.replicate 32 7) [1, 2, 3] (List.range 20) (List.range 12) [])).1
        = -EBADMSG) :=
  decrypt_verdict sample_env_d sample_aead (List.replicate 32 7) [1, 2, 3] (List.range 20)
    (List.range 12) [] (by decide) (by decide) (by decide) (by decide)

/-- C8, witness: a 5-byte key is refused and leaves the context alone; a 32-byte key is
stored. -/
theorem setkey_result_witness :
    (crypto_aegis256_setkey sample_aead (List.range 5) 5).2.ctx = sample_aead.ctx ∧
    (crypto_aegis256_setkey sample_aead (List.range 32) 32).1 = 0 :=
  ⟨(setkey_result sample_aead (List.range 5) 5).2.1 (by decide),
   ((setkey_result sample_aead (List.range 32) 32).2.2 rfl).1⟩

/-- C10, witness: a request with `cryptlen = 3` under tag length 12. -/
theorem decrypt_short_request_witness :
    ((crypto_aegis256_decrypt sample_env_d sample_aead ⟨0, 3, [], [1, 2, 3], []⟩).1 = 0 ↔
      bytes_of (([1, 2, 3] : List Nat).drop ((0 + (3 + 2 ^ 32 - sample_aead.authsize)) % 2 ^ 32))
          sample_aead.authsize =
        bytes_of (crypto_aegis256_crypt sample_env_d sample_aead ⟨0, 3, [], [1, 2, 3], []⟩
          aegis_block_zero (3 + 2 ^ 32 - sample_aead.authsize)
          ⟨crypto_aegis256_decrypt_chunk sample_env_d.AEGIS_ALIGNED⟩).1 sample_aead.authsize) ∧
    ((crypto_aegis256_decrypt sample_env_d sample_aead ⟨0, 3, [], [1, 2, 3], []⟩).1 = 0 ∨
      (crypto_aegis256_decrypt sample_env_d sample_aead ⟨0, 3, [], [1, 2, 3], []⟩).1 =
        -EBADMSG) :=
  decrypt_short_request sample_env_d sample_aead ⟨0, 3, [], [1, 2, 3], []⟩ (by decide)
    (by decide)

/-! ## Tag emission and empty inputs -/

theorem final_state_indep (st : aegis_state) (tag tag' : aegis_block) (a c : Nat) :
    (crypto_aegis256_final st tag a c).1 = (crypto_aegis256_final st tag' a c).1 := rfl

theorem final_zero_eq_state_xor (st : aegis_state) (a c : Nat) :
    (crypto_aegis256_final st aegis_block_zero a c).2 =
      state_xor (crypto_aegis256_final st aegis_block_zero a c).1 := by
  apply block_eq_of_getD _ _ (length_final _ _ _ _) (by simp [state_xor])
  intro i hi
  unfold crypto_aegis256_final state_xor
  simp only [AEGIS256_STATE_BLOCKS, crypto_aegis256_final_xor_loop, getD_block_xor,
    aegis_block_zero, getD_replicate_zero, hi, if_true, Nat.zero_xor, aegis_state.get]

theorem crypt_tag_eq_state_xor (env : environment) (tfm : crypto_aead) (req : aead_request)
    (c : Nat) (ops : aegis256_ops) :
    (crypto_aegis256_crypt env tfm req aegis_block_zero c ops).1 =
      state_xor (crypt_final_state env tfm req aegis_block_zero c ops) := by
  unfold crypto_aegis256_crypt crypt_final_state
  simp only []
  exact final_zero_eq_state_xor _ _ _

theorem tag_of_memcpy_at (x tg : List Nat) (a c t : Nat) :
    tag_of (memcpy_at x (a + c) tg t) a c t = bytes_of tg t := by
  unfold tag_of memcpy_at memcpy
  rw [List.drop_left' (length_bytes_of _ _), List.take_left' (length_bytes_of _ _)]

theorem payload_of_memcpy_at (x tg : List Nat) (a c t : Nat) :
    payload_of (memcpy_at x (a + c) tg t) a c = bytes_of (x.drop a) c := by
  unfold payload_of memcpy_at memcpy
  rw [bytes_of_add, List.append_assoc, List.drop_left' (length_bytes_of _ _),
    List.take_left' (length_bytes_of _ _)]

theorem encrypt_unfold (env : environment) (tfm : crypto_aead) (req : aead_request) :
    crypto_aegis256_encrypt env tfm req =
      (0, memcpy_at (crypto_aegis256_crypt env tfm req aegis_block_zero req.cryptlen
          ⟨crypto_aegis256_encrypt_chunk env.AEGIS_ALIGNED⟩).2
        ((req.assoclen + req.cryptlen) % 2 ^ 32)
        (crypto_aegis256_crypt env tfm req aegis_block_zero req.cryptlen
          ⟨crypto_aegis256_encrypt_chunk env.AEGIS_ALIGNED⟩).1 tfm.authsize) := rfl

theorem process_ad_zero (A : Nat → Bool) (walk : List sg_range) (buf : aegis_block)
    (st : aegis_state) (sg : List Nat) :
    crypto_aegis256_process_ad A walk buf st sg 0 = st := by
  unfold crypto_aegis256_process_ad
  cases walk with
  | nil => simp [crypto_aegis256_process_ad_loop]
  | cons r walk => simp [crypto_aegis256_process_ad_loop]

theorem encrypt_chunk_zero (A : Nat → Bool) (st : aegis_state) (dst src : u8_ptr) :
    crypto_aegis256_encrypt_chunk A st dst src 0 = (st, dst.bytes) := by
  unfold crypto_aegis256_encrypt_chunk
  split <;> simp [crypto_aegis256_encrypt_loop_a, crypto_aegis256_encrypt_loop_u,
    crypto_aegis256_encrypt_tail]

theorem decrypt_chunk_zero (A : Nat → Bool) (st : aegis_state) (dst src : u8_ptr) :
    crypto_aegis256_decrypt_chunk A st dst src 0 = (st, dst.bytes) := by
  unfold crypto_aegis256_decrypt_chunk
  split <;> simp [crypto_aegis256_decrypt_loop_a, crypto_aegis256_decrypt_loop_u,
    crypto_aegis256_decrypt_tail]

theorem walk_ok_zero (c : Nat) (walk : List skcipher_walk_step)
    (h : skcipher_walk_ok c 0 walk) : walk = [] := by
  cases walk with
  | nil => rfl
  | cons w ws =>
    obtain ⟨h0, hle, _, _⟩ := h
    omega

/-! ## Chunk round trip and frame -/

theorem chunk_round_trip (A A1 : Nat → Bool) (st : aegis_state) (dst dst1 p : List Nat)
    (da pa da1 ca : Nat) :
    crypto_aegis256_decrypt_chunk A1 st ⟨da1, dst1⟩
        ⟨ca, (crypto_aegis256_encrypt_chunk A st ⟨da, dst⟩ ⟨pa, p⟩ p.length).2.take p.length⟩
        p.length =
      ((crypto_aegis256_encrypt_chunk A st ⟨da, dst⟩ ⟨pa, p⟩ p.length).1,
        p ++ dst1.drop p.length) := by
  have he : crypto_aegis256_encrypt_chunk A st ⟨da, dst⟩ ⟨pa, p⟩ p.length =
      crypt_chunk_of A false st ⟨da, dst⟩ ⟨pa, p⟩ p.length := rfl
  have hd : ∀ c, crypto_aegis256_decrypt_chunk A1 st ⟨da1, dst1⟩ ⟨ca, c⟩ p.length =
      crypt_chunk_of A1 true st ⟨da1, dst1⟩ ⟨ca, c⟩ p.length := fun _ => rfl
  rw [hd, he, crypt_chunk_eq, crypt_chunk_eq]
  simp only []
  rw [List.take_left' (length_crypt_bytes _ _ _ _)]
  have h := crypt_bytes_inverse st p [] p.length
  rw [List.append_nil] at h
  rw [h, bytes_of_eq_self]

theorem chunk_frame (A : Nat → Bool) (dec : Bool) (st : aegis_state) (dst src : u8_ptr)
    (size : Nat) :
    (crypt_chunk_of A dec st dst src size).2.drop size = dst.bytes.drop size ∧
    ((crypt_chunk_of A dec st dst src size).2.take size).length = size ∧
    (crypt_chunk_of A dec st dst src size).2.length = max dst.bytes.length size := by
  rw [crypt_chunk_eq]
  simp only []
  have hl := length_crypt_bytes dec st src.bytes size
  refine ⟨List.drop_left' hl, ?_, ?_⟩
  · rw [List.take_left' hl, hl]
  · rw [List.length_append, hl, List.length_drop]
    omega

theorem chunk_written_indep (A : Nat → Bool) (dec : Bool) (st : aegis_state) (dst dst1 src : u8_ptr)
    (size : Nat) :
    (crypt_chunk_of A dec st dst src size).2.take size =
      (crypt_chunk_of A dec st dst1 src size).2.take size := by
  rw [crypt_chunk_eq, crypt_chunk_eq]
  simp only []
  have hl := length_crypt_bytes dec st src.bytes size
  rw [List.take_left' hl, List.take_left' hl]

/-! ## Absorption against the reference of the spec -/

theorem spec_ad_blocks_lt (ad : List Nat) (h0 : 0 < ad.length) (h : ad.length < 16) :
    spec_ad_blocks ad = [pad_block ad ad.length] := by
  unfold spec_ad_blocks
  have h1 : (ad.length + 15) / 16 = 1 := by omega
  rw [h1]
  simp only [List.range_succ, List.range_zero, List.nil_append, List.map_cons, List.map_nil,
    Nat.mul_zero, List.drop_zero, Nat.sub_zero]
  rw [Nat.min_eq_right (by omega)]

theorem spec_ad_blocks_nil (ad : List Nat) (h0 : ad.length = 0) : spec_ad_blocks ad = [] := by
  unfold spec_ad_blocks
  rw [h0]
  rfl

theorem spec_ad_blocks_ge (ad : List Nat) (h : 16 ≤ ad.length) :
    spec_ad_blocks ad = pad_block ad 16 :: spec_ad_blocks (ad.drop 16) := by
  unfold spec_ad_blocks
  have h1 : (ad.length + 15) / 16 = ((ad.drop 16).length + 15) / 16 + 1 := by
    rw [List.length_drop]
    omega
  rw [h1, List.range_succ_eq_map, List.map_cons, List.map_map]
  congr 1
  · simp only [Nat.mul_zero, List.drop_zero, Nat.sub_zero]
    rw [Nat.min_eq_left h]
  · apply List.map_congr_left
    intro k _
    simp only [Function.comp, List.drop_drop, List.length_drop]
    rw [show 16 + 16 * k = 16 * (k + 1) by omega,
      show ad.length - 16 - 16 * k = ad.length - 16 * (k + 1) by omega]

theorem absorb_bytes_eq_spec (n : Nat) (st : aegis_state) (ad : List Nat) (h : ad.length = n) :
    absorb_bytes st ad n = spec_process_ad st ad := by
  induction n using Nat.strong_induction_on generalizing st ad with
  | _ n ih =>
    unfold spec_process_ad
    by_cases hn : n < 16
    · rw [absorb_bytes_lt _ _ _ hn]
      by_cases h0 : n > 0
      · rw [if_pos h0, spec_ad_blocks_lt ad (by omega) (by omega), h]
        rfl
      · rw [if_neg h0, spec_ad_blocks_nil ad (by omega)]
        rfl
    · have hge : 16 ≤ n := by omega
      rw [absorb_bytes_ge _ _ _ hge, spec_ad_blocks_ge ad (by omega), List.foldl_cons]
      have hu : crypto_aegis256_update_a st (pad_block ad 16) = crypto_aegis256_update_a st ad := by
        apply update_a_congr
        intro i hi
        unfold pad_block
        rw [getD_append_eq, length_bytes_of, if_pos hi, getD_bytes_of, if_pos hi]
      rw [hu]
      have := ih (n - 16) (by omega) (crypto_aegis256_update_a st ad) (ad.drop 16)
        (by rw [List.length_drop, h])
      rw [this]
      rfl

/-! ## What decryption writes -/

theorem getD_eq_of_bytes_of_eq (a b : List Nat) (n : Nat) (h : bytes_of a n = bytes_of b n)
    (i : Nat) (hi : i < n) : a.getD i 0 = b.getD i 0 := by
  have h1 := congrArg (fun l => l.getD i 0) h
  simp only [getD_bytes_of, if_pos hi] at h1
  exact h1

theorem aes_round_congr (a b : aegis_block) (h : ∀ i, i < 16 → a.getD i 0 = b.getD i 0) :
    aes_round a = aes_round b := by
  unfold aes_round aes_round_column aes_sub_shift
  simp only [h _ (Nat.mod_lt _ (by decide : 16 > 0))]

theorem aesenc_congr (a a1 b b1 : aegis_block) (ha : ∀ i, i < 16 → a.getD i 0 = a1.getD i 0)
    (hb : ∀ i, i < 16 → b.getD i 0 = b1.getD i 0) :
    crypto_aegis_aesenc a b = crypto_aegis_aesenc a1 b1 := by
  unfold crypto_aegis_aesenc
  rw [aes_round_congr a a1 ha]
  exact block_xor_congr _ _ _ _ (fun _ _ => rfl) hb

theorem update_a_congr_state (s t : aegis_state) (m m1 : aegis_block) (h : state_agrees s t)
    (hm : ∀ i, i < 16 → m.getD i 0 = m1.getD i 0) :
    crypto_aegis256_update_a s m = crypto_aegis256_update_a t m1 := by
  obtain ⟨h0, h1, h2, h3, h4, h5⟩ := h
  rw [update_a_eq, update_a_eq, aesenc_congr _ _ _ _ h5 h0, aesenc_congr _ _ _ _ h0 h1,
    aesenc_congr _ _ _ _ h1 h2, aesenc_congr _ _ _ _ h2 h3, aesenc_congr _ _ _ _ h3 h4,
    aesenc_congr _ _ _ _ h4 h5, block_xor_congr _ _ m m1 (fun _ _ => rfl) hm]

theorem init_loop_congr (k0 k1 v0 v1 k0' k1' v0' v1' : aegis_block)
    (h0 : ∀ i, i < 16 → k0.getD i 0 = k0'.getD i 0)
    (h1 : ∀ i, i < 16 → k1.getD i 0 = k1'.getD i 0)
    (h2 : ∀ i, i < 16 → v0.getD i 0 = v0'.getD i 0)
    (h3 : ∀ i, i < 16 → v1.getD i 0 = v1'.getD i 0)
    (n : Nat) (s t : aegis_state) (h : state_agrees s t) :
    crypto_aegis256_init_loop k0 k1 v0 v1 (n + 1) s =
      crypto_aegis256_init_loop k0' k1' v0' v1' (n + 1) t := by
  have e : ∀ (a b c d : aegis_block) (m : Nat) (u : aegis_state),
      crypto_aegis256_init_loop a b c d (m + 1) u =
        crypto_aegis256_init_loop a b c d m
          (crypto_aegis256_update_a (crypto_aegis256_update_a (crypto_aegis256_update_a
            (crypto_aegis256_update_a u a) b) c) d) := fun _ _ _ _ _ _ => rfl
  induction n generalizing s t with
  | zero =>
    rw [e, e, update_a_congr_state s t k0 k0' h h0, update_a_congr _ k1 k1' h1,
      update_a_congr _ v0 v0' h2, update_a_congr _ v1 v1' h3]
    rfl
  | succ n ih =>
    rw [e k0 k1 v0 v1 (n + 1) s, e k0' k1' v0' v1' (n + 1) t,
      update_a_congr_state s t k0 k0' h h0, update_a_congr _ k1 k1' h1,
      update_a_congr _ v0 v0' h2, update_a_congr _ v1 v1' h3]
    exact ih _ _ ⟨fun _ _ => rfl, fun _ _ => rfl, fun _ _ => rfl, fun _ _ => rfl,
      fun _ _ => rfl, fun _ _ => rfl⟩

theorem getD_crypto_xor (a b : List Nat) (n i : Nat) (hi : i < n) :
    (crypto_xor a b n).getD i 0 = a.getD i 0 ^^^ b.getD i 0 := by
  unfold crypto_xor
  rw [getD_append_eq, List.length_map, List.length_range, if_pos hi, getD_map_range, if_pos hi]

theorem init_congr (s t : aegis_state) (k0 k1 k0' k1' : aegis_block) (iv : List Nat)
    (h0 : ∀ i, i < 16 → k0.getD i 0 = k0'.getD i 0)
    (h1 : ∀ i, i < 16 → k1.getD i 0 = k1'.getD i 0) :
    crypto_aegis256_init s k0 k1 iv = crypto_aegis256_init t k0' k1' iv := by
  unfold crypto_aegis256_init
  simp only [aegis_state.set, aegis_state.get, AEGIS_BLOCK_SIZE]
  have hv0 : ∀ i, i < 16 → (crypto_xor k0 (iv.drop (0 * 16)) 16).getD i 0 =
      (crypto_xor k0' (iv.drop (0 * 16)) 16).getD i 0 := by
    intro i hi
    rw [getD_crypto_xor _ _ _ _ hi, getD_crypto_xor _ _ _ _ hi, h0 i hi]
  have hv1 : ∀ i, i < 16 → (crypto_xor k1 (iv.drop (1 * 16)) 16).getD i 0 =
      (crypto_xor k1' (iv.drop (1 * 16)) 16).getD i 0 := by
    intro i hi
    rw [getD_crypto_xor _ _ _ _ hi, getD_crypto_xor _ _ _ _ hi, h1 i hi]
  apply init_loop_congr _ _ _ _ _ _ _ _ h0 h1 hv0 hv1
  refine ⟨hv0, hv1, fun _ _ => rfl, fun _ _ => rfl, ?_, ?_⟩
  · intro i hi
    rw [getD_block_xor, getD_block_xor, h0 i hi]
  · intro i hi
    rw [getD_block_xor, getD_block_xor, h1 i hi]

theorem encrypt_result_congr (tfm tfm1 : crypto_aead) (iv ad m : List Nat)
    (h0 : ∀ i, i < 16 → tfm.ctx.key0.getD i 0 = tfm1.ctx.key0.getD i 0)
    (h1 : ∀ i, i < 16 → tfm.ctx.key1.getD i 0 = tfm1.ctx.key1.getD i 0) :
    encrypt_ciphertext tfm iv ad m = encrypt_ciphertext tfm1 iv ad m ∧
    encrypt_tag tfm iv ad m = encrypt_tag tfm1 iv ad m := by
  unfold encrypt_ciphertext encrypt_tag crypt_output crypt_state
  rw [init_congr ⟨[], [], [], [], [], []⟩ ⟨[], [], [], [], [], []⟩ _ _ _ _
    (encrypt_request iv ad m []).iv h0 h1]
  exact ⟨rfl, rfl⟩

theorem setkey_key_bytes (aead : crypto_aead) (key : List Nat) (i : Nat) (hi : i < 16) :
    (crypto_aegis256_setkey aead key 32).2.ctx.key0.getD i 0 = key.getD i 0 ∧
    (crypto_aegis256_setkey aead key 32).2.ctx.key1.getD i 0 = (key.drop 16).getD i 0 := by
  have h0 : (crypto_aegis256_setkey aead key 32).2.ctx.key0 = memcpy aead.ctx.key0 key 16 := rfl
  have h1 : (crypto_aegis256_setkey aead key 32).2.ctx.key1 =
      memcpy aead.ctx.key1 (key.drop 16) 16 := rfl
  rw [h0, h1]
  unfold memcpy
  rw [getD_append_eq, length_bytes_of, if_pos hi, getD_bytes_of, if_pos hi,
    getD_append_eq, length_bytes_of, if_pos hi, getD_bytes_of, if_pos hi]
  exact ⟨rfl, rfl⟩

/-- C11 (tag emission): `crypto_aegis256_encrypt` returns 0; the `authsize` bytes it
writes at offset `assoclen + cryptlen` of the destination are the first `authsize` bytes
of the XOR of the six state blocks after finalisation (the accumulator starts at the zero
block); hence, for the same key, nonce, associated data and plaintext, the tag written at
length `t` is the `t`-byte prefix of the tag written at length 16, and the ciphertext is
the same for both lengths. -/
theorem tag_emission (env : environment) (tfm : crypto_aead) (req : aead_request) (t : Nat)
    (h32 : req.assoclen + req.cryptlen < 2 ^ 32) (ht : t ≤ 16) :
    (crypto_aegis256_encrypt env tfm req).1 = 0 ∧
    tag_of (crypto_aegis256_encrypt env tfm req).2 req.assoclen req.cryptlen tfm.authsize =
      bytes_of (state_xor (crypt_final_state env tfm req aegis_block_zero req.cryptlen
        ⟨crypto_aegis256_encrypt_chunk env.AEGIS_ALIGNED⟩)) tfm.authsize ∧
    tag_of (crypto_aegis256_encrypt env { tfm with authsize := t } req).2
        req.assoclen req.cryptlen t =
      (tag_of (crypto_aegis256_encrypt env { tfm with authsize := 16 } req).2
        req.assoclen req.cryptlen 16).take t ∧
    payload_of (crypto_aegis256_encrypt env { tfm with authsize := t } req).2
        req.assoclen req.cryptlen =
      payload_of (crypto_aegis256_encrypt env { tfm with authsize := 16 } req).2
        req.assoclen req.cryptlen := by
  have hmod : (req.assoclen + req.cryptlen) % 2 ^ 32 = req.assoclen + req.cryptlen :=
    Nat.mod_eq_of_lt h32
  have hc : ∀ (u : Nat), crypto_aegis256_crypt env { tfm with authsize := u } req
      aegis_block_zero req.cryptlen ⟨crypto_aegis256_encrypt_chunk env.AEGIS_ALIGNED⟩ =
      crypto_aegis256_crypt env tfm req aegis_block_zero req.cryptlen
        ⟨crypto_aegis256_encrypt_chunk env.AEGIS_ALIGNED⟩ := fun _ => rfl
  refine ⟨rfl, ?_, ?_, ?_⟩
  · rw [encrypt_unfold, hmod]
    simp only []
    rw [tag_of_memcpy_at, crypt_tag_eq_state_xor]
  · rw [encrypt_unfold, encrypt_unfold, hmod]
    simp only []
    rw [hc t, hc 16, tag_of_memcpy_at, tag_of_memcpy_at, take_bytes_of _ _ _ ht]
  · rw [encrypt_unfold, encrypt_unfold, hmod]
    simp only []
    rw [hc t, hc 16, payload_of_memcpy_at, payload_of_memcpy_at]

/-- C12 (empty inputs): `crypto_aegis256_process_ad` with `assoclen = 0` leaves the state
unchanged, `crypto_aegis256_encrypt_chunk` and `crypto_aegis256_decrypt_chunk` with
`size = 0` leave the state and the destination unchanged; for empty associated data and
empty plaintext `crypto_aegis256_encrypt` returns 0 and writes no ciphertext byte but
the tag only, which is the first `authsize` bytes of what `crypto_aegis256_final` computes
from the freshly initialised state with both lengths 0; decrypting that output
returns 0. -/
theorem empty_inputs (A : Nat → Bool) (walk : List sg_range) (buf : aegis_block)
    (st : aegis_state) (sg : List Nat) (dstp srcp : u8_ptr)
    (env env_d : environment) (tfm : crypto_aead) (iv dst dst_d : List Nat)
    (h8 : 8 ≤ tfm.authsize) (h16 : tfm.authsize ≤ 16)
    (hwalk : skcipher_walk_ok 16 0 env.walk) (hwalk_d : skcipher_walk_ok 16 0 env_d.walk) :
    crypto_aegis256_process_ad A walk buf st sg 0 = st ∧
    crypto_aegis256_encrypt_chunk A st dstp srcp 0 = (st, dstp.bytes) ∧
    crypto_aegis256_decrypt_chunk A st dstp srcp 0 = (st, dstp.bytes) ∧
    crypto_aegis256_encrypt env tfm (encrypt_request iv [] [] dst) =
      (0, bytes_of (crypto_aegis256_final
          (crypto_aegis256_init env.state tfm.ctx.key0 tfm.ctx.key1 iv)
          aegis_block_zero 0 0).2 tfm.authsize ++ dst.drop tfm.authsize) ∧
    (crypto_aegis256_decrypt env_d tfm
      (decrypt_request iv [] []
        (tag_of (crypto_aegis256_encrypt env tfm (encrypt_request iv [] [] dst)).2 0 0
          tfm.authsize) dst_d)).1 = 0 := by
  refine ⟨process_ad_zero A walk buf st sg, encrypt_chunk_zero A st dstp srcp,
    decrypt_chunk_zero A st dstp srcp, ?_, ?_⟩
  · have hw := walk_ok_zero 16 env.walk hwalk
    rw [encrypt_unfold]
    unfold crypto_aegis256_crypt
    simp only [encrypt_request, List.length_nil, process_ad_zero, hw,
      crypto_aegis256_process_crypt, List.drop_zero, List.append_nil, Nat.add_zero,
      Nat.zero_mod]
    unfold memcpy_at memcpy
    simp [bytes_of]
  · obtain ⟨_, htag⟩ := output_of_encrypt env tfm iv [] [] dst (by simp)
      (by simp) hwalk
    have htag' : tag_of (crypto_aegis256_encrypt env tfm (encrypt_request iv [] [] dst)).2 0 0
        tfm.authsize = bytes_of (encrypt_tag tfm iv [] []) tfm.authsize := htag
    rw [htag']
    have hc : encrypt_ciphertext tfm iv [] [] = [] := by
      have := length_encrypt_ciphertext tfm iv [] []
      exact List.length_eq_zero.mp this
    obtain ⟨hret, _⟩ := decrypt_of_encrypt env_d tfm tfm iv [] []
      (bytes_of (encrypt_tag tfm iv [] []) tfm.authsize) dst_d rfl (length_bytes_of _ _) h16
      (by simp only [List.length_nil]; omega) (by simp) hwalk_d
    rw [hc] at hret
    exact hret.mpr rfl

/-- C13 (chunk-level round trip): for every state and every byte string `p` of any
length, `crypto_aegis256_decrypt_chunk` started from the same state on the bytes that
`crypto_aegis256_encrypt_chunk` wrote for `p` writes exactly `p`. -/
theorem chunk_round_trip_output (A A1 : Nat → Bool) (st : aegis_state) (dst dst1 p : List Nat)
    (da pa da1 ca : Nat) :
    (crypto_aegis256_decrypt_chunk A1 st ⟨da1, dst1⟩
        ⟨ca, (crypto_aegis256_encrypt_chunk A st ⟨da, dst⟩ ⟨pa, p⟩ p.length).2.take p.length⟩
        p.length).2.take p.length = p := by
  rw [chunk_round_trip]
  simp only []
  rw [List.take_left' rfl]

/-- C14 (state symmetry): for every state and every byte string `p` of any length, a
partial last block included, `crypto_aegis256_decrypt_chunk` on the ciphertext leaves the
state that `crypto_aegis256_encrypt_chunk` left when it produced that ciphertext. -/
theorem chunk_state_symmetry (A A1 : Nat → Bool) (st : aegis_state) (dst dst1 p : List Nat)
    (da pa da1 ca : Nat) :
    (crypto_aegis256_decrypt_chunk A1 st ⟨da1, dst1⟩
        ⟨ca, (crypto_aegis256_encrypt_chunk A st ⟨da, dst⟩ ⟨pa, p⟩ p.length).2.take p.length⟩
        p.length).1 =
      (crypto_aegis256_encrypt_chunk A st ⟨da, dst⟩ ⟨pa, p⟩ p.length).1 := by
  rw [chunk_round_trip]

/-- C15 (absorption equals the reference): for every state and every associated data
`ad` of length `n < 2^32`, whatever follows it in the source and whatever the ranges of
the scatter walk are, `crypto_aegis256_process_ad` leaves the state obtained by applying
`crypto_aegis256_update_a` to the `ceil(n / 16)` consecutive 16-byte blocks of `ad`, the
last one zero-padded; their number is `ceil(n / 16)`, so no extra block is absorbed when
`n` is a multiple of 16. -/
theorem process_ad_matches_spec (A : Nat → Bool) (walk : List sg_range) (buf : aegis_block)
    (st : aegis_state) (ad rest : List Nat) (h32 : ad.length < 2 ^ 32)
    (hcov : ad.length ≤ (walk.map sg_range.len).sum) :
    crypto_aegis256_process_ad A walk buf st (ad ++ rest) ad.length = spec_process_ad st ad ∧
    (spec_ad_blocks ad).length = (ad.length + 15) / 16 ∧
    (ad.length % 16 = 0 → (spec_ad_blocks ad).length = ad.length / 16) := by
  refine ⟨?_, ?_, ?_⟩
  · rw [process_ad_eq A walk buf st (ad ++ rest) ad.length h32 hcov,
      ← absorb_bytes_eq_spec ad.length st ad rfl]
    apply absorb_bytes_congr
    intro i hi
    rw [getD_append_eq, if_pos hi]
  · simp [spec_ad_blocks]
  · intro h
    simp only [spec_ad_blocks, List.length_map, List.length_range]
    omega

/-- C16 (frame of the chunk functions): for every state, input and size,
`crypto_aegis256_encrypt_chunk` and `crypto_aegis256_decrypt_chunk` leave every
destination byte at index `size` and above unchanged, write `size` bytes (which do not
depend on what the destination held), and do not change the length of a destination of
at least `size` bytes. -/
theorem chunk_frame_effect (A : Nat → Bool) (st : aegis_state) (dst dst1 src : u8_ptr)
    (size : Nat) :
    ((crypto_aegis256_encrypt_chunk A st dst src size).2.drop size = dst.bytes.drop size ∧
     ((crypto_aegis256_encrypt_chunk A st dst src size).2.take size).length = size ∧
     (crypto_aegis256_encrypt_chunk A st dst src size).2.length = max dst.bytes.length size ∧
     (crypto_aegis256_encrypt_chunk A st dst src size).2.take size =
       (crypto_aegis256_encrypt_chunk A st dst1 src size).2.take size) ∧
    ((crypto_aegis256_decrypt_chunk A st dst src size).2.drop size = dst.bytes.drop size ∧
     ((crypto_aegis256_decrypt_chunk A st dst src size).2.take size).length = size ∧
     (crypto_aegis256_decrypt_chunk A st dst src size).2.length = max dst.bytes.length size ∧
     (crypto_aegis256_decrypt_chunk A st dst src size).2.take size =
       (crypto_aegis256_decrypt_chunk A st dst1 src size).2.take size) := by
  have he := chunk_frame A false st dst src size
  have hd := chunk_frame A true st dst src size
  exact ⟨⟨he.1, he.2.1, he.2.2, chunk_written_indep A false st dst dst1 src size⟩,
    ⟨hd.1, hd.2.1, hd.2.2, chunk_written_indep A true st dst dst1 src size⟩⟩

/-- C17 as amended (the accumulator on decryption): the block handed to
`crypto_aegis256_crypt` and from there to `crypto_aegis256_final` has the received tag in
its first `authsize` bytes, and its bytes from `authsize` on are not written: they are
what the uninitialised local `tag` held. -/
theorem decrypt_accumulator_bytes (env : environment) (tfm : crypto_aead) (req : aead_request) :
    crypto_aegis256_decrypt env tfm req =
      (if crypto_memneq (crypto_aegis256_crypt env tfm req (decrypt_accumulator env tfm req)
            ((req.cryptlen + 2 ^ 32 - tfm.authsize % 2 ^ 32) % 2 ^ 32)
            ⟨crypto_aegis256_decrypt_chunk env.AEGIS_ALIGNED⟩).1
          (List.replicate AEGIS256_MAX_AUTH_SIZE 0) tfm.authsize ≠ 0 then -EBADMSG else 0,
       (crypto_aegis256_crypt env tfm req (decrypt_accumulator env tfm req)
            ((req.cryptlen + 2 ^ 32 - tfm.authsize % 2 ^ 32) % 2 ^ 32)
            ⟨crypto_aegis256_decrypt_chunk env.AEGIS_ALIGNED⟩).2) ∧
    (decrypt_accumulator env tfm req).take tfm.authsize =
      bytes_of (req.src.drop ((req.assoclen +
        (req.cryptlen + 2 ^ 32 - tfm.authsize % 2 ^ 32) % 2 ^ 32) % 2 ^ 32)) tfm.authsize ∧
    (decrypt_accumulator env tfm req).drop tfm.authsize = env.tag.drop tfm.authsize := by
  refine ⟨rfl, ?_, ?_⟩
  · unfold decrypt_accumulator memcpy
    simp only []
    rw [List.take_left' (length_bytes_of _ _)]
  · unfold decrypt_accumulator memcpy
    simp only []
    rw [List.drop_left' (length_bytes_of _ _)]

/-- Determinism when both skcipher walks go in steps that are multiples of 16 bytes, but
for the last: two runs of `crypto_aegis256_encrypt` with the same 32-byte key, nonce,
associated data, plaintext and tag length write the same ciphertext and the same tag,
whatever the two transforms held before `setkey`, whatever the destinations held, and
whatever scatter walks, addresses and stack contents the two runs see.  Walks with
another step length are not covered, and some of them change the result. -/
theorem encrypt_deterministic_on_block_walks (env env1 : environment) (aead aead1 : crypto_aead)
    (key iv ad m dst dst1 : List Nat) (hkey : key.length = 32)
    (hauth : aead.authsize = aead1.authsize)
    (h32 : ad.length + m.length < 2 ^ 32)
    (hcov : ad.length ≤ (env.ad_walk.map sg_range.len).sum)
    (hwalk : skcipher_walk_ok 16 m.length env.walk)
    (hcov1 : ad.length ≤ (env1.ad_walk.map sg_range.len).sum)
    (hwalk1 : skcipher_walk_ok 16 m.length env1.walk) :
    payload_of (crypto_aegis256_encrypt env (crypto_aegis256_setkey aead key key.length).2
        (encrypt_request iv ad m dst)).2 ad.length m.length =
      payload_of (crypto_aegis256_encrypt env1 (crypto_aegis256_setkey aead1 key key.length).2
        (encrypt_request iv ad m dst1)).2 ad.length m.length ∧
    tag_of (crypto_aegis256_encrypt env (crypto_aegis256_setkey aead key key.length).2
        (encrypt_request iv ad m dst)).2 ad.length m.length aead.authsize =
      tag_of (crypto_aegis256_encrypt env1 (crypto_aegis256_setkey aead1 key key.length).2
        (encrypt_request iv ad m dst1)).2 ad.length m.length aead.authsize := by
  rw [hkey]
  obtain ⟨hp, ht⟩ := output_of_encrypt env (crypto_aegis256_setkey aead key 32).2
    iv ad m dst h32 hcov hwalk
  obtain ⟨hp1, ht1⟩ := output_of_encrypt env1 (crypto_aegis256_setkey aead1 key 32).2
    iv ad m dst1 h32 hcov1 hwalk1
  rw [setkey_authsize] at ht ht1
  rw [← hauth] at ht1
  obtain ⟨hc, hg⟩ := encrypt_result_congr (crypto_aegis256_setkey aead key 32).2
    (crypto_aegis256_setkey aead1 key 32).2 iv ad m
    (fun i hi => by
      rw [(setkey_key_bytes aead key i hi).1, (setkey_key_bytes aead1 key i hi).1])
    (fun i hi => by
      rw [(setkey_key_bytes aead key i hi).2, (setkey_key_bytes aead1 key i hi).2])
  rw [hp, hp1, ht, ht1, hc, hg]
  exact ⟨rfl, rfl⟩

/-- C20 (`crypto_aegis256_update` is the simultaneous update): for every state `old`,
block `i` of the result is `crypto_aegis_aesenc` of the old blocks `i - 1` and `i` for
`i` from 1 to 5, block 0 is `crypto_aegis_aesenc` of the old blocks 5 and 0, and
`crypto_aegis_aesenc a b` is the AES round of `a` XORed with `b`. -/
theorem update_simultaneous (old : aegis_state) (a b : aegis_block) :
    (crypto_aegis256_update old).get 0 = crypto_aegis_aesenc (old.get 5) (old.get 0) ∧
    (crypto_aegis256_update old).get 1 = crypto_aegis_aesenc (old.get 0) (old.get 1) ∧
    (crypto_aegis256_update old).get 2 = crypto_aegis_aesenc (old.get 1) (old.get 2) ∧
    (crypto_aegis256_update old).get 3 = crypto_aegis_aesenc (old.get 2) (old.get 3) ∧
    (crypto_aegis256_update old).get 4 = crypto_aegis_aesenc (old.get 3) (old.get 4) ∧
    (crypto_aegis256_update old).get 5 = crypto_aegis_aesenc (old.get 4) (old.get 5) ∧
    crypto_aegis_aesenc a b = crypto_aegis_block_xor (aes_round a) b :=
  ⟨rfl, rfl, rfl, rfl, rfl, rfl, rfl⟩

/-- C11, witness: 3 bytes of associated data, 20 bytes of plaintext, tag lengths 12 and
10. -/
theorem tag_emission_witness :
    (crypto_aegis256_encrypt sample_env_e sample_aead
      (encrypt_request (List.replicate 32 7) [1, 2, 3] (List.range 20) [])).1 = 0 ∧
    tag_of (crypto_aegis256_encrypt sample_env_e sample_aead
        (encrypt_request (List.replicate 32 7) [1, 2, 3] (List.range 20) [])).2
        (encrypt_request (List.replicate 32 7) [1, 2, 3] (List.range 20) []).assoclen
        (encrypt_request (List.replicate 32 7) [1, 2, 3] (List.range 20) []).cryptlen
        sample_aead.authsize =
      bytes_of (state_xor (crypt_final_state sample_env_e sample_aead
        (encrypt_request (List.replicate 32 7) [1, 2, 3] (List.range 20) []) aegis_block_zero
        (encrypt_request (List.replicate 32 7) [1, 2, 3] (List.range 20) []).cryptlen
        ⟨crypto_aegis256_encrypt_chunk sample_env_e.AEGIS_ALIGNED⟩)) sample_aead.authsize ∧
    tag_of (crypto_aegis256_encrypt sample_env_e { sample_aead with authsize := 10 }
        (encrypt_request (List.replicate 32 7) [1, 2, 3] (List.range 20) [])).2
        (encrypt_request (List.replicate 32 7) [1, 2, 3] (List.range 20) []).assoclen
        (encrypt_request (List.replicate 32 7) [1, 2, 3] (List.range 20) []).cryptlen 10 =
      (tag_of (crypto_aegis256_encrypt sample_env_e { sample_aead with authsize := 16 }
        (encrypt_request (List.replicate 32 7) [1, 2, 3] (List.range 20) [])).2
        (encrypt_request (List.replicate 32 7) [1, 2, 3] (List.range 20) []).assoclen
        (encrypt_request (List.replicate 32 7) [1, 2, 3] (List.range 20) []).cryptlen
        16).take 10 ∧
    payload_of (crypto_aegis256_encrypt sample_env_e { sample_aead with authsize := 10 }
        (encrypt_request (List.replicate 32 7) [1, 2, 3] (List.range 20) [])).2
        (encrypt_request (List.replicate 32 7) [1, 2, 3] (List.range 20) []).assoclen
        (encrypt_request (List.replicate 32 7) [1, 2, 3] (List.range 20) []).cryptlen =
      payload_of (crypto_aegis256_encrypt sample_env_e { sample_aead with authsize := 16 }
        (encrypt_request (List.replicate 32 7) [1, 2, 3] (List.range 20) [])).2
        (encrypt_request (List.replicate 32 7) [1, 2, 3] (List.range 20) []).assoclen
        (encrypt_request (List.replicate 32 7) [1, 2, 3] (List.range 20) []).cryptlen :=
  tag_emission sample_env_e sample_aead
    (encrypt_request (List.replicate 32 7) [1, 2, 3] (List.range 20) []) 10
    (by decide) (by decide)

/-- C12, witness: the all-zero key at tag length 16, empty walks. -/
theorem empty_inputs_witness :
    crypto_aegis256_process_ad (fun _ => true) [⟨0, 4⟩] (List.range 16) sample_state
      [1, 2, 3] 0 = sample_state ∧
    crypto_aegis256_encrypt_chunk (fun _ => true) sample_state ⟨0, [9, 9]⟩ ⟨8, [1, 2]⟩ 0 =
      (sample_state, (⟨0, [9, 9]⟩ : u8_ptr).bytes) ∧
    crypto_aegis256_decrypt_chunk (fun _ => true) sample_state ⟨0, [9, 9]⟩ ⟨8, [1, 2]⟩ 0 =
      (sample_state, (⟨0, [9, 9]⟩ : u8_ptr).bytes) ∧
    crypto_aegis256_encrypt empty_env (zero_key_tfm 16)
        (encrypt_request (List.replicate 32 0) [] [] (List.replicate 20 5)) =
      (0, bytes_of (crypto_aegis256_final
          (crypto_aegis256_init empty_env.state (zero_key_tfm 16).ctx.key0
            (zero_key_tfm 16).ctx.key1 (List.replicate 32 0))
          aegis_block_zero 0 0).2 (zero_key_tfm 16).authsize ++
        (List.replicate 20 5).drop (zero_key_tfm 16).authsize) ∧
    (crypto_aegis256_decrypt garbage_env (zero_key_tfm 16)
      (decrypt_request (List.replicate 32 0) [] []
        (tag_of (crypto_aegis256_encrypt empty_env (zero_key_tfm 16)
          (encrypt_request (List.replicate 32 0) [] [] (List.replicate 20 5))).2 0 0
          (zero_key_tfm 16).authsize) [])).1 = 0 :=
  empty_inputs (fun _ => true) [⟨0, 4⟩] (List.range 16) sample_state [1, 2, 3]
    ⟨0, [9, 9]⟩ ⟨8, [1, 2]⟩ empty_env garbage_env (zero_key_tfm 16) (List.replicate 32 0)
    (List.replicate 20 5) [] (by decide) (by decide) (by decide) (by decide)

/-- C15, witness: 21 bytes of associated data followed by 5 payload bytes, in ranges of
1, 3, 13 and 100 bytes. -/
theorem process_ad_matches_spec_witness :
    crypto_aegis256_process_ad (fun a => a % 8 == 0) [⟨0, 1⟩, ⟨5, 3⟩, ⟨0, 13⟩, ⟨1, 100⟩] []
        sample_state (List.range 21 ++ [1, 2, 3, 4, 5]) (List.range 21).length =
      spec_process_ad sample_state (List.range 21) ∧
    (spec_ad_blocks (List.range 21)).length = ((List.range 21).length + 15) / 16 ∧
    ((List.range 21).length % 16 = 0 →
      (spec_ad_blocks (List.range 21)).length = (List.range 21).length / 16) :=
  process_ad_matches_spec (fun a => a % 8 == 0) [⟨0, 1⟩, ⟨5, 3⟩, ⟨0, 13⟩, ⟨1, 100⟩] []
    sample_state (List.range 21) [1, 2, 3, 4, 5] (by decide) (by decide)

/-- C17, counterexample: with tag length 8, the 8-byte tag 1, .., 8 and a local `tag`
that held 16 bytes 0xaa, the accumulator handed to finalisation is 1, .., 8 followed by 8
bytes 0xaa, not by zeros. -/
theorem decrypt_accumulator_not_padded :
    decrypt_accumulator garbage_env (zero_key_tfm 8)
        (decrypt_request (List.replicate 32 0) [] [] [1, 2, 3, 4, 5, 6, 7, 8] []) =
      [1, 2, 3, 4, 5, 6, 7, 8, 0xaa, 0xaa, 0xaa, 0xaa, 0xaa, 0xaa, 0xaa, 0xaa] ∧
    decrypt_accumulator garbage_env (zero_key_tfm 8)
        (decrypt_request (List.replicate 32 0) [] [] [1, 2, 3, 4, 5, 6, 7, 8] []) ≠
      [1, 2, 3, 4, 5, 6, 7, 8, 0, 0, 0, 0, 0, 0, 0, 0] := by
  decide

/-- Determinism on block walks at the same inputs under two environments, two transforms
with different earlier contents, and two destinations. -/
theorem encrypt_deterministic_on_block_walks_witness :
    payload_of (crypto_aegis256_encrypt sample_env_e
        (crypto_aegis256_setkey sample_aead (List.range 32) (List.range 32).length).2
        (encrypt_request (List.replicate 32 7) [1, 2, 3] (List.range 20) [])).2
        [1, 2, 3].length (List.range 20).length =
      payload_of (crypto_aegis256_encrypt sample_env_d
        (crypto_aegis256_setkey ⟨⟨List.range 40, [5]⟩, 12, 3⟩ (List.range 32)
          (List.range 32).length).2
        (encrypt_request (List.replicate 32 7) [1, 2, 3] (List.range 20)
          (List.replicate 50 1))).2
        [1, 2, 3].length (List.range 20).length ∧
    tag_of (crypto_aegis256_encrypt sample_env_e
        (crypto_aegis256_setkey sample_aead (List.range 32) (List.range 32).length).2
        (encrypt_request (List.replicate 32 7) [1, 2, 3] (List.range 20) [])).2
        [1, 2, 3].length (List.range 20).length sample_aead.authsize =
      tag_of (crypto_aegis256_encrypt sample_env_d
        (crypto_aegis256_setkey ⟨⟨List.range 40, [5]⟩, 12, 3⟩ (List.range 32)
          (List.range 32).length).2
        (encrypt_request (List.replicate 32 7) [1, 2, 3] (List.range 20)
          (List.replicate 50 1))).2
        [1, 2, 3].length (List.range 20).length sample_aead.authsize :=
  encrypt_deterministic_on_block_walks sample_env_e sample_env_d sample_aead ⟨⟨List.range 40, [5]⟩, 12, 3⟩
    (List.range 32) (List.replicate 32 7) [1, 2, 3] (List.range 20) [] (List.replicate 50 1)
    (by decide) (by decide) (by decide) (by decide) (by decide) (by decide) (by decide)

/-! ## Single blocks -/

theorem block_xor_comm (a b : aegis_block) :
    crypto_aegis_block_xor a b = crypto_aegis_block_xor b a := by
  unfold crypto_aegis_block_xor
  apply List.map_congr_left
  intro i _
  exact Nat.xor_comm _ _

theorem keystream_eq (s : aegis_state) :
    crypto_aegis256_keystream s =
      crypto_aegis_block_xor (crypto_aegis_block_xor (crypto_aegis_block_xor
        (crypto_aegis_block_and s.b2 s.b3) s.b5) s.b4) s.b1 := rfl

theorem chunk_full_block (A : Nat → Bool) (dec : Bool) (st : aegis_state) (dst src : u8_ptr) :
    crypt_chunk_of A dec st dst src 16 =
      (crypto_aegis256_update_a st
        (if dec then crypto_aegis_block_xor (crypto_aegis256_keystream st) src.bytes
         else src.bytes),
       crypto_aegis_block_xor (crypto_aegis256_keystream st) src.bytes ++
         dst.bytes.drop 16) := by
  rw [crypt_chunk_eq, crypt_bytes_ge dec st src.bytes 16 (Nat.le_refl _)]
  simp only [Nat.sub_self, crypt_bytes_zero, List.append_nil]

theorem chunk_rest (A : Nat → Bool) (dec : Bool) (st : aegis_state) (dst src : u8_ptr)
    (s : Nat) (h0 : 0 < s) (h16 : s < 16) :
    crypt_chunk_of A dec st dst src s =
      (crypto_aegis256_update_a st
        (if dec then
          pad_block (bytes_of (crypto_aegis_block_xor (crypto_aegis256_keystream st)
            (pad_block src.bytes s)) s) s
         else pad_block src.bytes s),
       bytes_of (crypto_aegis_block_xor (crypto_aegis256_keystream st)
         (pad_block src.bytes s)) s ++ dst.bytes.drop s) := by
  rw [crypt_chunk_eq, crypt_bytes_lt dec st src.bytes s h16]
  unfold crypt_rest
  rw [if_pos h0]
  simp only []
  rw [block_xor_comm (pad_block src.bytes s)]

/-! ## Initialisation and finalisation against the spec -/

theorem init_eq_spec (s : aegis_state) (k0 k1 : aegis_block) (iv : List Nat) :
    crypto_aegis256_init s k0 k1 iv = spec_initialize k0 k1 iv := by
  have hv0 : ∀ i, i < 16 → (crypto_xor k0 (iv.drop (0 * 16)) 16).getD i 0 =
      (crypto_aegis_block_xor k0 iv).getD i 0 := by
    intro i hi
    rw [getD_crypto_xor _ _ _ _ hi, getD_block_xor, if_pos hi, Nat.zero_mul, List.drop_zero]
  have hv1 : ∀ i, i < 16 → (crypto_xor k1 (iv.drop (1 * 16)) 16).getD i 0 =
      (crypto_aegis_block_xor k1 (iv.drop 16)).getD i 0 := by
    intro i hi
    rw [getD_crypto_xor _ _ _ _ hi, getD_block_xor, if_pos hi, Nat.one_mul]
  have h : crypto_aegis256_init s k0 k1 iv =
      crypto_aegis256_init_loop k0 k1 (crypto_aegis_block_xor k0 iv)
        (crypto_aegis_block_xor k1 (iv.drop 16)) (3 + 1)
        ⟨crypto_aegis_block_xor k0 iv, crypto_aegis_block_xor k1 (iv.drop 16),
          crypto_aegis_const_1, crypto_aegis_const_0,
          crypto_aegis_block_xor k0 crypto_aegis_const_0,
          crypto_aegis_block_xor k1 crypto_aegis_const_1⟩ := by
    unfold crypto_aegis256_init
    simp only [aegis_state.set, aegis_state.get, AEGIS_BLOCK_SIZE]
    apply init_loop_congr _ _ _ _ _ _ _ _ (fun _ _ => rfl) (fun _ _ => rfl) hv0 hv1
    exact ⟨hv0, hv1, fun _ _ => rfl, fun _ _ => rfl, fun _ _ => rfl, fun _ _ => rfl⟩
  rw [h]
  rfl

theorem final_eq_spec (st : aegis_state) (acc : aegis_block) (alen clen : Nat) :
    crypto_aegis256_final st acc alen clen = spec_finalize st acc alen clen := by
  have h1 : (crypto_aegis256_final st acc alen clen).1 = (spec_finalize st acc alen clen).1 := by
    unfold crypto_aegis256_final spec_finalize spec_length_block
    simp only [Nat.mul_comm alen 8, Nat.mul_comm clen 8]
    rfl
  have h2 : (crypto_aegis256_final st acc alen clen).2 = (spec_finalize st acc alen clen).2 := by
    apply block_eq_of_getD _ _ (length_final _ _ _ _) (by simp [spec_finalize])
    intro i hi
    rw [getD_final, if_pos hi, final_zero_eq_state_xor,
      final_state_indep st aegis_block_zero acc, h1]
    unfold spec_finalize
    simp only [getD_block_xor, if_pos hi]
  exact Prod.ext h1 h2

/-! ## The carry position of `crypto_aegis256_process_ad` -/

theorem process_ad_blocks_pos (A : Nat → Bool) (v : process_ad_vars) (size : Nat)
    (hleft : v.left = size) (hpos : v.pos < 16) (h32 : v.pos + size < 2 ^ 32) :
    (crypto_aegis256_process_ad_blocks A size v).pos +
      (crypto_aegis256_process_ad_blocks A size v).left = (v.pos + size) % 16 ∨
    ((crypto_aegis256_process_ad_blocks A size v).pos +
      (crypto_aegis256_process_ad_blocks A size v).left = v.pos + size ∧ v.pos + size < 16) := by
  have hmod : (v.pos + size) % 2 ^ 32 = v.pos + size := Nat.mod_eq_of_lt h32
  unfold crypto_aegis256_process_ad_blocks
  simp only [hmod, AEGIS_BLOCK_SIZE]
  by_cases hge : v.pos + size ≥ 16
  · rw [if_pos hge]
    left
    by_cases hp : v.pos > 0
    · simp only [hp, if_true, hleft]
      omega
    · simp only [hp, if_false, hleft]
      omega
  · rw [if_neg hge]
    right
    exact ⟨by rw [hleft], by omega⟩

theorem process_ad_blocks_pos_eq (A : Nat → Bool) (v : process_ad_vars) (size : Nat)
    (hleft : v.left = size) (hpos : v.pos < 16) (h32 : v.pos + size < 2 ^ 32) :
    (crypto_aegis256_process_ad_blocks A size v).pos +
      (crypto_aegis256_process_ad_blocks A size v).left = (v.pos + size) % 16 := by
  rcases process_ad_blocks_pos A v size hleft hpos h32 with h | ⟨h, hlt⟩
  · exact h
  · rw [h, Nat.mod_eq_of_lt hlt]

theorem process_ad_loop_pos (A : Nat → Bool) (walk : List sg_range) (st : aegis_state)
    (sg : List Nat) (assoclen : Nat) (buf : aegis_block) (pos : Nat) (hpos : pos < 16)
    (h32 : pos + assoclen < 2 ^ 32) (hcov : assoclen ≤ (walk.map sg_range.len).sum) :
    (crypto_aegis256_process_ad_loop A walk st sg assoclen buf pos).2.2 =
      (pos + assoclen) % 16 := by
  induction walk generalizing st sg assoclen buf pos with
  | nil =>
    have h0 : assoclen = 0 := by simpa using hcov
    subst h0
    rw [crypto_aegis256_process_ad_loop, Nat.add_zero, Nat.mod_eq_of_lt hpos]
  | cons r walk ih =>
    rw [crypto_aegis256_process_ad_loop]
    by_cases h0 : assoclen ≠ 0
    · rw [if_pos h0]
      simp only []
      have hsz : min r.len assoclen ≤ assoclen := Nat.min_le_right _ _
      have hp := process_ad_blocks_pos_eq A
        { state := st, buf := buf, pos := pos, left := min r.len assoclen,
          src := ⟨r.addr, sg⟩ } (min r.len assoclen) rfl hpos
        (by show pos + min r.len assoclen < 2 ^ 32; omega)
      simp only [] at hp
      rw [ih _ _ _ _ _ (by rw [hp]; exact Nat.mod_lt _ (by decide))
        (by rw [hp]; have := Nat.mod_le (pos + min r.len assoclen) 16; omega)
        (by simp only [List.map_cons, List.sum_cons] at hcov; omega), hp]
      omega
    · have h0' : assoclen = 0 := by omega
      subst h0'
      rw [if_neg h0, Nat.add_zero, Nat.mod_eq_of_lt hpos]

theorem process_ad_trace_bounds (A : Nat → Bool) (walk : List sg_range) (st : aegis_state)
    (sg : List Nat) (assoclen : Nat) (buf : aegis_block) (pos : Nat) (hpos : pos < 16)
    (h32 : pos + assoclen < 2 ^ 32) :
    ∀ e ∈ crypto_aegis256_process_ad_trace A walk st sg assoclen buf pos,
      e.pos_start < 16 ∧ e.pos_end < 16 ∧
      (∀ c, e.fill_copy = some c → c.1 = e.pos_start ∧ c.1 + c.2 = 16) ∧
      e.tail_copy.1 + e.tail_copy.2 ≤ 15 ∧ e.pos_end = e.tail_copy.1 + e.tail_copy.2 := by
  induction walk generalizing st sg assoclen buf pos with
  | nil =>
    intro e he
    simp [crypto_aegis256_process_ad_trace] at he
  | cons r walk ih =>
    intro e he
    rw [crypto_aegis256_process_ad_trace] at he
    by_cases h0 : assoclen ≠ 0
    · rw [if_pos h0] at he
      simp only [List.mem_cons] at he
      have hsz : min r.len assoclen ≤ assoclen := Nat.min_le_right _ _
      have hp := process_ad_blocks_pos_eq A
        { state := st, buf := buf, pos := pos, left := min r.len assoclen,
          src := ⟨r.addr, sg⟩ } (min r.len assoclen) rfl hpos
        (by show pos + min r.len assoclen < 2 ^ 32; omega)
      simp only [] at hp
      have hlt : (pos + min r.len assoclen) % 16 < 16 := Nat.mod_lt _ (by decide)
      rcases he with he | he
      · subst he
        refine ⟨hpos, by simp only []; omega, ?_, by simp only []; omega, rfl⟩
        intro c hc
        simp only [AEGIS_BLOCK_SIZE] at hc
        split at hc
        · cases hc
          exact ⟨rfl, by simp only []; omega⟩
        · cases hc
      · exact ih _ _ _ _ _ (by rw [hp]; exact hlt)
          (by rw [hp]; have := Nat.mod_le (pos + min r.len assoclen) 16; omega) e he
    · rw [if_neg h0] at he
      simp at he

theorem process_ad_trace_last (A : Nat → Bool) (walk : List sg_range) (st : aegis_state)
    (sg : List Nat) (assoclen : Nat) (buf : aegis_block) (pos : Nat) :
    (crypto_aegis256_process_ad_loop A walk st sg assoclen buf pos).2.2 =
      (crypto_aegis256_process_ad_trace A walk st sg assoclen buf pos).foldl
        (fun _ e => e.pos_end) pos := by
  induction walk generalizing st sg assoclen buf pos with
  | nil => rfl
  | cons r walk ih =>
    rw [crypto_aegis256_process_ad_loop, crypto_aegis256_process_ad_trace]
    by_cases h0 : assoclen ≠ 0
    · rw [if_pos h0, if_pos h0]
      simp only [List.foldl_cons]
      exact ih _ _ _ _ _
    · rw [if_neg h0, if_neg h0]
      rfl

/-- C21 (`absorbBlock`): for every state `S` and block `msg`,
`crypto_aegis256_update_a(S, msg)` is `U = crypto_aegis256_update(S)` with block 0
replaced by `U[0] xor msg` and blocks 1..5 those of `U`, and `crypto_aegis256_update_u`
on the same bytes gives the identical state. -/
theorem update_a_is_absorb_block (s : aegis_state) (msg : List Nat) :
    (crypto_aegis256_update_a s msg).get 0 =
      crypto_aegis_block_xor ((crypto_aegis256_update s).get 0) msg ∧
    (crypto_aegis256_update_a s msg).get 1 = (crypto_aegis256_update s).get 1 ∧
    (crypto_aegis256_update_a s msg).get 2 = (crypto_aegis256_update s).get 2 ∧
    (crypto_aegis256_update_a s msg).get 3 = (crypto_aegis256_update s).get 3 ∧
    (crypto_aegis256_update_a s msg).get 4 = (crypto_aegis256_update s).get 4 ∧
    (crypto_aegis256_update_a s msg).get 5 = (crypto_aegis256_update s).get 5 ∧
    crypto_aegis256_update_u s msg = crypto_aegis256_update_a s msg :=
  ⟨rfl, rfl, rfl, rfl, rfl, rfl, update_u_eq_update_a s msg⟩

/-- C22 (initialisation): for every key, nonce and prior content of the state,
`crypto_aegis256_init` produces the state the spec describes: from
`[kn0, kn1, CONST1, CONST0, key[0] xor CONST0, key[1] xor CONST1]`, `absorbBlock` applied
16 times with the messages `key[0], key[1], kn0, kn1` repeated four times; the result
does not depend on what the state held before. -/
theorem init_matches_spec (s s1 : aegis_state) (key0 key1 : aegis_block) (iv : List Nat) :
    crypto_aegis256_init s key0 key1 iv = spec_initialize key0 key1 iv ∧
    crypto_aegis256_init s key0 key1 iv = crypto_aegis256_init s1 key0 key1 iv ∧
    ((List.replicate 4 [key0, key1, crypto_aegis_block_xor key0 iv,
      crypto_aegis_block_xor key1 (iv.drop 16)]).flatten).length = 16 :=
  ⟨init_eq_spec s key0 key1 iv, init_indep s s1 key0 key1 iv, rfl⟩

/-- C23 (finalisation): for every state, accumulator and lengths, `crypto_aegis256_final`
does what the spec describes: the block `LE64(8 * alen) || LE64(8 * clen)` (64-bit
products) XORed with `S[3]` as read before any update is absorbed seven times, and the
result is the accumulator XOR the six blocks of the state after that; the state left does
not depend on the accumulator. -/
theorem final_matches_spec (st : aegis_state) (acc acc1 : aegis_block) (alen clen : Nat) :
    crypto_aegis256_final st acc alen clen = spec_finalize st acc alen clen ∧
    (crypto_aegis256_final st acc alen clen).1 = (crypto_aegis256_final st acc1 alen clen).1 ∧
    (crypto_aegis256_final st acc alen clen).2 =
      crypto_aegis_block_xor acc (state_xor (crypto_aegis256_final st acc1 alen clen).1) ∧
    (List.replicate 7 (crypto_aegis_block_xor (spec_length_block alen clen)
      (st.get 3))).length = 7 := by
  refine ⟨final_eq_spec st acc alen clen, rfl, ?_, rfl⟩
  rw [final_eq_spec st acc alen clen, final_eq_spec st acc1 alen clen]
  rfl

/-- C24 (encrypt, full block): with size 16, `crypto_aegis256_encrypt_chunk` writes
`ks(S) xor P`, where `ks(S) = (S[2] and S[3]) xor S[5] xor S[4] xor S[1]` is taken from the
state before the update, and leaves the state `crypto_aegis256_update_a(S, P)`: the
plaintext is absorbed. -/
theorem encrypt_full_block (A : Nat → Bool) (st : aegis_state) (dst src : u8_ptr) :
    crypto_aegis256_encrypt_chunk A st dst src 16 =
      (crypto_aegis256_update_a st src.bytes,
       crypto_aegis_block_xor (crypto_aegis_block_xor (crypto_aegis_block_xor
         (crypto_aegis_block_xor (crypto_aegis_block_and st.b2 st.b3) st.b5) st.b4) st.b1)
         src.bytes ++ dst.bytes.drop 16) := by
  have h : crypto_aegis256_encrypt_chunk A st dst src 16 = crypt_chunk_of A false st dst src 16 :=
    rfl
  rw [h, chunk_full_block, keystream_eq]
  rfl

/-- C25 (encrypt, final partial block): with size `s`, `0 < s < 16`,
`crypto_aegis256_encrypt_chunk` writes the first `s` bytes of `ks(S) xor p`, where `p` is
the input zero-padded to 16 bytes and `ks(S)` is taken from the state before the update,
and leaves the state `crypto_aegis256_update_a(S, p)`. -/
theorem encrypt_final_block (A : Nat → Bool) (st : aegis_state) (dst src : u8_ptr) (s : Nat)
    (h0 : 0 < s) (h16 : s < 16) :
    crypto_aegis256_encrypt_chunk A st dst src s =
      (crypto_aegis256_update_a st (pad_block src.bytes s),
       bytes_of (crypto_aegis_block_xor (crypto_aegis_block_xor (crypto_aegis_block_xor
         (crypto_aegis_block_xor (crypto_aegis_block_and st.b2 st.b3) st.b5) st.b4) st.b1)
         (pad_block src.bytes s)) s ++ dst.bytes.drop s) := by
  have h : crypto_aegis256_encrypt_chunk A st dst src s = crypt_chunk_of A false st dst src s :=
    rfl
  rw [h, chunk_rest A false st dst src s h0 h16, keystream_eq]
  rfl

/-- C26 (decrypt, full block): with size 16, `crypto_aegis256_decrypt_chunk` writes
`R = ks(S) xor C` and leaves the state `crypto_aegis256_update_a(S, R)`: the recovered
plaintext is absorbed. -/
theorem decrypt_full_block (A : Nat → Bool) (st : aegis_state) (dst src : u8_ptr) :
    crypto_aegis256_decrypt_chunk A st dst src 16 =
      (crypto_aegis256_update_a st
        (crypto_aegis_block_xor (crypto_aegis_block_xor (crypto_aegis_block_xor
          (crypto_aegis_block_xor (crypto_aegis_block_and st.b2 st.b3) st.b5) st.b4) st.b1)
          src.bytes),
       crypto_aegis_block_xor (crypto_aegis_block_xor (crypto_aegis_block_xor
         (crypto_aegis_block_xor (crypto_aegis_block_and st.b2 st.b3) st.b5) st.b4) st.b1)
         src.bytes ++ dst.bytes.drop 16) := by
  have h : crypto_aegis256_decrypt_chunk A st dst src 16 = crypt_chunk_of A true st dst src 16 :=
    rfl
  rw [h, chunk_full_block, keystream_eq]
  rfl

/-- C27 (decrypt, final partial block): with size `s`, `0 < s < 16`,
`crypto_aegis256_decrypt_chunk` writes the first `s` bytes of `ks(S) xor c`, where `c` is
the input zero-padded to 16 bytes, and leaves the state
`crypto_aegis256_update_a(S, m)`, where `m` holds those `s` bytes followed by zeros. -/
theorem decrypt_final_block (A : Nat → Bool) (st : aegis_state) (dst src : u8_ptr) (s : Nat)
    (h0 : 0 < s) (h16 : s < 16) :
    crypto_aegis256_decrypt_chunk A st dst src s =
      (crypto_aegis256_update_a st
        (pad_block (bytes_of (crypto_aegis_block_xor (crypto_aegis_block_xor
          (crypto_aegis_block_xor (crypto_aegis_block_xor (crypto_aegis_block_and st.b2 st.b3)
            st.b5) st.b4) st.b1) (pad_block src.bytes s)) s) s),
       bytes_of (crypto_aegis_block_xor (crypto_aegis_block_xor (crypto_aegis_block_xor
         (crypto_aegis_block_xor (crypto_aegis_block_and st.b2 st.b3) st.b5) st.b4) st.b1)
         (pad_block src.bytes s)) s ++ dst.bytes.drop s) := by
  have h : crypto_aegis256_decrypt_chunk A st dst src s = crypt_chunk_of A true st dst src s :=
    rfl
  rw [h, chunk_rest A true st dst src s h0 h16, keystream_eq]
  rfl

/-- C28 (chunking in multiples of 16 is safe): for every state, every payload and every
split into non-empty consecutive ranges of which each but the last is a multiple of 16
bytes long, `crypto_aegis256_process_crypt` with `crypto_aegis256_encrypt_chunk`
(respectively `crypto_aegis256_decrypt_chunk`) on the ranges yields the destination bytes
and the final state of one call on the whole payload. -/
theorem chunking_multiple_of_16 (A : Nat → Bool) (st : aegis_state) (dst src : List Nat)
    (walk : List skcipher_walk_step) (n src_addr dst_addr : Nat)
    (hwalk : skcipher_walk_ok 16 n walk) :
    crypto_aegis256_process_crypt ⟨crypto_aegis256_encrypt_chunk A⟩ walk st dst src =
      crypto_aegis256_encrypt_chunk A st ⟨dst_addr, dst⟩ ⟨src_addr, src⟩ n ∧
    crypto_aegis256_process_crypt ⟨crypto_aegis256_decrypt_chunk A⟩ walk st dst src =
      crypto_aegis256_decrypt_chunk A st ⟨dst_addr, dst⟩ ⟨src_addr, src⟩ n := by
  have he : (⟨crypto_aegis256_encrypt_chunk A⟩ : aegis256_ops) = ⟨crypt_chunk_of A false⟩ := rfl
  have hd : (⟨crypto_aegis256_decrypt_chunk A⟩ : aegis256_ops) = ⟨crypt_chunk_of A true⟩ := rfl
  have hce : crypto_aegis256_encrypt_chunk A st ⟨dst_addr, dst⟩ ⟨src_addr, src⟩ n =
      crypt_chunk_of A false st ⟨dst_addr, dst⟩ ⟨src_addr, src⟩ n := rfl
  have hcd : crypto_aegis256_decrypt_chunk A st ⟨dst_addr, dst⟩ ⟨src_addr, src⟩ n =
      crypt_chunk_of A true st ⟨dst_addr, dst⟩ ⟨src_addr, src⟩ n := rfl
  constructor
  · rw [he, hce, process_crypt_eq A false walk st dst src n hwalk, crypt_chunk_eq]
  · rw [hd, hcd, process_crypt_eq A true walk st dst src n hwalk, crypt_chunk_eq]

/-- C29 (the uninitialised accumulator bytes do not matter): for a tag length from 8 to
16, two runs of `crypto_aegis256_decrypt` on the same transform and request whose local
`tag` block starts with different contents return the same value and leave the same
destination. -/
theorem decrypt_independent_of_stack_tag (env : environment) (tfm : crypto_aead)
    (req : aead_request) (tag1 : aegis_block)
    (h8 : 8 ≤ tfm.authsize) (h16 : tfm.authsize ≤ 16) :
    crypto_aegis256_decrypt env tfm req =
      crypto_aegis256_decrypt { env with tag := tag1 } tfm req := by
  have h2 : (crypto_aegis256_decrypt env tfm req).2 =
      (crypto_aegis256_decrypt { env with tag := tag1 } tfm req).2 := rfl
  have hz := decrypt_ret_eq_zero_iff env tfm req h16
  have hz1 := decrypt_ret_eq_zero_iff { env with tag := tag1 } tfm req h16
  have hiff : (crypto_aegis256_decrypt env tfm req).1 = 0 ↔
      (crypto_aegis256_decrypt { env with tag := tag1 } tfm req).1 = 0 := by
    rw [hz, hz1]
    exact Iff.rfl
  have hE : (-EBADMSG : Int) ≠ 0 := by decide
  have h1 : (crypto_aegis256_decrypt env tfm req).1 =
      (crypto_aegis256_decrypt { env with tag := tag1 } tfm req).1 := by
    rcases decrypt_ret_cases env tfm req with a | a <;>
      rcases decrypt_ret_cases { env with tag := tag1 } tfm req with b | b
    · rw [a, b]
    · have := hiff.mp a
      rw [b] at this
      exact absurd this hE
    · have := hiff.mpr b
      rw [a] at this
      exact absurd this hE
    · rw [a, b]
  exact Prod.ext h1 h2

/-- C30 (bounds of the partial-block buffer in `crypto_aegis256_process_ad`): for
associated data shorter than 2^32 bytes and every sequence of ranges that covers it, in
every iteration of the loop `pos` is below 16 on entry and on exit, the copy that
completes a block starts at `pos` and ends at byte 16 of the buffer, the copy that ends
the iteration stays within the first 15 bytes, and after the loop `pos` is the length of
the associated data modulo 16. -/
theorem process_ad_buffer_bounds (A : Nat → Bool) (walk : List sg_range) (st : aegis_state)
    (sg : List Nat) (assoclen : Nat) (buf : aegis_block) (h32 : assoclen < 2 ^ 32)
    (hcov : assoclen ≤ (walk.map sg_range.len).sum) :
    (∀ e ∈ crypto_aegis256_process_ad_trace A walk st sg assoclen buf 0,
      e.pos_start < 16 ∧ e.pos_end < 16 ∧
      (∀ c, e.fill_copy = some c → c.1 = e.pos_start ∧ c.1 + c.2 = 16) ∧
      e.tail_copy.1 + e.tail_copy.2 ≤ 15 ∧ e.pos_end = e.tail_copy.1 + e.tail_copy.2) ∧
    (crypto_aegis256_process_ad_loop A walk st sg assoclen buf 0).2.2 =
      (crypto_aegis256_process_ad_trace A walk st sg assoclen buf 0).foldl
        (fun _ e => e.pos_end) 0 ∧
    (crypto_aegis256_process_ad_loop A walk st sg assoclen buf 0).2.2 = assoclen % 16 := by
  refine ⟨process_ad_trace_bounds A walk st sg assoclen buf 0 (by omega) (by omega),
    process_ad_trace_last A walk st sg assoclen buf 0, ?_⟩
  rw [process_ad_loop_pos A walk st sg assoclen buf 0 (by omega) (by omega) hcov, Nat.zero_add]

/-- C25, witness: three bytes from an unaligned source. -/
theorem encrypt_final_block_witness :
    crypto_aegis256_encrypt_chunk (fun a => a % 8 == 0) sample_state ⟨0, [9, 9, 9, 9]⟩
        ⟨1, [1, 2, 3]⟩ 3 =
      (crypto_aegis256_update_a sample_state (pad_block (⟨1, [1, 2, 3]⟩ : u8_ptr).bytes 3),
       bytes_of (crypto_aegis_block_xor (crypto_aegis_block_xor (crypto_aegis_block_xor
         (crypto_aegis_block_xor (crypto_aegis_block_and sample_state.b2 sample_state.b3)
           sample_state.b5) sample_state.b4) sample_state.b1)
         (pad_block (⟨1, [1, 2, 3]⟩ : u8_ptr).bytes 3)) 3 ++
         (⟨0, [9, 9, 9, 9]⟩ : u8_ptr).bytes.drop 3) :=
  encrypt_final_block (fun a => a % 8 == 0) sample_state ⟨0, [9, 9, 9, 9]⟩ ⟨1, [1, 2, 3]⟩ 3
    (by decide) (by decide)

/-- C27, witness: fifteen bytes from an aligned source. -/
theorem decrypt_final_block_witness :
    crypto_aegis256_decrypt_chunk (fun a => a % 8 == 0) sample_state ⟨8, []⟩
        ⟨16, List.range 15⟩ 15 =
      (crypto_aegis256_update_a sample_state
        (pad_block (bytes_of (crypto_aegis_block_xor (crypto_aegis_block_xor
          (crypto_aegis_block_xor (crypto_aegis_block_xor
            (crypto_aegis_block_and sample_state.b2 sample_state.b3)
            sample_state.b5) sample_state.b4) sample_state.b1)
          (pad_block (⟨16, List.range 15⟩ : u8_ptr).bytes 15)) 15) 15),
       bytes_of (crypto_aegis_block_xor (crypto_aegis_block_xor (crypto_aegis_block_xor
         (crypto_aegis_block_xor (crypto_aegis_block_and sample_state.b2 sample_state.b3)
           sample_state.b5) sample_state.b4) sample_state.b1)
         (pad_block (⟨16, List.range 15⟩ : u8_ptr).bytes 15)) 15 ++
         (⟨8, []⟩ : u8_ptr).bytes.drop 15) :=
  decrypt_final_block (fun a => a % 8 == 0) sample_state ⟨8, []⟩ ⟨16, List.range 15⟩ 15
    (by decide) (by decide)

/-- C28, witness: 53 bytes in ranges of 32, 16 and 5 bytes. -/
theorem chunking_multiple_of_16_witness :
    crypto_aegis256_process_crypt ⟨crypto_aegis256_encrypt_chunk (fun a => a % 8 == 0)⟩
        [⟨0, 0, 32⟩, ⟨3, 32, 16⟩, ⟨48, 5, 5⟩] sample_state [] (List.range 53) =
      crypto_aegis256_encrypt_chunk (fun a => a % 8 == 0) sample_state ⟨0, []⟩
        ⟨1, List.range 53⟩ 53 ∧
    crypto_aegis256_process_crypt ⟨crypto_aegis256_decrypt_chunk (fun a => a % 8 == 0)⟩
        [⟨0, 0, 32⟩, ⟨3, 32, 16⟩, ⟨48, 5, 5⟩] sample_state [] (List.range 53) =
      crypto_aegis256_decrypt_chunk (fun a => a % 8 == 0) sample_state ⟨0, []⟩
        ⟨1, List.range 53⟩ 53 :=
  chunking_multiple_of_16 (fun a => a % 8 == 0) sample_state [] (List.range 53)
    [⟨0, 0, 32⟩, ⟨3, 32, 16⟩, ⟨48, 5, 5⟩] 53 1 0 (by decide)

/-- C29, witness: tag length 12, the local block holding 0, .., 15 or sixteen bytes
0xaa. -/
theorem decrypt_independent_of_stack_tag_witness :
    crypto_aegis256_decrypt sample_env_d sample_aead
        (decrypt_request (List.replicate 32 7) [1, 2, 3] (List.range 20) (List.range 12) []) =
      crypto_aegis256_decrypt { sample_env_d with tag := List.replicate 16 0xaa } sample_aead
        (decrypt_request (List.replicate 32 7) [1, 2, 3] (List.range 20) (List.range 12) []) :=
  decrypt_independent_of_stack_tag sample_env_d sample_aead
    (decrypt_request (List.replicate 32 7) [1, 2, 3] (List.range 20) (List.range 12) [])
    (List.replicate 16 0xaa) (by decide) (by decide)

/-- C30, witness: 37 bytes of associated data in ranges of 5, 20, 1 and 11 bytes. -/
theorem process_ad_buffer_bounds_witness :
    (∀ e ∈ crypto_aegis256_process_ad_trace (fun a => a % 8 == 0)
        [⟨0, 5⟩, ⟨5, 20⟩, ⟨0, 1⟩, ⟨1, 100⟩] sample_state (List.range 37) 37 [] 0,
      e.pos_start < 16 ∧ e.pos_end < 16 ∧
      (∀ c, e.fill_copy = some c → c.1 = e.pos_start ∧ c.1 + c.2 = 16) ∧
      e.tail_copy.1 + e.tail_copy.2 ≤ 15 ∧ e.pos_end = e.tail_copy.1 + e.tail_copy.2) ∧
    (crypto_aegis256_process_ad_loop (fun a => a % 8 == 0)
        [⟨0, 5⟩, ⟨5, 20⟩, ⟨0, 1⟩, ⟨1, 100⟩] sample_state (List.range 37) 37 [] 0).2.2 =
      (crypto_aegis256_process_ad_trace (fun a => a % 8 == 0)
        [⟨0, 5⟩, ⟨5, 20⟩, ⟨0, 1⟩, ⟨1, 100⟩] sample_state (List.range 37) 37 [] 0).foldl
        (fun _ e => e.pos_end) 0 ∧
    (crypto_aegis256_process_ad_loop (fun a => a % 8 == 0)
        [⟨0, 5⟩, ⟨5, 20⟩, ⟨0, 1⟩, ⟨1, 100⟩] sample_state (List.range 37) 37 [] 0).2.2 =
      37 % 16 :=
  process_ad_buffer_bounds (fun a => a % 8 == 0) [⟨0, 5⟩, ⟨5, 20⟩, ⟨0, 1⟩, ⟨1, 100⟩]
    sample_state (List.range 37) 37 [] (by decide) (by decide)

/-! ## Bit lengths and prefixes -/

theorem le_value_cpu_to_le64 (x : Nat) : le_value (cpu_to_le64 x) = x % 2 ^ 64 := by
  unfold le_value cpu_to_le64
  simp only [List.range_succ, List.range_zero, List.nil_append, List.cons_append,
    List.map_cons, List.map_nil, List.foldr_cons, List.foldr_nil]
  norm_num
  omega

theorem cpu_to_le64_bytes (x : Nat) :
    (cpu_to_le64 x).length = 8 ∧ ∀ b ∈ cpu_to_le64 x, b < 256 := by
  unfold cpu_to_le64
  refine ⟨by simp, ?_⟩
  intro b hb
  simp only [List.mem_map] at hb
  obtain ⟨i, _, rfl⟩ := hb
  exact Nat.mod_lt _ (by decide)

theorem getD_of_take_eq (p q : List Nat) (n : Nat) (h : p.take n = q.take n) (i : Nat)
    (hi : i < n) : p.getD i 0 = q.getD i 0 := by
  have h1 := congrArg (fun l => l[i]?) h
  simp only [List.getElem?_take, if_pos hi] at h1
  rw [List.getD_eq_getElem?_getD, List.getD_eq_getElem?_getD, h1]

theorem crypt_bytes_take (dec : Bool) (st : aegis_state) (src : List Nat) (k n : Nat)
    (h : 16 * k ≤ n) :
    (crypt_bytes dec st src n).2.take (16 * k) = (crypt_bytes dec st src (16 * k)).2 := by
  have hn : n = 16 * k + (n - 16 * k) := by omega
  rw [hn, crypt_bytes_add]
  simp only []
  exact List.take_left' (length_crypt_bytes _ _ _ _)

theorem chunk_prefix (A A1 : Nat → Bool) (dec : Bool) (st : aegis_state) (dst dst1 src src1 : u8_ptr)
    (n n1 k : Nat) (hn : 16 * k ≤ n) (hn1 : 16 * k ≤ n1)
    (h : src.bytes.take (16 * k) = src1.bytes.take (16 * k)) :
    (crypt_chunk_of A dec st dst src n).2.take (16 * k) =
      (crypt_chunk_of A1 dec st dst1 src1 n1).2.take (16 * k) := by
  rw [crypt_chunk_eq, crypt_chunk_eq]
  simp only []
  rw [List.take_append_of_le_length (by rw [length_crypt_bytes]; exact hn),
    List.take_append_of_le_length (by rw [length_crypt_bytes]; exact hn1),
    crypt_bytes_take _ _ _ _ _ hn, crypt_bytes_take _ _ _ _ _ hn1,
    crypt_bytes_congr dec st src.bytes src1.bytes (16 * k)
      (fun i hi => getD_of_take_eq _ _ _ h i hi)]

/-- C31 (the aligned and the unaligned code path compute the same function): for every
state, input and size, the two loops of `crypto_aegis256_ad`, of
`crypto_aegis256_encrypt_chunk` and of `crypto_aegis256_decrypt_chunk` give the same state
and the same destination bytes, so the three functions give the same result for any two
alignment predicates and any addresses of the same bytes. -/
theorem aligned_unaligned_agree (A A1 : Nat → Bool) (st : aegis_state) (dst src : List Nat)
    (size da sa da1 sa1 : Nat) :
    crypto_aegis256_ad_loop_u size st src size = crypto_aegis256_ad_loop_a size st src size ∧
    crypto_aegis256_encrypt_loop_u size st dst src size =
      crypto_aegis256_encrypt_loop_a size st dst src size ∧
    crypto_aegis256_decrypt_loop_u size st dst src size =
      crypto_aegis256_decrypt_loop_a size st dst src size ∧
    crypto_aegis256_ad A st ⟨sa, src⟩ size = crypto_aegis256_ad A1 st ⟨sa1, src⟩ size ∧
    crypto_aegis256_encrypt_chunk A st ⟨da, dst⟩ ⟨sa, src⟩ size =
      crypto_aegis256_encrypt_chunk A1 st ⟨da1, dst⟩ ⟨sa1, src⟩ size ∧
    crypto_aegis256_decrypt_chunk A st ⟨da, dst⟩ ⟨sa, src⟩ size =
      crypto_aegis256_decrypt_chunk A1 st ⟨da1, dst⟩ ⟨sa1, src⟩ size := by
  refine ⟨ad_loop_u_eq_a _ _ _ _, encrypt_loop_u_eq_a _ _ _ _ _, decrypt_loop_u_eq_a _ _ _ _ _,
    ?_, ?_, ?_⟩
  · rw [ad_eq_loop_a, ad_eq_loop_a]
  · rw [encrypt_chunk_eq_loop_a, encrypt_chunk_eq_loop_a]
  · rw [decrypt_chunk_eq_loop_a, decrypt_chunk_eq_loop_a]

/-- C32 (bit-length arithmetic): `crypto_aegis256_final` absorbs the block made of the
little-endian bytes of `(assoclen * 8) mod 2^64` and `(cryptlen * 8) mod 2^64`;
`crypto_aegis256_crypt` hands it `req->assoclen` and its own `cryptlen` argument, which is
`req->cryptlen` in `crypto_aegis256_encrypt` and the 32-bit difference
`req->cryptlen - authsize` in `crypto_aegis256_decrypt`, whose return value and output
are those of that call; for 32-bit `assoclen` and `cryptlen` fields all these products
are exact and below 2^35. -/
theorem bit_length_arithmetic (env : environment) (tfm : crypto_aead) (req : aead_request)
    (st : aegis_state) (acc : aegis_block) (alen clen : Nat) (ops : aegis256_ops)
    (ha : req.assoclen < 2 ^ 32) (hc : req.cryptlen < 2 ^ 32) :
    crypto_aegis256_final st acc alen clen =
      (crypto_aegis256_final_loop (crypto_aegis_block_xor
          (cpu_to_le64 ((alen * 8) % 2 ^ 64) ++ cpu_to_le64 ((clen * 8) % 2 ^ 64)) (st.get 3))
          7 st,
        crypto_aegis256_final_xor_loop (crypto_aegis256_final_loop (crypto_aegis_block_xor
          (cpu_to_le64 ((alen * 8) % 2 ^ 64) ++ cpu_to_le64 ((clen * 8) % 2 ^ 64)) (st.get 3))
          7 st) AEGIS256_STATE_BLOCKS 0 acc) ∧
    le_value (cpu_to_le64 ((alen * 8) % 2 ^ 64)) = (alen * 8) % 2 ^ 64 ∧
    le_value (cpu_to_le64 ((clen * 8) % 2 ^ 64)) = (clen * 8) % 2 ^ 64 ∧
    (crypto_aegis256_crypt env tfm req acc clen ops).1 =
      (crypto_aegis256_final
        (crypto_aegis256_process_crypt ops env.walk
          (crypto_aegis256_process_ad env.AEGIS_ALIGNED env.ad_walk env.buf
            (crypto_aegis256_init env.state tfm.ctx.key0 tfm.ctx.key1 req.iv)
            req.src req.assoclen)
          (req.dst.drop req.assoclen) (req.src.drop req.assoclen)).1
        acc req.assoclen clen).2 ∧
    crypto_aegis256_encrypt env tfm req =
      (0, memcpy_at (crypto_aegis256_crypt env tfm req aegis_block_zero req.cryptlen
          ⟨crypto_aegis256_encrypt_chunk env.AEGIS_ALIGNED⟩).2
        ((req.assoclen + req.cryptlen) % 2 ^ 32)
        (crypto_aegis256_crypt env tfm req aegis_block_zero req.cryptlen
          ⟨crypto_aegis256_encrypt_chunk env.AEGIS_ALIGNED⟩).1 tfm.authsize) ∧
    crypto_aegis256_decrypt env tfm req =
      (if crypto_memneq (crypto_aegis256_crypt env tfm req (decrypt_accumulator env tfm req)
            (decrypt_cryptlen tfm req) ⟨crypto_aegis256_decrypt_chunk env.AEGIS_ALIGNED⟩).1
          (List.replicate AEGIS256_MAX_AUTH_SIZE 0) tfm.authsize ≠ 0 then -EBADMSG else 0,
       (crypto_aegis256_crypt env tfm req (decrypt_accumulator env tfm req)
            (decrypt_cryptlen tfm req) ⟨crypto_aegis256_decrypt_chunk env.AEGIS_ALIGNED⟩).2) ∧
    ((req.assoclen * 8) % 2 ^ 64 = req.assoclen * 8 ∧ req.assoclen * 8 < 2 ^ 35) ∧
    ((req.cryptlen * 8) % 2 ^ 64 = req.cryptlen * 8 ∧ req.cryptlen * 8 < 2 ^ 35) ∧
    ((decrypt_cryptlen tfm req * 8) % 2 ^ 64 = decrypt_cryptlen tfm req * 8 ∧
      decrypt_cryptlen tfm req * 8 < 2 ^ 35) := by
  have hd : decrypt_cryptlen tfm req < 2 ^ 32 := Nat.mod_lt _ (by decide)
  refine ⟨rfl, ?_, ?_, rfl, rfl, rfl, ?_, ?_, ?_⟩
  · rw [le_value_cpu_to_le64, Nat.mod_mod]
  · rw [le_value_cpu_to_le64, Nat.mod_mod]
  · exact ⟨Nat.mod_eq_of_lt (by omega), by omega⟩
  · exact ⟨Nat.mod_eq_of_lt (by omega), by omega⟩
  · exact ⟨Nat.mod_eq_of_lt (by omega), by omega⟩

/-- C33 (prefix preservation): for every state and any two inputs of at least `16 * k`
bytes that agree on their first `16 * k` bytes, the bytes `crypto_aegis256_encrypt_chunk`
writes for them agree on the first `16 * k` bytes: ciphertext block `i` depends on the
state and on the plaintext blocks `0..i` only. -/
theorem encrypt_prefix_preserved (A A1 : Nat → Bool) (st : aegis_state)
    (dst dst1 p p1 : List Nat) (da sa da1 sa1 k : Nat)
    (hp : 16 * k ≤ p.length) (hp1 : 16 * k ≤ p1.length)
    (h : p.take (16 * k) = p1.take (16 * k)) :
    (crypto_aegis256_encrypt_chunk A st ⟨da, dst⟩ ⟨sa, p⟩ p.length).2.take (16 * k) =
      (crypto_aegis256_encrypt_chunk A1 st ⟨da1, dst1⟩ ⟨sa1, p1⟩ p1.length).2.take (16 * k) :=
  chunk_prefix A A1 false st ⟨da, dst⟩ ⟨da1, dst1⟩ ⟨sa, p⟩ ⟨sa1, p1⟩ p.length p1.length k
    hp hp1 h

/-- C32, witness: a decryption request with 3 bytes of associated data and `cryptlen` 32
at tag length 12, where the length handed on is 20. -/
theorem bit_length_arithmetic_witness :
    ((⟨3, 32, [], [], []⟩ : aead_request).assoclen * 8 % 2 ^ 64 =
        (⟨3, 32, [], [], []⟩ : aead_request).assoclen * 8 ∧
      (⟨3, 32, [], [], []⟩ : aead_request).assoclen * 8 < 2 ^ 35) ∧
    ((⟨3, 32, [], [], []⟩ : aead_request).cryptlen * 8 % 2 ^ 64 =
        (⟨3, 32, [], [], []⟩ : aead_request).cryptlen * 8 ∧
      (⟨3, 32, [], [], []⟩ : aead_request).cryptlen * 8 < 2 ^ 35) ∧
    (decrypt_cryptlen sample_aead ⟨3, 32, [], [], []⟩ * 8 % 2 ^ 64 =
        decrypt_cryptlen sample_aead ⟨3, 32, [], [], []⟩ * 8 ∧
      decrypt_cryptlen sample_aead ⟨3, 32, [], [], []⟩ * 8 < 2 ^ 35) :=
  (bit_length_arithmetic sample_env_d sample_aead ⟨3, 32, [], [], []⟩ sample_state [] 3 20
    ⟨crypto_aegis256_decrypt_chunk sample_env_d.AEGIS_ALIGNED⟩ (by decide)
    (by decide)).2.2.2.2.2.2

/-- C33, witness: two inputs of 40 and 35 bytes that agree on their first 32 bytes. -/
theorem encrypt_prefix_preserved_witness :
    (crypto_aegis256_encrypt_chunk (fun a => a % 8 == 0) sample_state ⟨0, []⟩
        ⟨0, List.range 40⟩ (List.range 40).length).2.take (16 * 2) =
      (crypto_aegis256_encrypt_chunk (fun _ => false) sample_state ⟨8, [7, 7]⟩
        ⟨1, List.range 32 ++ [0, 0, 0]⟩ (List.range 32 ++ [0, 0, 0]).length).2.take (16 * 2) :=
  encrypt_prefix_preserved (fun a => a % 8 == 0) (fun _ => false) sample_state [] [7, 7]
    (List.range 40) (List.range 32 ++ [0, 0, 0]) 0 0 8 1 2 (by decide) (by decide)
    (by decide)

/-! ## Payload walks with a step that is not a multiple of 16 bytes -/

set_option maxRecDepth 1000000 in
set_option maxHeartbeats 4000000 in
theorem encrypt_split_walk_eval :
    crypto_aegis256_encrypt split_walk_env (zero_key_tfm 16)
      (encrypt_request (List.replicate 32 0) [] (List.replicate 32 0) []) =
    (0, [185, 143, 3, 169, 71, 128, 119, 19, 215, 90, 79, 255, 159, 194, 119, 166,
      178, 56, 102, 132, 187, 3, 163, 115, 145, 250, 251, 105, 192, 32, 249, 102,
      214, 249, 22, 159, 47, 48, 162, 241, 22, 129, 215, 225, 233, 127, 59, 250]) := by
  decide!

set_option maxRecDepth 1000000 in
set_option maxHeartbeats 4000000 in
theorem encrypt_whole_walk_eval :
    crypto_aegis256_encrypt whole_walk_env (zero_key_tfm 16)
      (encrypt_request (List.replicate 32 0) [] (List.replicate 32 0) []) =
    (0, [185, 143, 3, 169, 71, 128, 119, 19, 215, 90, 79, 255, 159, 194, 119, 166,
      178, 134, 112, 94, 108, 207, 54, 137, 116, 173, 233, 255, 85, 80, 164, 197,
      244, 108, 63, 49, 54, 230, 16, 218, 253, 158, 26, 211, 98, 193, 14, 169]) := by
  decide!

set_option maxRecDepth 1000000 in
set_option maxHeartbeats 4000000 in
theorem decrypt_whole_walk_eval :
    crypto_aegis256_decrypt whole_walk_env (zero_key_tfm 16)
      (decrypt_request (List.replicate 32 0) []
        [185, 143, 3, 169, 71, 128, 119, 19, 215, 90, 79, 255, 159, 194, 119, 166,
          178, 56, 102, 132, 187, 3, 163, 115, 145, 250, 251, 105, 192, 32, 249, 102]
        [214, 249, 22, 159, 47, 48, 162, 241, 22, 129, 215, 225, 233, 127, 59, 250] []) =
    (-74, [0, 0, 0, 0, 0, 0, 0, 0, 0, 0, 0, 0, 0, 0, 0, 0,
      0, 190, 22, 218, 215, 204, 149, 250, 229, 87, 18, 150, 149, 112, 93, 163]) := by
  decide!

/-- C1 (round trip), evaluated where the code breaks it: under the all-zero key and
nonce, with no associated data and tag length 16, `crypto_aegis256_encrypt` on 32 zero
bytes that the walk yields in steps of 17 and 15 bytes writes a ciphertext and a tag on
which `crypto_aegis256_decrypt`, with the walk yielding the 32 bytes in one step, returns
-EBADMSG and writes a plaintext that is wrong from byte 17 on. -/
theorem round_trip_fails_on_split_walk :
    (crypto_aegis256_decrypt whole_walk_env (zero_key_tfm 16)
      (decrypt_request (List.replicate 32 0) []
        (payload_of (crypto_aegis256_encrypt split_walk_env (zero_key_tfm 16)
          (encrypt_request (List.replicate 32 0) [] (List.replicate 32 0) [])).2 0 32)
        (tag_of (crypto_aegis256_encrypt split_walk_env (zero_key_tfm 16)
          (encrypt_request (List.replicate 32 0) [] (List.replicate 32 0) [])).2 0 32 16)
        [])).1 = -EBADMSG ∧
    payload_of (crypto_aegis256_decrypt whole_walk_env (zero_key_tfm 16)
      (decrypt_request (List.replicate 32 0) []
        (payload_of (crypto_aegis256_encrypt split_walk_env (zero_key_tfm 16)
          (encrypt_request (List.replicate 32 0) [] (List.replicate 32 0) [])).2 0 32)
        (tag_of (crypto_aegis256_encrypt split_walk_env (zero_key_tfm 16)
          (encrypt_request (List.replicate 32 0) [] (List.replicate 32 0) [])).2 0 32 16)
        [])).2 0 32 =
      [0, 0, 0, 0, 0, 0, 0, 0, 0, 0, 0, 0, 0, 0, 0, 0,
        0, 190, 22, 218, 215, 204, 149, 250, 229, 87, 18, 150, 149, 112, 93, 163] ∧
    payload_of (crypto_aegis256_decrypt whole_walk_env (zero_key_tfm 16)
      (decrypt_request (List.replicate 32 0) []
        (payload_of (crypto_aegis256_encrypt split_walk_env (zero_key_tfm 16)
          (encrypt_request (List.replicate 32 0) [] (List.replicate 32 0) [])).2 0 32)
        (tag_of (crypto_aegis256_encrypt split_walk_env (zero_key_tfm 16)
          (encrypt_request (List.replicate 32 0) [] (List.replicate 32 0) [])).2 0 32 16)
        [])).2 0 32 ≠ List.replicate 32 0 := by
  rw [encrypt_split_walk_eval]
  have hp : payload_of ((0 : Int), [185, 143, 3, 169, 71, 128, 119, 19, 215, 90, 79, 255, 159,
      194, 119, 166, 178, 56, 102, 132, 187, 3, 163, 115, 145, 250, 251, 105, 192, 32, 249, 102,
      214, 249, 22, 159, 47, 48, 162, 241, 22, 129, 215, 225, 233, 127, 59, 250]).2 0 32 =
      [185, 143, 3, 169, 71, 128, 119, 19, 215, 90, 79, 255, 159, 194, 119, 166,
        178, 56, 102, 132, 187, 3, 163, 115, 145, 250, 251, 105, 192, 32, 249, 102] := by
    decide
  have ht : tag_of ((0 : Int), [185, 143, 3, 169, 71, 128, 119, 19, 215, 90, 79, 255, 159,
      194, 119, 166, 178, 56, 102, 132, 187, 3, 163, 115, 145, 250, 251, 105, 192, 32, 249, 102,
      214, 249, 22, 159, 47, 48, 162, 241, 22, 129, 215, 225, 233, 127, 59, 250]).2 0 32 16 =
      [214, 249, 22, 159, 47, 48, 162, 241, 22, 129, 215, 225, 233, 127, 59, 250] := by
    decide
  rw [hp, ht, decrypt_whole_walk_eval]
  decide

/-- C2 (chunk-boundary independence of the payload), evaluated where the code breaks it:
from `sample_state`, 32 zero bytes encrypted as one range and in ranges of 17 and 15
bytes agree on the first 17 ciphertext bytes only, and the final states differ; likewise
the three bytes 1, 2, 3 give the ciphertext 1, 3, 1 as one range and 1, 3, 3 in the
ranges 1 and 2, 3. -/
theorem encrypt_chunking_dependent :
    (crypto_aegis256_encrypt_chunk (fun _ => true) sample_state ⟨0, []⟩
      ⟨0, List.replicate 32 0⟩ 32).2 =
      [0, 1, 2, 3, 4, 5, 6, 7, 8, 9, 10, 11, 12, 13, 14, 15,
        1, 0, 33, 33, 71, 7, 70, 37, 75, 43, 40, 9, 76, 110, 76, 44] ∧
    (crypto_aegis256_process_crypt ⟨crypto_aegis256_encrypt_chunk (fun _ => true)⟩
      [⟨0, 0, 17⟩, ⟨17, 17, 15⟩] sample_state [] (List.replicate 32 0)).2 =
      [0, 1, 2, 3, 4, 5, 6, 7, 8, 9, 10, 11, 12, 13, 14, 15,
        1, 185, 30, 147, 154, 217, 149, 186, 223, 192, 185, 54, 135, 20, 157, 132] ∧
    (crypto_aegis256_process_crypt ⟨crypto_aegis256_encrypt_chunk (fun _ => true)⟩
      [⟨0, 0, 17⟩, ⟨17, 17, 15⟩] sample_state [] (List.replicate 32 0)).1 ≠
    (crypto_aegis256_encrypt_chunk (fun _ => true) sample_state ⟨0, []⟩
      ⟨0, List.replicate 32 0⟩ 32).1 ∧
    (crypto_aegis256_encrypt_chunk (fun _ => true) sample_state ⟨0, [0, 0, 0]⟩
      ⟨0, [1, 2, 3]⟩ 3).2 = [1, 3, 1] ∧
    (crypto_aegis256_process_crypt ⟨crypto_aegis256_encrypt_chunk (fun _ => true)⟩
      [⟨0, 0, 1⟩, ⟨1, 1, 2⟩] sample_state [0, 0, 0] [1, 2, 3]).2 = [1, 3, 3] ∧
    (crypto_aegis256_process_crypt ⟨crypto_aegis256_encrypt_chunk (fun _ => true)⟩
      [⟨0, 0, 1⟩, ⟨1, 1, 2⟩] sample_state [0, 0, 0] [1, 2, 3]).1 ≠
    (crypto_aegis256_encrypt_chunk (fun _ => true) sample_state ⟨0, [0, 0, 0]⟩
      ⟨0, [1, 2, 3]⟩ 3).1 := by
  decide

/-- C19 (determinism), evaluated where the code breaks it: two runs of
`crypto_aegis256_encrypt` with the same all-zero key and nonce, no associated data, the
same 32 zero bytes of plaintext and tag length 16, one with the walk yielding the
payload in steps of 17 and 15 bytes and one with the walk yielding it in one step, write
different ciphertexts and different tags. -/
theorem encrypt_depends_on_walk :
    payload_of (crypto_aegis256_encrypt split_walk_env (zero_key_tfm 16)
        (encrypt_request (List.replicate 32 0) [] (List.replicate 32 0) [])).2 0 32 ≠
      payload_of (crypto_aegis256_encrypt whole_walk_env (zero_key_tfm 16)
        (encrypt_request (List.replicate 32 0) [] (List.replicate 32 0) [])).2 0 32 ∧
    tag_of (crypto_aegis256_encrypt split_walk_env (zero_key_tfm 16)
        (encrypt_request (List.replicate 32 0) [] (List.replicate 32 0) [])).2 0 32 16 ≠
      tag_of (crypto_aegis256_encrypt whole_walk_env (zero_key_tfm 16)
        (encrypt_request (List.replicate 32 0) [] (List.replicate 32 0) [])).2 0 32 16 ∧
    (crypto_aegis256_encrypt split_walk_env (zero_key_tfm 16)
        (encrypt_request (List.replicate 32 0) [] (List.replicate 32 0) [])).2 =
      [185, 143, 3, 169, 71, 128, 119, 19, 215, 90, 79, 255, 159, 194, 119, 166,
        178, 56, 102, 132, 187, 3, 163, 115, 145, 250, 251, 105, 192, 32, 249, 102,
        214, 249, 22, 159, 47, 48, 162, 241, 22, 129, 215, 225, 233, 127, 59, 250] ∧
    (crypto_aegis256_encrypt whole_walk_env (zero_key_tfm 16)
        (encrypt_request (List.replicate 32 0) [] (List.replicate 32 0) [])).2 =
      [185, 143, 3, 169, 71, 128, 119, 19, 215, 90, 79, 255, 159, 194, 119, 166,
        178, 134, 112, 94, 108, 207, 54, 137, 116, 173, 233, 255, 85, 80, 164, 197,
        244, 108, 63, 49, 54, 230, 16, 218, 253, 158, 26, 211, 98, 193, 14, 169] := by
  rw [encrypt_split_walk_eval, encrypt_whole_walk_eval]
  decide

end Aegis256
